import Mathlib

/-! # LSM-in-GO: write-ahead log, memtable and skip list

A shallow embedding of `src/write-ahead-log/wal.go`, `src/memtable/memtable.go` and
`src/memtable/skip-list.go`.

* Go strings are lists of characters, compared the way Go compares strings.
* The file system is an explicit value threaded through every operation; each system call
  may be made to fail by the environment (`World.faults`), and the environment says how much
  memory one allocation can get (`World.memory`).
* A Go `error` result is `Res.err`, a Go panic is `Res.panic`.
-/

set_option autoImplicit false

/-- A Go string as its sequence of characters.  Go orders strings byte by byte; on valid
UTF-8 that is the order of the code points, which is the order of `List Char` used here. -/
abbrev GoString := List Char

/-- A byte of a file or of a serialised entry. -/
abbrev Byte := Fin 256

/-! ## Package `strings`, `path`, `fmt`, `time` (the parts the repository calls) -/

namespace strings

/-- Go `a < b` on strings: lexicographic, a proper initial segment is smaller. -/
def lt : GoString → GoString → Bool
  | [], [] => false
  | [], _ :: _ => true
  | _ :: _, [] => false
  | a :: as, b :: bs => if a < b then true else if b < a then false else lt as bs

/-- Go `a <= b` on strings. -/
def le (a b : GoString) : Bool := !lt b a

/-- Go `strings.Split(s, sep)` for a one-character separator: every piece between
separators, in order; a string without separator is the single piece. -/
def Split (sep : Char) : GoString → List GoString
  | [] => [[]]
  | c :: cs =>
    if c = sep then [] :: Split sep cs
    else
      match Split sep cs with
      | [] => [[c]]
      | p :: ps => (c :: p) :: ps

/-- Go `strings.HasSuffix(s, suffix)`. -/
def HasSuffix (s suffix : GoString) : Bool :=
  suffix.length ≤ s.length && s.drop (s.length - suffix.length) == suffix

/-- Go `strings.TrimSuffix(s, suffix)`. -/
def TrimSuffix (s suffix : GoString) : GoString :=
  if HasSuffix s suffix then s.take (s.length - suffix.length) else s

end strings

namespace path

/-- Scan of `path.Ext` from the last character backwards, on the reversed string:
`acc` holds the characters already passed, in order. -/
def extRev : List Char → List Char → GoString
  | [], _ => []
  | c :: rest, acc =>
    if c = '/' then []
    else if c = '.' then c :: acc
    else extRev rest (c :: acc)

/-- Go `path.Ext(p)`: the suffix starting at the last dot of the last slash-separated
element, empty if there is none. -/
def Ext (p : GoString) : GoString := extRev p.reverse []

/-- Go `path.Join(dir, name)` for a cleaned, non-root `dir` and a plain file name:
the two joined by one slash. -/
def Join (dir name : GoString) : GoString := dir ++ '/' :: name

/-- Go `path.Base(p)` for a path that does not end in a slash: the part after the last
slash. -/
def Base (p : GoString) : GoString := ((strings.Split '/' p).getLast?).getD []

/-- Go `filepath.Dir(p)` for a cleaned path: all but the last element, `.` when there is
no slash, `/` for a file of the root. -/
def Dir (p : GoString) : GoString :=
  match (strings.Split '/' p).dropLast with
  | [] => ['.']
  | d :: ds => if (d :: ds) = [[]] then ['/'] else ['/'].intercalate (d :: ds)

end path

namespace fmt

/-- Go `%d` of a non-negative integer: decimal digits, no padding. -/
def d (n : Nat) : GoString := Nat.toDigits 10 n

/-- Zero-padded decimal of at least `width` digits, as `time.Format` writes its fields. -/
def padded (width n : Nat) : GoString :=
  List.replicate (width - (d n).length) '0' ++ d n

end fmt

namespace time

/-- The wall-clock reading `time.Now()` returns, broken into the fields `Format` and
`Nanosecond` use. -/
structure Time where
  year : Nat
  month : Nat
  day : Nat
  hour : Nat
  minute : Nat
  second : Nat
  nanosecond : Nat
deriving DecidableEq, Repr

/-- Go `t.Format("20060102150405")`: `YYYYMMDDhhmmss`. -/
def Time.Format (t : Time) : GoString :=
  fmt.padded 4 t.year ++ fmt.padded 2 t.month ++ fmt.padded 2 t.day ++
    fmt.padded 2 t.hour ++ fmt.padded 2 t.minute ++ fmt.padded 2 t.second

/-- A reading of the clock: year of four digits, fields within their ranges. -/
def Time.valid (t : Time) : Bool :=
  t.year < 10000 && 1 ≤ t.month && t.month ≤ 12 && 1 ≤ t.day && t.day ≤ 31 &&
    t.hour < 24 && t.minute < 60 && t.second < 60 && t.nanosecond < 1000000000

/-- The instant `a` is earlier than the instant `b`: by second, then by nanosecond. -/
def Time.before (a b : Time) : Bool :=
  let ka := [a.year, a.month, a.day, a.hour, a.minute, a.second, a.nanosecond]
  let kb := [b.year, b.month, b.day, b.hour, b.minute, b.second, b.nanosecond]
  decide (ka < kb)

end time

/-! ## Results of Go calls -/

/-- System calls the repository makes. -/
inductive Syscall where
  | openFile | stat | seek | write | sync | read | close | remove | readDir
deriving DecidableEq, Repr

/-- A Go `error` value. -/
inductive Error where
  /-- The package variable `errNilFD`. -/
  | errNilFD
  /-- The error `io.EOF`. -/
  | EOF
  /-- The error `io.ErrUnexpectedEOF`. -/
  | ErrUnexpectedEOF
  /-- The file does not exist. -/
  | notExist
  /-- The name is a directory and cannot be opened for writing. -/
  | isDirectory
  /-- A failure of the system call itself. -/
  | sys (call : Syscall)
  /-- An error of the entry codec, with the codec's own code. -/
  | codec (code : Nat)
deriving DecidableEq, Repr

/-- A Go run-time panic. -/
inductive Panic where
  /-- Go `panic(err)`. -/
  | ofError (e : Error)
  /-- An index outside a slice: `index out of range [i] with length n`. -/
  | indexOutOfRange (i : Int) (len : Nat)
  /-- A nil pointer dereference. -/
  | nilDereference
  /-- The run-time refusing `make([]byte, n)`, `makeslice: len out of range`: `n` is
  negative or above the allocation limit. -/
  | makeSliceLen (n : Int)
  /-- The run time's `fatal error: out of memory`: the machine does not give the memory an
  allocation asks for, and the program ends there, as after a panic nobody recovers. -/
  | outOfMemory
  /-- The logger's `Panicf`, with the format string. -/
  | logged (format : String)
deriving DecidableEq, Repr

/-- What a call ends with: a value, a returned `error`, or a panic. -/
inductive Res (α : Type) where
  | ok (a : α)
  | err (e : Error)
  | panic (p : Panic)
deriving DecidableEq, Repr

namespace wal

/-- The package variable `errNilFD`. -/
def errNilFD : Error := Error.errNilFD

/-- Go `ParseVersion`: drop the `.log` suffix, split on `-`, join pieces 1 and 2 with `-`.
Indexing a missing piece panics. -/
def ParseVersion (file : GoString) : Res GoString :=
  let parts := strings.Split '-' (strings.TrimSuffix file ".log".toList)
  match parts with
  | _ :: p1 :: p2 :: _ => Res.ok (p1 ++ '-' :: p2)
  | _ :: _ :: [] => Res.panic (Panic.indexOutOfRange 2 2)
  | _ => Res.panic (Panic.indexOutOfRange 1 parts.length)

/-- Go `CompareVersion`: compare piece 0, then piece 1, as strings.  Piece 1 is indexed
only when the pieces 0 are equal, first of `v1`, then of `v2`. -/
def CompareVersion (v1 v2 : GoString) : Res Int :=
  let parts1 := strings.Split '-' v1
  let parts2 := strings.Split '-' v2
  let a0 := parts1.headD []
  let b0 := parts2.headD []
  if strings.lt a0 b0 then Res.ok (-1)
  else if strings.lt b0 a0 then Res.ok 1
  else
    match parts1.tail.head?, parts2.tail.head? with
    | none, _ => Res.panic (Panic.indexOutOfRange 1 parts1.length)
    | some _, none => Res.panic (Panic.indexOutOfRange 1 parts2.length)
    | some a1, some b1 =>
      if strings.lt a1 b1 then Res.ok (-1)
      else if strings.lt b1 a1 then Res.ok 1
      else Res.ok 0

/-- The version `Create` formats from the clock: `fmt.Sprintf("%s-%d", ...)`. -/
def versionAt (createdAt : time.Time) : GoString :=
  createdAt.Format ++ '-' :: fmt.d createdAt.nanosecond

/-- The file name `Create` formats from a version: `fmt.Sprintf("wal-%s.log", version)`. -/
def fileName (version : GoString) : GoString :=
  "wal-".toList ++ version ++ ".log".toList

end wal

/-! ## Package `types` and the entry codec (package `utils`) -/

namespace types

/-- Go `types.Key`. -/
abbrev Key := GoString

/-- Go `types.Entry`; `Version` is an `int64` (`recover` takes `max` of it with an `int64`). -/
structure Entry where
  Key : Key
  Value : List Byte
  Tombstone : Bool
  Version : Int
deriving DecidableEq, Repr

end types

/-- The entry codec `utils.TMarshal` / `utils.TUnmarshal`, which the repository calls and
does not define: it is a parameter of every operation that serialises. -/
structure Codec where
  TMarshal : types.Entry → Res (List Byte)
  TUnmarshal : List Byte → Res types.Entry

/-! ## Package `encoding/binary`: little-endian `int64` -/

namespace binary

/-- The `k` low bytes of `v`, least significant first. -/
def leBytes : Nat → Nat → List Byte
  | 0, _ => []
  | k + 1, v => ⟨v % 256, Nat.mod_lt _ (by decide)⟩ :: leBytes k (v / 256)

/-- The number a little-endian byte string denotes. -/
def leValue : List Byte → Nat
  | [] => 0
  | b :: bs => b.val + 256 * leValue bs

/-- Go `binary.Write(buf, binary.LittleEndian, n)` for `n int64`: eight bytes, the value
taken modulo `2^64` (two's complement). -/
def putInt64 (n : Int) : List Byte := leBytes 8 (n % 2 ^ 64).toNat

/-- Go `binary.Read(reader, binary.LittleEndian, &n)` for `n int64`, on the eight bytes
read: the two's complement value. -/
def getInt64 (bs : List Byte) : Int :=
  if leValue bs < 2 ^ 63 then (leValue bs : Int) else (leValue bs : Int) - 2 ^ 64

end binary

/-! ## The file system -/

/-- A file of the file system.  A file keeps its place in `World.files` for good, so a
handle (the place) stays valid after the name is unlinked. -/
structure File where
  path : GoString
  isDir : Bool
  data : List Byte
  /-- How many leading bytes of `data` an `fsync` has made durable. -/
  synced : Nat
  /-- Whether the name is still in its directory. -/
  linked : Bool
deriving DecidableEq, Repr

namespace runtime

/-- Go `runtime.maxAlloc` where heap addresses have 48 bits (`heapAddrBits = 48`: the 64-bit
platforms other than wasm and ios): the most bytes one allocation may ask for.  `makeslice`
panics above it. -/
def maxAlloc : Nat := 2 ^ 48

end runtime

/-- The environment: the files, for each system call still to come whether it fails
(`some k`: it fails, a write after `k` bytes reached the file; `none` or nothing left: it
succeeds), and `memory`, the most bytes the machine gives to one `make([]byte, n)`. -/
structure World where
  files : List File
  faults : List (Option Nat)
  memory : Nat
deriving DecidableEq, Repr

namespace World

/-- The environment's decision for the next system call, and the environment after it. -/
def next (world : World) : Option Nat × World :=
  match world.faults with
  | [] => (none, world)
  | f :: rest => (f, { world with faults := rest })

/-- The handle of the linked file named `p`, if any. -/
def lookup (world : World) (p : GoString) : Option Nat :=
  let i := world.files.findIdx (fun f => f.linked && f.path == p)
  if i < world.files.length then some i else none

/-- The bytes of the file behind handle `h`. -/
def dataOf (world : World) (h : Nat) : List Byte :=
  match world.files[h]? with
  | some f => f.data
  | none => []

/-- The durable bytes of the file behind handle `h`. -/
def durableOf (world : World) (h : Nat) : List Byte :=
  match world.files[h]? with
  | some f => f.data.take f.synced
  | none => []

/-- Replace the file behind handle `h` by `g` of it. -/
def modify (world : World) (h : Nat) (g : File → File) : World :=
  { world with files := world.files.modify g h }

/-- No two linked files share a name. -/
def namesUnique (world : World) : Prop :=
  ∀ (i j : Nat) (f g : File), world.files[i]? = some f → world.files[j]? = some g →
    f.linked = true → g.linked = true → f.path = g.path → i = j

end World

namespace os

/-- Go `os.OpenFile(name, flags, 0755)` with `O_RDWR|O_APPEND`, and `O_CREATE` when
`create`: the handle of the file, made empty first when it is missing and `create`. -/
def OpenFile (name : GoString) (create : Bool) (world : World) : Res Nat × World :=
  match world.next with
  | (some _, world1) => (Res.err (Error.sys Syscall.openFile), world1)
  | (none, world1) =>
    match world1.lookup name with
    | some h =>
      match world1.files[h]? with
      | some f => if f.isDir then (Res.err Error.isDirectory, world1) else (Res.ok h, world1)
      | none => (Res.err Error.notExist, world1)
    | none =>
      if create then
        (Res.ok world1.files.length,
          { world1 with files := world1.files ++ [⟨name, false, [], 0, true⟩] })
      else (Res.err Error.notExist, world1)

/-- Go `os.Stat(name)`: the size of the file. -/
def Stat (name : GoString) (world : World) : Res Nat × World :=
  match world.next with
  | (some _, world1) => (Res.err (Error.sys Syscall.stat), world1)
  | (none, world1) =>
    match world1.lookup name with
    | some h => (Res.ok (world1.dataOf h).length, world1)
    | none => (Res.err Error.notExist, world1)

/-- Go `os.IsNotExist(err)`. -/
def IsNotExist : Res Nat → Bool
  | Res.err Error.notExist => true
  | _ => false

/-- Go `fd.Seek(0, whence)`: nothing but a possible failure, since the file is opened with
`O_APPEND` (writes go to the end) and `Read` reads from the start it seeks to. -/
def Seek (world : World) : Res Unit × World :=
  match world.next with
  | (some _, world1) => (Res.err (Error.sys Syscall.seek), world1)
  | (none, world1) => (Res.ok (), world1)

/-- Go `fd.Write(bs)` on a file opened with `O_APPEND`: the bytes go to the end of the
file; a failing write may leave a leading part of them there. -/
def Write (h : Nat) (bs : List Byte) (world : World) : Res Unit × World :=
  match world.next with
  | (some k, world1) =>
    (Res.err (Error.sys Syscall.write),
      world1.modify h (fun f => { f with data := f.data ++ bs.take k }))
  | (none, world1) =>
    (Res.ok (), world1.modify h (fun f => { f with data := f.data ++ bs }))

/-- Go `fd.Sync()`: everything written so far becomes durable. -/
def Sync (h : Nat) (world : World) : Res Unit × World :=
  match world.next with
  | (some _, world1) => (Res.err (Error.sys Syscall.sync), world1)
  | (none, world1) => (Res.ok (), world1.modify h (fun f => { f with synced := f.data.length }))

/-- Go `buf.ReadFrom(fd)` after the seek to the start: the whole file. -/
def ReadAll (h : Nat) (world : World) : Res (List Byte) × World :=
  match world.next with
  | (some _, world1) => (Res.err (Error.sys Syscall.read), world1)
  | (none, world1) => (Res.ok (world1.dataOf h), world1)

/-- Go `fd.Close()`. -/
def Close (world : World) : Res Unit × World :=
  match world.next with
  | (some _, world1) => (Res.err (Error.sys Syscall.close), world1)
  | (none, world1) => (Res.ok (), world1)

/-- Go `os.Remove(name)`: the name leaves its directory. -/
def Remove (name : GoString) (world : World) : Res Unit × World :=
  match world.next with
  | (some _, world1) => (Res.err (Error.sys Syscall.remove), world1)
  | (none, world1) =>
    match world1.lookup name with
    | some h => (Res.ok (), world1.modify h (fun f => { f with linked := false }))
    | none => (Res.err Error.notExist, world1)

/-- What `os.ReadDir` tells of one entry: `Name()` and `IsDir()`. -/
structure DirEntry where
  Name : GoString
  IsDir : Bool
deriving DecidableEq, Repr

/-- The name of `p` inside `dir`, when `p` is directly in `dir`. -/
def childName (dir p : GoString) : Option GoString :=
  if p.take (dir.length + 1) = dir ++ ['/'] then
    let name := p.drop (dir.length + 1)
    if name ≠ [] ∧ '/' ∉ name then some name else none
  else none

/-- The entries of `dir` among `files`, in the order of `files`. -/
def children (dir : GoString) : List File → List DirEntry
  | [] => []
  | f :: fs =>
    match (if f.linked then childName dir f.path else none) with
    | some name => ⟨name, f.isDir⟩ :: children dir fs
    | none => children dir fs

/-- Go `os.ReadDir(dir)`: the entries of the directory, sorted by file name. -/
def ReadDir (dir : GoString) (world : World) : Res (List DirEntry) × World :=
  match world.next with
  | (some _, world1) => (Res.err (Error.sys Syscall.readDir), world1)
  | (none, world1) =>
    (Res.ok ((children dir world1.files).insertionSort
      (fun a b => strings.le a.Name b.Name = true)), world1)

end os

/-! ## Package `wal` (`src/write-ahead-log/wal.go`) -/

namespace wal

/-- Go `WAL` (mutex and logger left out): `fd` is the open handle or nil. -/
structure WAL where
  fd : Option Nat
  dir : GoString
  path : GoString
  version : GoString
deriving DecidableEq, Repr

/-- Go `Create(dir)`, with `createdAt` the reading `time.Now()` gives. -/
def Create (dir : GoString) (createdAt : time.Time) (world : World) : Res WAL × World :=
  let version := versionAt createdAt
  let name := path.Join dir (fileName version)
  match os.OpenFile name true world with
  | (Res.ok file, world1) => (Res.ok ⟨some file, dir, name, version⟩, world1)
  | (Res.err e, world1) => (Res.err e, world1)
  | (Res.panic p, world1) => (Res.panic p, world1)

/-- The version `Open` stores: `ParseVersion(path.Base(file))`, evaluated only once the
file has been opened. -/
def Open (file : GoString) (world : World) : Res WAL × World :=
  match os.Stat file world with
  | (r, world1) =>
    if os.IsNotExist r then (Res.err Error.notExist, world1)
    else
      match os.OpenFile file false world1 with
      | (Res.ok fd, world2) =>
        match ParseVersion (path.Base file) with
        | Res.ok version => (Res.ok ⟨some fd, path.Dir file, file, version⟩, world2)
        | Res.err e => (Res.err e, world2)
        | Res.panic p => (Res.panic p, world2)
      | (Res.err e, world2) => (Res.err e, world2)
      | (Res.panic p, world2) => (Res.panic p, world2)

/-- Go `(*WAL).close`: close the handle if there is one, and forget it. -/
def WAL.close (w : WAL) (world : World) : Res Unit × WAL × World :=
  match w.fd with
  | some _ =>
    match os.Close world with
    | (Res.ok _, world1) => (Res.ok (), { w with fd := none }, world1)
    | (Res.err e, world1) => (Res.err e, w, world1)
    | (Res.panic p, world1) => (Res.panic p, w, world1)
  | none => (Res.ok (), w, world)

/-- Go `(*WAL).Close`. -/
def WAL.Close (w : WAL) (world : World) : Res Unit × WAL × World := w.close world

/-- Go `(*WAL).Reset`: close, then `Create` in the same directory. -/
def WAL.Reset (w : WAL) (createdAt : time.Time) (world : World) : Res WAL × WAL × World :=
  match w.close world with
  | (Res.ok _, w1, world1) =>
    match Create w1.dir createdAt world1 with
    | (r, world2) => (r, w1, world2)
  | (Res.err e, w1, world1) => (Res.err e, w1, world1)
  | (Res.panic p, w1, world1) => (Res.panic p, w1, world1)

/-- Go `(*WAL).Delete`: close, then remove the file by its path. -/
def WAL.Delete (w : WAL) (world : World) : Res Unit × WAL × World :=
  match w.close world with
  | (Res.ok _, w1, world1) =>
    match os.Remove w1.path world1 with
    | (r, world2) => (r, w1, world2)
  | (Res.err e, w1, world1) => (Res.err e, w1, world1)
  | (Res.panic p, w1, world1) => (Res.panic p, w1, world1)

/-- One record of the file: the little-endian `int64` length of the body, then the body. -/
def record (data : List Byte) : List Byte := binary.putInt64 data.length ++ data

/-- The loop of `Write` that fills the scratch buffer `buf`: for each entry its
serialisation as a record. -/
def WAL.Write.fill (c : Codec) : List types.Entry → List Byte → Res (List Byte)
  | [], buf => Res.ok buf
  | entry :: rest, buf =>
    match c.TMarshal entry with
    | Res.ok data => WAL.Write.fill c rest (buf ++ record data)
    | Res.err e => Res.err e
    | Res.panic p => Res.panic p

/-- Go `(*WAL).Write(entries...)`; the scratch buffer of the pool starts empty. -/
def WAL.Write (c : Codec) (w : WAL) (entries : List types.Entry) (world : World) :
    Res Unit × World :=
  match w.fd with
  | none => (Res.err errNilFD, world)
  | some fd =>
    match os.Seek world with
    | (Res.ok _, world1) =>
      match WAL.Write.fill c entries [] with
      | Res.ok buf =>
        match os.Write fd buf world1 with
        | (Res.ok _, world2) => os.Sync fd world2
        | (Res.err e, world2) => (Res.err e, world2)
        | (Res.panic p, world2) => (Res.panic p, world2)
      | Res.err e => (Res.err e, world1)
      | Res.panic p => (Res.panic p, world1)
    | (Res.err e, world1) => (Res.err e, world1)
    | (Res.panic p, world1) => (Res.panic p, world1)

/-- The loop of `Read` over the bytes left in the reader, `entries` being those decoded
so far, on a machine that gives `memory` bytes to one allocation.  `make([]byte, n)` panics
for `n` negative or above `runtime.maxAlloc`, and ends the program when the machine does not
have `n` bytes.  Each round takes at least the eight length bytes, so `fuel` rounds with
`fuel` at least the number of bytes never run out (`none` is running out). -/
def WAL.Read.loop (c : Codec) (memory : Nat) : Nat → List Byte → List types.Entry →
    Option (Res (List types.Entry))
  | _, [], entries => some (Res.ok entries)
  | 0, _ :: _, _ => none
  | fuel + 1, b :: bs, entries =>
    if (b :: bs).length < 8 then some (Res.err Error.ErrUnexpectedEOF)
    else
      let n := binary.getInt64 ((b :: bs).take 8)
      let rest := (b :: bs).drop 8
      if n < 0 ∨ (runtime.maxAlloc : Int) < n then some (Res.panic (Panic.makeSliceLen n))
      else if memory < n.toNat then some (Res.panic Panic.outOfMemory)
      else if rest.length < n.toNat then
        some (Res.err (if rest.length = 0 then Error.EOF else Error.ErrUnexpectedEOF))
      else
        match c.TUnmarshal (rest.take n.toNat) with
        | Res.ok entry =>
          WAL.Read.loop c memory fuel (rest.drop n.toNat) (entries ++ [entry])
        | Res.err e => some (Res.err e)
        | Res.panic p => some (Res.panic p)

/-- Go `(*WAL).Read`. -/
def WAL.Read (c : Codec) (w : WAL) (world : World) : Res (List types.Entry) × World :=
  match w.fd with
  | none => (Res.err errNilFD, world)
  | some fd =>
    match os.Stat w.path world with
    | (Res.ok size, world1) =>
      if size = 0 then (Res.ok [], world1)
      else
        match os.Seek world1 with
        | (Res.ok _, world2) =>
          match os.ReadAll fd world2 with
          | (Res.ok bytes, world3) =>
            ((WAL.Read.loop c world3.memory bytes.length bytes []).getD (Res.ok []), world3)
          | (Res.err e, world3) => (Res.err e, world3)
          | (Res.panic p, world3) => (Res.panic p, world3)
        | (Res.err e, world2) => (Res.err e, world2)
        | (Res.panic p, world2) => (Res.panic p, world2)
    | (Res.err e, world1) => (Res.err e, world1)
    | (Res.panic p, world1) => (Res.panic p, world1)

/-- Go `(*WAL).Version`. -/
def WAL.Version (w : WAL) : GoString := w.version

end wal

/-! ## Package `skiplist` (imported by `memtable.go`, source not in the repository) -/

/-- A `float64` between 0 and 1, as the fraction `num / den`: the skip lists only compare
such values. -/
structure Float64 where
  num : Nat
  den : Nat
deriving DecidableEq, Repr

/-- Go `a < b` on these values. -/
def Float64.lt (a b : Float64) : Bool := decide (a.num * b.den < b.num * a.den)

namespace skiplist

/-- Modelled from the spec: a node of the `SkipList` that `memtable.go` imports, as the
entry it stores and its level (the number of its forward pointers). -/
structure Element where
  Entry : types.Entry
  level : Nat
deriving DecidableEq, Repr

/-- Modelled from the spec: the `SkipList` of the package `skiplist` that `memtable.go`
imports and the repository does not contain.  The spec's section 3 gives its state:
`maxLevel`, `p`, the byte-accounting field `size`, and the level-0 chain, which holds every
entry once in ascending key order (`chain`).  `rand` lists the values the random source
returns next. -/
structure SkipList where
  maxLevel : Nat
  p : Float64
  rand : List Float64
  size : Int
  chain : List Element
deriving DecidableEq, Repr

/-- Modelled from the spec: `New(maxLevel, p)`, "created empty with `(maxLevel, p)`";
`rand` is the random source it makes. -/
def New (maxLevel : Nat) (p : Float64) (rand : List Float64) : SkipList :=
  ⟨maxLevel, p, rand, 0, []⟩

/-- Modelled from the spec: "Node level at insertion is drawn by repeated Bernoulli(`p`)
trials, capped at `maxLevel`", a level in `[1, maxLevel]`.  Returns the level and the
values the source has left. -/
def randomLevel (maxLevel : Nat) (p : Float64) : List Float64 → Nat → Nat × List Float64
  | [], level => (level, [])
  | r :: rest, level =>
    if r.lt p && decide (level < maxLevel) then randomLevel maxLevel p rest (level + 1)
    else (level, rest)

/-- Modelled from the spec: the byte cost of a node, `len(key)+len(value)+
sizeof(tombstone)+sizeof(version)+levels·pointer_size`. -/
def cost (entry : types.Entry) (level : Nat) : Int :=
  entry.Key.length + entry.Value.length + 1 + 8 + level * 8

/-- Modelled from the spec: the update case of `Set` on the chain, "overwrite
value/tombstone/version in place ... Level of the node is unchanged"; `none` when no node
has the key. -/
def update (entry : types.Entry) : List Element → Option (List Element × types.Entry)
  | [] => none
  | e :: rest =>
    if e.Entry.Key = entry.Key then some (⟨entry, e.level⟩ :: rest, e.Entry)
    else
      match update entry rest with
      | some (rest1, old) => some (e :: rest1, old)
      | none => none

/-- Modelled from the spec: the create case of `Set` on the chain, the new node spliced in
after the last node with a smaller key. -/
def splice (node : Element) : List Element → List Element
  | [] => [node]
  | e :: rest =>
    if strings.lt e.Entry.Key node.Entry.Key then e :: splice node rest
    else node :: e :: rest

/-- Modelled from the spec: `Set(entry)` (section 4.1). -/
def SkipList.Set (s : SkipList) (entry : types.Entry) : SkipList :=
  match update entry s.chain with
  | some (chain1, old) =>
    { s with chain := chain1, size := s.size + (entry.Value.length - old.Value.length) }
  | none =>
    match randomLevel s.maxLevel s.p s.rand 1 with
    | (level, rand1) =>
      { s with rand := rand1, chain := splice ⟨entry, level⟩ s.chain,
               size := s.size + cost entry level }

/-- The zero value of `types.Entry`, returned with `false`. -/
def noEntry : types.Entry := ⟨[], [], false, 0⟩

/-- Modelled from the spec: `Get(key)`, the entry with an equal key and `true`, else
`(_, false)`. -/
def SkipList.Get (s : SkipList) (key : types.Key) : types.Entry × Bool :=
  match s.chain.find? (fun e => e.Entry.Key = key) with
  | some e => (e.Entry, true)
  | none => (noEntry, false)

/-- Modelled from the spec: `LowerBound(key)`, "the first entry whose key is `≥ key` in
level-0 order, or `(_, false)` if none". -/
def SkipList.LowerBound (s : SkipList) (key : types.Key) : types.Entry × Bool :=
  match s.chain.find? (fun e => strings.le key e.Entry.Key) with
  | some e => (e.Entry, true)
  | none => (noEntry, false)

/-- Modelled from the spec: `Scan(start, end)`, "all entries with `start ≤ key < end`, in
ascending key order". -/
def SkipList.Scan (s : SkipList) (start stop : types.Key) : List types.Entry :=
  (s.chain.filter (fun e => strings.le start e.Entry.Key && strings.lt e.Entry.Key stop)).map
    Element.Entry

/-- Modelled from the spec: `All()`, "every entry, ascending". -/
def SkipList.All (s : SkipList) : List types.Entry := s.chain.map Element.Entry

/-- Modelled from the spec: `Size()`, "the accumulated byte estimate". -/
def SkipList.Size (s : SkipList) : Int := s.size

/-- Modelled from the spec: `Reset()`, "a new SkipList with the same `(maxLevel, p)` and a
fresh pseudo-random source" (`rand`). -/
def SkipList.Reset (s : SkipList) (rand : List Float64) : SkipList := New s.maxLevel s.p rand

end skiplist

/-! ## Package `memtable`: `src/memtable/memtable.go` -/

/-- Go `memtable` (lock and logger left out). -/
structure memtable where
  skiplist : skiplist.SkipList
  wal : wal.WAL
  dir : GoString
  readOnly : Bool
deriving DecidableEq, Repr

/-- Go `newMemtable(dir, maxLevel, p)`; `rand` is the random source of the new skip list
and `createdAt` the clock reading of `wal.Create`. -/
def newMemtable (dir : GoString) (maxLevel : Nat) (p : Float64) (rand : List Float64)
    (createdAt : time.Time) (world : World) : Res memtable × World :=
  match wal.Create dir createdAt world with
  | (Res.ok l, world1) => (Res.ok ⟨skiplist.New maxLevel p rand, l, dir, false⟩, world1)
  | (Res.err e, world1) => (Res.panic (Panic.ofError e), world1)
  | (Res.panic q, world1) => (Res.panic q, world1)

/-- The condition of `recover` on one directory entry (line 52); the conjunction stops at
its first false operand, so only `.log` files that are not directories are parsed. -/
def recover.isOld (version : GoString) (file : os.DirEntry) : Res Bool :=
  if !file.IsDir && path.Ext file.Name == ".log".toList then
    match wal.ParseVersion file.Name with
    | Res.ok v =>
      match wal.CompareVersion v version with
      | Res.ok n => Res.ok (decide (n < 0))
      | Res.err e => Res.err e
      | Res.panic q => Res.panic q
    | Res.err e => Res.err e
    | Res.panic q => Res.panic q
  else Res.ok false

/-- The first loop of `recover` (lines 51-55): the paths of the older WAL files, appended
to `walFiles` in directory order. -/
def recover.select (dir version : GoString) : List os.DirEntry → List GoString →
    Res (List GoString)
  | [], walFiles => Res.ok walFiles
  | file :: rest, walFiles =>
    match recover.isOld version file with
    | Res.ok true => recover.select dir version rest (walFiles ++ [path.Join dir file.Name])
    | Res.ok false => recover.select dir version rest walFiles
    | Res.err e => Res.err e
    | Res.panic q => Res.panic q

/-- Go `slices.Sort(walFiles)`. -/
def recover.sort (walFiles : List GoString) : List GoString :=
  walFiles.insertionSort (fun a b => strings.le a b = true)

/-- What the loops of `recover` change: `maxVersion`, the skip list and the files. -/
structure recover.State where
  maxVersion : Int
  skiplist : skiplist.SkipList
  world : World
deriving DecidableEq, Repr

/-- The inner loop of `recover` (lines 78-86) over the entries of one file: record the
version, `Set`, append to the current WAL `l`. -/
def recover.replay (c : Codec) (l : wal.WAL) : List types.Entry → recover.State →
    Res Unit × recover.State
  | [], st => (Res.ok (), st)
  | entry :: rest, st =>
    let maxVersion := max st.maxVersion entry.Version
    let sl := st.skiplist.Set entry
    match l.Write c [entry] st.world with
    | (Res.ok _, world1) => recover.replay c l rest ⟨maxVersion, sl, world1⟩
    | (Res.err _, world1) =>
      (Res.panic (Panic.logged "write wal failed: %v"), ⟨maxVersion, sl, world1⟩)
    | (Res.panic q, world1) => (Res.panic q, ⟨maxVersion, sl, world1⟩)

/-- The loop of `recover` over the sorted files (lines 67-91): open, read, replay,
delete. -/
def recover.merge (c : Codec) (cur : wal.WAL) : List GoString → recover.State →
    Res Unit × recover.State
  | [], st => (Res.ok (), st)
  | file :: rest, st =>
    match wal.Open file st.world with
    | (Res.ok l, world1) =>
      match l.Read c world1 with
      | (Res.ok entries, world2) =>
        match recover.replay c cur entries { st with world := world2 } with
        | (Res.ok _, st1) =>
          match l.Delete st1.world with
          | (Res.ok _, _, world3) => recover.merge c cur rest { st1 with world := world3 }
          | (Res.err _, _, world3) =>
            (Res.panic (Panic.logged "delete wal %v failed: %v"), { st1 with world := world3 })
          | (Res.panic q, _, world3) => (Res.panic q, { st1 with world := world3 })
        | (Res.err e, st1) => (Res.err e, st1)
        | (Res.panic q, st1) => (Res.panic q, st1)
      | (Res.err _, world2) =>
        (Res.panic (Panic.logged "read wal %v failed: %v"), { st with world := world2 })
      | (Res.panic q, world2) => (Res.panic q, { st with world := world2 })
    | (Res.err _, world1) =>
      (Res.panic (Panic.logged "open wal %v failed: %v"), { st with world := world1 })
    | (Res.panic q, world1) => (Res.panic q, { st with world := world1 })

/-- Go `(*memtable).recover`: the returned `maxVersion`, the memtable and the files
afterwards (at the panic, when it panics). -/
def memtable.recover (c : Codec) (mt : memtable) (world : World) :
    Res Int × memtable × World :=
  match os.ReadDir mt.dir world with
  | (Res.ok files, world1) =>
    match recover.select mt.dir mt.wal.Version files [] with
    | Res.ok walFiles =>
      if walFiles.length = 0 then (Res.ok 0, mt, world1)
      else
        match recover.merge c mt.wal (recover.sort walFiles) ⟨0, mt.skiplist, world1⟩ with
        | (Res.ok _, st) => (Res.ok st.maxVersion, { mt with skiplist := st.skiplist }, st.world)
        | (Res.err e, st) => (Res.err e, { mt with skiplist := st.skiplist }, st.world)
        | (Res.panic q, st) => (Res.panic q, { mt with skiplist := st.skiplist }, st.world)
    | Res.err e => (Res.err e, mt, world1)
    | Res.panic q => (Res.panic q, mt, world1)
  | (Res.err _, world1) => (Res.panic (Panic.logged "read dir %v failed: %v"), mt, world1)
  | (Res.panic q, world1) => (Res.panic q, mt, world1)

/-- Go `(*memtable).set`. -/
def memtable.set (c : Codec) (mt : memtable) (entry : types.Entry) (world : World) :
    Res Unit × memtable × World :=
  if mt.readOnly then (Res.panic (Panic.logged "write readonly memtable"), mt, world)
  else
    match mt.wal.Write c [entry] world with
    | (Res.ok _, world1) => (Res.ok (), { mt with skiplist := mt.skiplist.Set entry }, world1)
    | (Res.err _, world1) =>
      (Res.panic (Panic.logged "write wal failed: %v"),
        { mt with skiplist := mt.skiplist.Set entry }, world1)
    | (Res.panic q, world1) => (Res.panic q, { mt with skiplist := mt.skiplist.Set entry }, world1)

/-- Go `(*memtable).get`. -/
def memtable.get (mt : memtable) (key : types.Key) : types.Entry × Bool :=
  mt.skiplist.Get key

/-- Go `(*memtable).lowerBound`. -/
def memtable.lowerBound (mt : memtable) (key : types.Key) : types.Entry × Bool :=
  mt.skiplist.LowerBound key

/-- Go `(*memtable).scan`. -/
def memtable.scan (mt : memtable) (start stop : types.Key) : List types.Entry :=
  mt.skiplist.Scan start stop

/-- Go `(*memtable).all`. -/
def memtable.all (mt : memtable) : List types.Entry := mt.skiplist.All

/-- Go `(*memtable).size`. -/
def memtable.size (mt : memtable) : Int := mt.skiplist.Size

/-- Go `(*memtable).freeze`. -/
def memtable.freeze (mt : memtable) (world : World) : Res Unit × memtable × World :=
  match mt.wal.Close world with
  | (Res.ok _, w1, world1) => (Res.ok (), { mt with wal := w1, readOnly := true }, world1)
  | (Res.err _, w1, world1) =>
    (Res.panic (Panic.logged "wal close failed: %v"), { mt with wal := w1 }, world1)
  | (Res.panic q, w1, world1) => (Res.panic q, { mt with wal := w1 }, world1)

/-- Go `(*memtable).reset`: the successor it returns, the receiver and the files
afterwards. -/
def memtable.reset (mt : memtable) (rand : List Float64) (createdAt : time.Time)
    (world : World) : Res memtable × memtable × World :=
  match mt.wal.Reset createdAt world with
  | (Res.ok l, w1, world1) =>
    (Res.ok ⟨mt.skiplist.Reset rand, l, mt.dir, false⟩, { mt with wal := w1 }, world1)
  | (Res.err _, w1, world1) =>
    (Res.panic (Panic.logged "wal reset failed: %v"), { mt with wal := w1 }, world1)
  | (Res.panic q, w1, world1) => (Res.panic q, { mt with wal := w1 }, world1)

/-! ## Package `memtable`: the skip list draft `src/memtable/skip-list.go`

The file does not compile as it stands.  The embedding keeps its control flow, bounds and
constants, and reads its broken identifiers the one way that type-checks:
`current_level = s.level` as a declaration, `s.Rand.float64()` as `s.rand.Float64()`,
`RandomLevel()` as `s.RandomLevel()`, `maxLevel` as `s.maxLevel`, `x.key` / `x.value` /
`x.tombstone` on an element as `x.entry.key` and so on, `entry.Key` / `entry.Value` as
`entry.key` / `entry.value`, `e.next` as `to_append.next`, `curent` as `current`, and
`compareKey` as the `strings.Compare` it wraps.  `value` is declared `int` but only ever
passed to `len`, so it is a byte string here; `current.next[i]` in the update case, where no
`i` is in scope, is read as the `current.next[0]` of the lines around it.  Pointers are
places in `heap`; nil is `none`. -/

/-- Go `Entry` of the draft. -/
structure Entry where
  key : GoString
  value : List Byte
  tombstone : Bool
deriving DecidableEq, Repr

/-- Go `Element` of the draft: `next` holds one pointer per level of the node. -/
structure Element where
  entry : Entry
  next : List (Option Nat)
deriving DecidableEq, Repr

/-- Go `SkipList` of the draft.  `head` points into `heap`, the elements allocated so far;
`rand` lists the values `rand.Float64()` returns next. -/
structure SkipList where
  maxLevel : Nat
  p : Float64
  level : Nat
  rand : List Float64
  size : Int
  head : Option Nat
  heap : List Element
deriving DecidableEq, Repr

/-- Go `compareKey`, read as `strings.Compare(a, b)`: -1, 0 or 1. -/
def compareKey (a b : GoString) : Int :=
  if strings.lt a b then -1 else if strings.lt b a then 1 else 0

/-- The loop of `RandomLevel`: one value of the source per test of the condition, and one
more level while the value is below `p` and `level <= maxLevel`.  The test that ends the loop
has drawn its value too.  A source with no value left ends the loop. -/
def SkipList.RandomLevel.loop (maxLevel : Nat) (p : Float64) :
    List Float64 → Nat → Nat × List Float64
  | [], level => (level, [])
  | r :: rest, level =>
    if r.lt p && decide (level ≤ maxLevel) then
      SkipList.RandomLevel.loop maxLevel p rest (level + 1)
    else (level, rest)

/-- Go `(*SkipList).RandomLevel`: the level, and the values the source has left. -/
def SkipList.RandomLevel (s : SkipList) : Nat × List Float64 :=
  SkipList.RandomLevel.loop s.maxLevel s.p s.rand 1

/-- Dereference of the pointer `ptr`. -/
def SkipList.deref (heap : List Element) (ptr : Option Nat) : Res Element :=
  match ptr with
  | none => Res.panic Panic.nilDereference
  | some a =>
    match heap[a]? with
    | some e => Res.ok e
    | none => Res.panic Panic.nilDereference

/-- Go `x[i]` on a slice: a panic when `i` is not below the length. -/
def SkipList.index {α : Type} (x : List α) (i : Nat) : Res α :=
  match x[i]? with
  | some a => Res.ok a
  | none => Res.panic (Panic.indexOutOfRange i x.length)

/-- The first loop of `Set` (lines 50-55), for `i` from `n - 1` down to 0: one `if`, not
a loop, moves `current` at each level; then `update[i] = current`. -/
def SkipList.Set.descend (heap : List Element) (key : GoString) :
    Nat → Option Nat → List (Option Nat) → Res (Option Nat × List (Option Nat))
  | 0, current, update => Res.ok (current, update)
  | i + 1, current, update =>
    match SkipList.deref heap current with
    | Res.ok cur =>
      match SkipList.index cur.next i with
      | Res.ok nxt =>
        match nxt with
        | none =>
          if i < update.length then
            SkipList.Set.descend heap key i current (update.set i current)
          else Res.panic (Panic.indexOutOfRange i update.length)
        | some a =>
          match SkipList.deref heap (some a) with
          | Res.ok e =>
            let current1 := if compareKey e.entry.key key < 0 then some a else current
            if i < update.length then
              SkipList.Set.descend heap key i current1 (update.set i current1)
            else Res.panic (Panic.indexOutOfRange i update.length)
          | Res.err x => Res.err x
          | Res.panic q => Res.panic q
      | Res.err x => Res.err x
      | Res.panic q => Res.panic q
    | Res.err x => Res.err x
    | Res.panic q => Res.panic q

/-- The loop of lines 71-73, `for i := s.level; i < level; i++ { update[i] = s.head }`,
with `n` rounds left. -/
def SkipList.Set.raise (head : Option Nat) :
    Nat → Nat → List (Option Nat) → Res (List (Option Nat))
  | 0, _, update => Res.ok update
  | n + 1, i, update =>
    if i < update.length then SkipList.Set.raise head n (i + 1) (update.set i head)
    else Res.panic (Panic.indexOutOfRange i update.length)

/-- The loop of lines 87-90, for `i` from `n - 1` down to 0, on the new element at place
`node`: `to_append.next[i] = update[i].next[i]`, then `update[i].next[i] = to_append`.  The
right-hand side is evaluated first. -/
def SkipList.Set.splice (node : Nat) :
    Nat → List (Option Nat) → List Element → Res (List Element)
  | 0, _, heap => Res.ok heap
  | i + 1, update, heap =>
    match SkipList.index update i with
    | Res.ok u =>
      match SkipList.deref heap u with
      | Res.ok pred =>
        match SkipList.index pred.next i with
        | Res.ok succ =>
          match SkipList.deref heap (some node) with
          | Res.ok new =>
            if i < new.next.length then
              let heap1 := heap.modify (fun e => { e with next := e.next.set i succ }) node
              let heap2 := heap1.modify (fun e => { e with next := e.next.set i (some node) })
                (u.getD 0)
              SkipList.Set.splice node i update heap2
            else Res.panic (Panic.indexOutOfRange i new.next.length)
          | Res.err x => Res.err x
          | Res.panic q => Res.panic q
        | Res.err x => Res.err x
        | Res.panic q => Res.panic q
      | Res.err x => Res.err x
      | Res.panic q => Res.panic q
    | Res.err x => Res.err x
    | Res.panic q => Res.panic q

/-- Go `(*SkipList).Set` of the draft: the list afterwards, or the panic. -/
def SkipList.Set (s : SkipList) (entry : Entry) : Res SkipList :=
  let update : List (Option Nat) := List.replicate s.maxLevel none
  match SkipList.Set.descend s.heap entry.key (s.level + 1) s.head update with
  | Res.ok (current, update1) =>
    match SkipList.deref s.heap current with
    | Res.ok cur =>
      match SkipList.index cur.next 0 with
      | Res.ok nxt =>
        let found : Res (Option (Nat × Element)) :=
          match nxt with
          | none => Res.ok none
          | some a =>
            match SkipList.deref s.heap (some a) with
            | Res.ok e => Res.ok (if compareKey e.entry.key entry.key = 0 then some (a, e) else none)
            | Res.err x => Res.err x
            | Res.panic q => Res.panic q
        match found with
        | Res.ok (some (a, e)) =>
          -- update case
          Res.ok { s with
            size := s.size + ((entry.value.length : Int) - e.entry.value.length),
            heap := s.heap.modify (fun x => { x with entry :=
              { x.entry with value := entry.value, tombstone := entry.tombstone } }) a }
        | Res.ok none =>
          -- create case
          match s.RandomLevel with
          | (level, rand1) =>
            let raised : Res (List (Option Nat)) :=
              if level > s.level then SkipList.Set.raise s.head (level - s.level) s.level update1
              else Res.ok update1
            match raised with
            | Res.ok update2 =>
              let level1 := if level > s.level then level else s.level
              let node := s.heap.length
              let heap1 := s.heap ++ [⟨⟨entry.key, entry.value, entry.tombstone⟩,
                List.replicate level none⟩]
              match SkipList.Set.splice node (s.maxLevel + 1) update2 heap1 with
              | Res.ok heap2 =>
                Res.ok { s with
                  level := level1, rand := rand1, heap := heap2,
                  size := s.size + (entry.key.length + entry.value.length + 1 + 8 + level * 8) }
              | Res.err x => Res.err x
              | Res.panic q => Res.panic q
            | Res.err x => Res.err x
            | Res.panic q => Res.panic q
        | Res.err x => Res.err x
        | Res.panic q => Res.panic q
      | Res.err x => Res.err x
      | Res.panic q => Res.panic q
    | Res.err x => Res.err x
    | Res.panic q => Res.panic q
  | Res.err x => Res.err x
  | Res.panic q => Res.panic q

/-- The loop of `All` (lines 102-110): while `current.next[0] != nil`, append the entry of
`current` and move on.  `none` is running out of the `fuel` rounds, which only a chain that
cycles can do. -/
def SkipList.All.loop (heap : List Element) :
    Nat → Option Nat → List Entry → Option (Res (List Entry))
  | 0, _, _ => none
  | fuel + 1, current, all =>
    match SkipList.deref heap current with
    | Res.ok cur =>
      match SkipList.index cur.next 0 with
      | Res.ok none => some (Res.ok all)
      | Res.ok (some a) => SkipList.All.loop heap fuel (some a) (all ++ [cur.entry])
      | Res.err x => some (Res.err x)
      | Res.panic q => some (Res.panic q)
    | Res.err x => some (Res.err x)
    | Res.panic q => some (Res.panic q)

/-- Go `(*SkipList).All` of the draft: it starts at `s.head.next[0]` and gives each chain as
many rounds as the heap has elements. -/
def SkipList.All (s : SkipList) : Option (Res (List Entry)) :=
  match SkipList.deref s.heap s.head with
  | Res.ok hd =>
    match SkipList.index hd.next 0 with
    | Res.ok current => SkipList.All.loop s.heap (s.heap.length + 1) current []
    | Res.err x => some (Res.err x)
    | Res.panic q => some (Res.panic q)
  | Res.err x => some (Res.err x)
  | Res.panic q => some (Res.panic q)

/-- Modelled from the spec: the draft has no constructor; an empty list is "created empty
with `(maxLevel, p)`", with a head sentinel that "has no key and exists at every level".
`level` is the field's value at that point, which the spec leaves open. -/
def SkipList.empty (maxLevel : Nat) (p : Float64) (rand : List Float64) (level : Nat) :
    SkipList :=
  ⟨maxLevel, p, level, rand, 0, some 0, [⟨⟨[], [], false⟩, List.replicate maxLevel none⟩]⟩

/-! ## A sample codec and sample values, for closed instances -/

namespace sample

/-- A sample serialisation: tombstone byte, version, key length, key (one byte per
character), value. -/
def TMarshal (e : types.Entry) : Res (List Byte) :=
  Res.ok ((if e.Tombstone then (1 : Byte) else 0) :: binary.putInt64 e.Version ++
    binary.putInt64 e.Key.length ++
    e.Key.map (fun ch => (⟨ch.toNat % 256, Nat.mod_lt _ (by decide)⟩ : Byte)) ++ e.Value)

/-- The reading of the sample serialisation. -/
def TUnmarshal (bs : List Byte) : Res types.Entry :=
  if bs.length < 17 then Res.err (Error.codec 1)
  else
    let klen := (binary.getInt64 ((bs.drop 9).take 8)).toNat
    let rest := bs.drop 17
    if rest.length < klen then Res.err (Error.codec 2)
    else
      Res.ok ⟨(rest.take klen).map (fun b => Char.ofNat b.val), rest.drop klen,
        decide (bs.head? = some 1), binary.getInt64 ((bs.drop 1).take 8)⟩

/-- The sample codec. -/
def codec : Codec := ⟨TMarshal, TUnmarshal⟩

/-- An empty directory tree in which no system call fails, on a machine that gives a
gigabyte to one allocation. -/
def emptyWorld : World := ⟨[], [], 2 ^ 30⟩

end sample

/-! ## Predicates used in the statements -/

namespace wal

/-- A version of the form `<ts>-<ns>`: exactly two pieces around one `-`. -/
def isVersion (v : GoString) : Bool := (strings.Split '-' v).length == 2

end wal

namespace wal

/-- The bytes of the records with the bodies `bodies`, one record after the other. -/
def records (bodies : List (List Byte)) : List Byte := (bodies.map record).flatten

/-- The codec serialises the entries `es` to the bodies `bodies`, one each, in order. -/
def serialises (c : Codec) (es : List types.Entry) (bodies : List (List Byte)) : Prop :=
  List.Forall₂ (fun e d => c.TMarshal e = Res.ok d) es bodies

end wal

/-- The environment fails none of the next `n` system calls. -/
def World.quiet (world : World) (n : Nat) : Prop := ∀ f ∈ world.faults.take n, f = none

instance (world : World) (n : Nat) : Decidable (world.quiet n) := by
  unfold World.quiet
  infer_instance

namespace sample

/-- Sample entries. -/
def e1 : types.Entry := ⟨"a".toList, [1, 2], false, 10⟩

/-- A second sample entry, a tombstone. -/
def e2 : types.Entry := ⟨"b".toList, [], true, 11⟩

/-- A third sample entry, on the key of the first. -/
def e3 : types.Entry := ⟨"a".toList, [7], false, 12⟩

/-- Sample clock readings: `t1` and `t2` lie in one second, 5 and 10 nanoseconds into it;
`t3` is a second later. -/
def t1 : time.Time := ⟨2024, 1, 1, 0, 0, 0, 5⟩

/-- See `t1`. -/
def t2 : time.Time := ⟨2024, 1, 1, 0, 0, 0, 10⟩

/-- See `t1`. -/
def t3 : time.Time := ⟨2024, 1, 1, 0, 0, 1, 10⟩

/-- The WAL that `Create` makes in the directory `D` of the empty world at `t1`. -/
def walA : wal.WAL :=
  ⟨some 0, "D".toList, "D/wal-20240101000000-5.log".toList, "20240101000000-5".toList⟩

/-- The files after that `Create` and a `Write` of `e1`. -/
def worldA : World :=
  (walA.Write codec [e1] (wal.Create "D".toList t1 emptyWorld).2).2

end sample

namespace sample

/-- The memtable on `walA` after `set(e1)`. -/
def mtA : memtable :=
  ⟨(skiplist.New 4 ⟨1, 2⟩ []).Set e1, walA, "D".toList, false⟩

end sample

namespace wal

/-- What `Read` makes of the bytes of a file: nothing of an empty file, else the result
of its loop, on a machine with memory for every allocation the run time allows. -/
def decode (c : Codec) (data : List Byte) : Res (List types.Entry) :=
  if data.length = 0 then Res.ok []
  else (WAL.Read.loop c runtime.maxAlloc data.length data []).getD (Res.ok [])

end wal

/-- How one file may change while `recover` runs with the current WAL on handle `h`:
name and kind stay; a file other than the current one keeps its bytes and may leave its
directory if its path is in `U`; the current one stays in its directory, gets bytes
appended, and what was durable of it stays durable. -/
def File.Step (h : Nat) (U : List GoString) (k : Nat) (f f1 : File) : Prop :=
  f1.path = f.path ∧ f1.isDir = f.isDir ∧
  (f1.linked = f.linked ∨ (f.path ∈ U ∧ f1.linked = false ∧ k ≠ h)) ∧
  (k ≠ h → f1.data = f.data ∧ f1.synced = f.synced) ∧
  (k = h → (∃ x, f1.data = f.data ++ x) ∧
    (∃ y, f1.data.take f1.synced = f.data.take f.synced ++ y))

/-- The files `world1` come from the files `world` by `File.Step` on each. -/
def World.Step (h : Nat) (U : List GoString) (world world1 : World) : Prop :=
  world1.files.length = world.files.length ∧
  ∀ (k : Nat) (f : File), world.files[k]? = some f →
    ∃ f1, world1.files[k]? = some f1 ∧ File.Step h U k f f1

/-- No linked file is named `p`. -/
def World.absent (world : World) (p : GoString) : Prop :=
  ∀ (k : Nat) (f : File), world.files[k]? = some f → f.path = p → f.linked = false

/-- What the loop of `recover` over the files `ps` has done when it ends with `r` in the
state `st1`, having started in `st` with the current WAL on handle `h`.  The files `done`
were merged and deleted, in order; `rest` were not deleted.  `ess` are the entries read
from the files `done` and `bodiess` their serialisations; the current file got their
records appended, and then `extra` (bytes of a merge that did not complete).  With the
current WAL closed (`fd` nil) only files without entries were merged. -/
def recover.Merged (c : Codec) (fd : Option Nat) (h : Nat) (ps : List GoString)
    (st : recover.State) (r : Res Unit) (st1 : recover.State) : Prop :=
  ∃ (done rest : List GoString) (ess : List (List types.Entry))
    (bodiess : List (List (List Byte))) (extra : List Byte),
    ps = done ++ rest ∧ (r = Res.ok () → rest = [] ∧ extra = []) ∧
    World.Step h done st.world st1.world ∧
    List.Forall₂ (fun p es => ∃ i, st.world.lookup p = some i ∧
      wal.decode c (st.world.dataOf i) = Res.ok es) done ess ∧
    List.Forall₂ (wal.serialises c) ess bodiess ∧
    (fd = none → ∀ es ∈ ess, es = []) ∧
    (∀ p ∈ done, st1.world.absent p) ∧
    st1.world.dataOf h = st.world.dataOf h ++ wal.records bodiess.flatten ++ extra ∧
    (bodiess.flatten ≠ [] → ∃ post,
      st1.world.durableOf h = st.world.dataOf h ++ wal.records bodiess.flatten ++ post) ∧
    (r = Res.ok () →
      st1.skiplist = ess.flatten.foldl (fun s e => s.Set e) st.skiplist ∧
      st1.maxVersion = ess.flatten.foldl (fun m e => max m e.Version) st.maxVersion)

/-- The path `p` names an older WAL file of the memtable's directory: a linked file
directly in `mt.dir` that is no directory, has the extension `.log`, and whose name parses
to a version that `CompareVersion` puts strictly before the version of the current WAL. -/
def recover.older (mt : memtable) (world : World) (p : GoString) : Prop :=
  ∃ (name : GoString) (f : File) (v : GoString) (n : Int),
    f ∈ world.files ∧ f.linked = true ∧ f.path = p ∧ f.isDir = false ∧
    os.childName mt.dir p = some name ∧ path.Ext name = ".log".toList ∧
    wal.ParseVersion name = Res.ok v ∧ wal.CompareVersion v mt.wal.version = Res.ok n ∧ n < 0

namespace sample

/-- The WAL that `Create` makes in `D` at `t3`, when one file is there before. -/
def walB : wal.WAL :=
  ⟨some 1, "D".toList, "D/wal-20240101000001-10.log".toList, "20240101000001-10".toList⟩

/-- A fresh memtable on `walB`. -/
def mtB : memtable := ⟨skiplist.New 4 ⟨1, 2⟩ [], walB, "D".toList, false⟩

/-- The files of `worldA` after the `Create` at `t3`: the WAL of `mtA`, holding `e1`, and
the empty WAL of `mtB`. -/
def worldB : World := (wal.Create "D".toList t3 worldA).2

/-- An entry whose 64-bit version field has every bit set: -1 as the `int64` of the code,
`2^64 - 1` read as unsigned. -/
def eNeg : types.Entry := ⟨"a".toList, [], false, -1⟩

/-- The files when the older WAL of `D` holds `eNeg` and the WAL of `mtB` is new. -/
def worldC : World :=
  (wal.Create "D".toList t3
    (walA.Write codec [eNeg] (wal.Create "D".toList t1 emptyWorld).2).2).2

end sample

namespace sample

/-- The files of `worldB` when the environment makes the fourth system call of `recover`
fail: the `ReadDir` and the `Stat` and `OpenFile` of `Open` succeed, the `Stat` of `Read`
fails. -/
def worldFaulty : World := { worldB with faults := [none, none, none, some 0] }

end sample

namespace wal

/-- A file name of the form `wal-<ts>-<ns>.log` with `ts` of 14 digits and `ns` of decimal
digits. -/
def isWALName (name : GoString) : Prop :=
  ∃ ts ns : GoString, name = fileName (ts ++ '-' :: ns) ∧ ts.length = 14 ∧
    (∀ ch ∈ ts, ch.isDigit = true) ∧ (∀ ch ∈ ns, ch.isDigit = true)

end wal

namespace sample

/-- A clock reading two seconds after `t1`. -/
def t4 : time.Time := ⟨2024, 1, 1, 0, 0, 2, 7⟩

/-- The WAL that `Create` makes in `D` at `t4`, when two files are there before. -/
def walD : wal.WAL :=
  ⟨some 2, "D".toList, "D/wal-20240101000002-7.log".toList, "20240101000002-7".toList⟩

/-- A fresh memtable on `walD`. -/
def mtD : memtable := ⟨skiplist.New 4 ⟨1, 2⟩ [], walD, "D".toList, false⟩

/-- The files when `D` holds two older WALs, the first with `e1` and `e2`, the second with
`e3` (on the key of `e1`), and the new WAL of `mtD`. -/
def worldD : World :=
  (wal.Create "D".toList t4
    (walB.Write codec [e3] (wal.Create "D".toList t3
      (walA.Write codec [e1, e2] (wal.Create "D".toList t1 emptyWorld).2).2).2).2).2

end sample

/-- A run of `Set` calls of the draft, one after the other, up to the first that panics. -/
def SkipList.setAll : SkipList → List Entry → Res SkipList
  | s, [] => Res.ok s
  | s, e :: es =>
    match s.Set e with
    | Res.ok s1 => SkipList.setAll s1 es
    | Res.err x => Res.err x
    | Res.panic q => Res.panic q

namespace sample

/-- A list of the draft's type built by hand, as no `Set` builds one: the head sentinel with
`maxLevel = 4` pointers and, on its level-0 chain, the keys `a`, `b`, `c` in nodes of one
level each, with values `[1]`, `[2]`, `[3]`.  `level` is the value of the field `level`:
1 if it counts the populated levels, 0 if it is the index of the highest one. -/
def abc (level : Nat) : SkipList :=
  ⟨4, ⟨1, 2⟩, level, [], 57, some 0,
    [⟨⟨[], [], false⟩, [some 1, none, none, none]⟩,
     ⟨⟨"a".toList, [1], false⟩, [some 2]⟩,
     ⟨⟨"b".toList, [2], false⟩, [some 3]⟩,
     ⟨⟨"c".toList, [3], false⟩, [none]⟩]⟩

/-- A list of the draft's type with the one key `a`, built by hand like `abc`. -/
def one (level : Nat) : SkipList :=
  ⟨4, ⟨1, 2⟩, level, [], 19, some 0,
    [⟨⟨[], [], false⟩, [some 1, none, none, none]⟩,
     ⟨⟨"a".toList, [1], false⟩, [none]⟩]⟩

end sample

namespace sample

/-- The file of `walA` holding eleven bytes: the length `2^62` of a record, little-endian,
and three bytes of its body. -/
def worldHuge : World :=
  (wal.Create "D".toList t1 emptyWorld).2.modify 0
    (fun f => { f with data := [0, 0, 0, 0, 0, 0, 0, 64, 1, 2, 3] })

/-- The file of `walA` holding eleven bytes: the length `2^40` of a record, little-endian,
and three bytes of its body. -/
def worldLarge : World :=
  (wal.Create "D".toList t1 emptyWorld).2.modify 0
    (fun f => { f with data := [0, 0, 0, 0, 0, 1, 0, 0, 1, 2, 3] })

end sample

namespace sample

/-- The files of `worldA` after a crash tore the next record: the file of `walA` holds the
record of `e1` and then three bytes, the start of the length of a second record of `e1`. -/
def worldTorn : World :=
  worldA.modify 0 (fun f => { f with data := f.data ++ [20, 0, 0] })

/-- The files of `worldA` after a crash tore the body of the next record: the file of `walA`
holds the record of `e1`, then the length 20 of a second record and two bytes of its
body. -/
def worldTornBody : World :=
  worldA.modify 0 (fun f => { f with data := f.data ++ [20, 0, 0, 0, 0, 0, 0, 0, 0, 10] })

end sample

namespace sample

/-- The memtable `mtA` after `freeze`. -/
def mtFrozen : memtable := (mtA.freeze worldA).2.1

/-- The files after that `freeze`. -/
def worldFrozen : World := (mtA.freeze worldA).2.2

end sample

/-- The heap as the loop of lines 87-90 leaves it, also when it panics: the rounds are those
of `SkipList.Set.splice`, and what the rounds before a panic have assigned stays assigned. -/
def SkipList.Set.spliced (node : Nat) :
    Nat → List (Option Nat) → List Element → List Element
  | 0, _, heap => heap
  | i + 1, update, heap =>
    match SkipList.index update i with
    | Res.ok u =>
      match SkipList.deref heap u with
      | Res.ok pred =>
        match SkipList.index pred.next i with
        | Res.ok succ =>
          match SkipList.deref heap (some node) with
          | Res.ok new =>
            if i < new.next.length then
              let heap1 := heap.modify (fun e => { e with next := e.next.set i succ }) node
              let heap2 := heap1.modify (fun e => { e with next := e.next.set i (some node) })
                (u.getD 0)
              SkipList.Set.spliced node i update heap2
            else heap
          | Res.err _ => heap
          | Res.panic _ => heap
        | Res.err _ => heap
        | Res.panic _ => heap
      | Res.err _ => heap
      | Res.panic _ => heap
    | Res.err _ => heap
    | Res.panic _ => heap

/-- The create case of `Set` (lines 67-96), with the list as it leaves it also when it
panics.  The loop of lines 71-73 assigns only to the local `update`; when the splice loop is
reached, the random source has been drawn from, `s.level` has been assigned (line 74) and
the new element has been allocated. -/
def SkipList.Set.create (s : SkipList) (entry : Entry) (update1 : List (Option Nat)) :
    Res Unit × SkipList :=
  match s.RandomLevel with
  | (level, rand1) =>
    let raised : Res (List (Option Nat)) :=
      if level > s.level then SkipList.Set.raise s.head (level - s.level) s.level update1
      else Res.ok update1
    match raised with
    | Res.ok update2 =>
      let level1 := if level > s.level then level else s.level
      let node := s.heap.length
      let heap1 := s.heap ++ [⟨⟨entry.key, entry.value, entry.tombstone⟩,
        List.replicate level none⟩]
      match SkipList.Set.splice node (s.maxLevel + 1) update2 heap1 with
      | Res.ok heap2 =>
        (Res.ok (), { s with
          level := level1, rand := rand1, heap := heap2,
          size := s.size + (entry.key.length + entry.value.length + 1 + 8 + level * 8) })
      | Res.err x =>
        (Res.err x, { s with
          level := level1, rand := rand1,
          heap := SkipList.Set.spliced node (s.maxLevel + 1) update2 heap1 })
      | Res.panic q =>
        (Res.panic q, { s with
          level := level1, rand := rand1,
          heap := SkipList.Set.spliced node (s.maxLevel + 1) update2 heap1 })
    | Res.err x => (Res.err x, { s with rand := rand1 })
    | Res.panic q => (Res.panic q, { s with rand := rand1 })

/-- Go `(*SkipList).Set` of the draft again, with the list as the call leaves it also when
it panics: `Set` works on a `*SkipList` and on the elements themselves, and what it has
assigned before a panic stays assigned.  The descent assigns only to locals. -/
def SkipList.Set.run (s : SkipList) (entry : Entry) : Res Unit × SkipList :=
  let update : List (Option Nat) := List.replicate s.maxLevel none
  match SkipList.Set.descend s.heap entry.key (s.level + 1) s.head update with
  | Res.ok (current, update1) =>
    match SkipList.deref s.heap current with
    | Res.ok cur =>
      match SkipList.index cur.next 0 with
      | Res.ok nxt =>
        let found : Res (Option (Nat × Element)) :=
          match nxt with
          | none => Res.ok none
          | some a =>
            match SkipList.deref s.heap (some a) with
            | Res.ok e => Res.ok (if compareKey e.entry.key entry.key = 0 then some (a, e) else none)
            | Res.err x => Res.err x
            | Res.panic q => Res.panic q
        match found with
        | Res.ok (some (a, e)) =>
          -- update case
          (Res.ok (), { s with
            size := s.size + ((entry.value.length : Int) - e.entry.value.length),
            heap := s.heap.modify (fun x => { x with entry :=
              { x.entry with value := entry.value, tombstone := entry.tombstone } }) a })
        | Res.ok none => SkipList.Set.create s entry update1
        | Res.err x => (Res.err x, s)
        | Res.panic q => (Res.panic q, s)
      | Res.err x => (Res.err x, s)
      | Res.panic q => (Res.panic q, s)
    | Res.err x => (Res.err x, s)
    | Res.panic q => (Res.panic q, s)
  | Res.err x => (Res.err x, s)
  | Res.panic q => (Res.panic q, s)

/-- The list after a run of `Set` calls, one after the other, each of which returns or
panics (and is recovered from). -/
def SkipList.setEach (s : SkipList) (entries : List Entry) : SkipList :=
  entries.foldl (fun t e => (SkipList.Set.run t e).2) s

/-- The walk along the level-0 chain from the pointer `ptr`, at most `fuel` elements. -/
def SkipList.chain.loop (heap : List Element) :
    Nat → Option Nat → List Entry → Option (List Entry)
  | _, none, chain => some chain
  | 0, some _, _ => none
  | fuel + 1, some a, chain =>
    match heap[a]? with
    | some x =>
      match x.next[0]? with
      | some nxt => SkipList.chain.loop heap fuel nxt (chain ++ [x.entry])
      | none => none
    | none => none

/-- The entries on the level-0 chain from the head, in the order of the chain; `none` when
there is no such chain (a pointer to no element, an element without pointers, a cycle). -/
def SkipList.chain (s : SkipList) : Option (List Entry) :=
  match SkipList.deref s.heap s.head with
  | Res.ok hd =>
    match hd.next[0]? with
    | some first => SkipList.chain.loop s.heap s.heap.length first []
    | none => none
  | _ => none

/-- The list `t` has the head and the `maxLevel` of the list `s`, and every element of
`s` is in `t` at its place with the key and the forward pointers it has in `s`. -/
def SkipList.keeps (s t : SkipList) : Prop :=
  t.head = s.head ∧ t.maxLevel = s.maxLevel ∧
    ∀ (a : Nat) (x : Element), s.heap[a]? = some x →
      ∃ y, t.heap[a]? = some y ∧ y.next = x.next ∧ y.entry.key = x.entry.key

/-! # Theorems -/

/-! ## The order of Go strings -/

namespace strings

theorem lt_self (a : GoString) : lt a a = false := by
  induction a with
  | nil => rfl
  | cons c cs ih => simp [lt, ih]

theorem lt_flip {a b : GoString} (h : lt a b = true) : lt b a = false := by
  induction a generalizing b with
  | nil => cases b <;> simp_all [lt]
  | cons c cs ih =>
    cases b with
    | nil => simp [lt] at h
    | cons d ds =>
      simp only [lt] at h ⊢
      by_cases h1 : c < d
      · have h2 : ¬ d < c := not_lt_of_gt h1
        simp [h2, h1]
      · simp only [h1, if_false] at h
        by_cases h2 : d < c
        · simp [h2] at h
        · simp only [h2, if_false] at h ⊢
          simp [h1, ih h]

theorem eq_of_not_lt {a b : GoString} (h1 : lt a b = false) (h2 : lt b a = false) : a = b := by
  induction a generalizing b with
  | nil => cases b <;> simp_all [lt]
  | cons c cs ih =>
    cases b with
    | nil => simp [lt] at h2
    | cons d ds =>
      simp only [lt] at h1 h2
      by_cases hcd : c < d
      · simp [hcd] at h1
      · by_cases hdc : d < c
        · simp [hdc] at h2
        · simp only [hcd, hdc, if_false] at h1 h2
          have : c = d := le_antisymm (not_lt.mp hdc) (not_lt.mp hcd)
          rw [this, ih h1 h2]

theorem lt_chain {a b c : GoString} (h1 : lt a b = true) (h2 : lt b c = true) :
    lt a c = true := by
  induction a generalizing b c with
  | nil =>
    cases b with
    | nil => simp [lt] at h1
    | cons d ds =>
      cases c with
      | nil => simp [lt] at h2
      | cons e es => rfl
  | cons x xs ih =>
    cases b with
    | nil => simp [lt] at h1
    | cons d ds =>
      cases c with
      | nil => simp [lt] at h2
      | cons e es =>
        simp only [lt] at h1 h2 ⊢
        by_cases hxd : x < d
        · by_cases hde : d < e
          · simp [lt_trans hxd hde]
          · simp only [hde, if_false] at h2
            by_cases hed : e < d
            · simp [hed] at h2
            · have : d = e := le_antisymm (not_lt.mp hed) (not_lt.mp hde)
              subst this
              simp [hxd]
        · simp only [hxd, if_false] at h1
          by_cases hdx : d < x
          · simp [hdx] at h1
          · simp only [hdx, if_false] at h1
            have : x = d := le_antisymm (not_lt.mp hdx) (not_lt.mp hxd)
            subst this
            by_cases hxe : x < e
            · simp [hxe]
            · simp only [hxe, if_false] at h2 ⊢
              by_cases hex : e < x
              · simp [hex] at h2
              · simp only [hex, if_false] at h2 ⊢
                exact ih h1 h2

end strings

/-! ## `CompareVersion` -/

namespace wal

theorem split_of_isVersion {v : GoString} (h : isVersion v = true) :
    ∃ ts ns, strings.Split '-' v = [ts, ns] := by
  unfold isVersion at h
  match hs : strings.Split '-' v with
  | [] => simp [hs] at h
  | [_] => simp [hs] at h
  | [ts, ns] => exact ⟨ts, ns, rfl⟩
  | _ :: _ :: _ :: _ => simp [hs] at h

theorem CompareVersion_pieces {a b a0 a1 b0 b1 : GoString}
    (ha : strings.Split '-' a = [a0, a1]) (hb : strings.Split '-' b = [b0, b1]) :
    CompareVersion a b =
      Res.ok (if strings.lt a0 b0 then -1 else if strings.lt b0 a0 then 1
        else if strings.lt a1 b1 then -1 else if strings.lt b1 a1 then 1 else 0) := by
  unfold CompareVersion
  simp only [ha, hb, List.headD_cons, List.tail_cons, List.head?_cons]
  split_ifs <;> rfl

/-- C10. On versions of the form `<ts>-<ns>`, `CompareVersion` never panics and is a
consistent three-way comparison: its value is -1, 0 or 1, it is 0 on equal arguments, swapping
the arguments negates it, and `a ≤ b` with `b ≤ c` gives `a ≤ c`. -/
theorem CompareVersion_consistent (v a b c : GoString)
    (hv : isVersion v = true) (ha : isVersion a = true) (hb : isVersion b = true)
    (hc : isVersion c = true) :
    ∃ ab ba bc ac : Int,
      CompareVersion a b = Res.ok ab ∧ CompareVersion b a = Res.ok ba ∧
      CompareVersion b c = Res.ok bc ∧ CompareVersion a c = Res.ok ac ∧
      CompareVersion v v = Res.ok 0 ∧
      (ab = -1 ∨ ab = 0 ∨ ab = 1) ∧ ab = -ba ∧ (ab ≤ 0 → bc ≤ 0 → ac ≤ 0) := by
  obtain ⟨v0, v1, hv⟩ := split_of_isVersion hv
  obtain ⟨a0, a1, ha⟩ := split_of_isVersion ha
  obtain ⟨b0, b1, hb⟩ := split_of_isVersion hb
  obtain ⟨c0, c1, hc⟩ := split_of_isVersion hc
  refine ⟨_, _, _, _, CompareVersion_pieces ha hb, CompareVersion_pieces hb ha,
    CompareVersion_pieces hb hc, CompareVersion_pieces ha hc, ?_, ?_, ?_, ?_⟩
  · rw [CompareVersion_pieces hv hv]
    simp [strings.lt_self]
  · split_ifs <;> simp
  · by_cases h1 : strings.lt a0 b0 = true
    · simp [h1, strings.lt_flip h1]
    · by_cases h2 : strings.lt b0 a0 = true
      · simp [h1, h2]
      · by_cases h3 : strings.lt a1 b1 = true
        · simp [h1, h2, h3, strings.lt_flip h3]
        · by_cases h4 : strings.lt b1 a1 = true
          · simp [h1, h2, h3, h4]
          · simp [h1, h2, h3, h4]
  · intro hab hbc
    have key : ∀ {x0 x1 y0 y1 : GoString},
        (if strings.lt x0 y0 then (-1 : Int) else if strings.lt y0 x0 then 1
          else if strings.lt x1 y1 then -1 else if strings.lt y1 x1 then 1 else 0) ≤ 0 ↔
        (strings.lt x0 y0 = true ∨ (x0 = y0 ∧ (strings.lt x1 y1 = true ∨ x1 = y1))) := by
      intro x0 x1 y0 y1
      by_cases h1 : strings.lt x0 y0 = true
      · simp [h1]
      · by_cases h2 : strings.lt y0 x0 = true
        · have hne : x0 ≠ y0 := by
            rintro rfl
            simp [strings.lt_self] at h2
          simp [h1, h2, hne]
        · have he : x0 = y0 := strings.eq_of_not_lt (by simpa using h1) (by simpa using h2)
          subst he
          by_cases h3 : strings.lt x1 y1 = true
          · simp [strings.lt_self, h3]
          · by_cases h4 : strings.lt y1 x1 = true
            · have hne : x1 ≠ y1 := by
                rintro rfl
                simp [strings.lt_self] at h4
              simp [strings.lt_self, h3, h4, hne]
            · have he : x1 = y1 :=
                strings.eq_of_not_lt (by simpa using h3) (by simpa using h4)
              simp [strings.lt_self, he]
    rw [key] at hab hbc ⊢
    rcases hab with hab | ⟨rfl, hab⟩
    · rcases hbc with hbc | ⟨rfl, _⟩
      · exact Or.inl (strings.lt_chain hab hbc)
      · exact Or.inl hab
    · rcases hbc with hbc | ⟨rfl, hbc⟩
      · exact Or.inl hbc
      · refine Or.inr ⟨rfl, ?_⟩
        rcases hab with hab | rfl
        · rcases hbc with hbc | rfl
          · exact Or.inl (strings.lt_chain hab hbc)
          · exact Or.inl hab
        · exact hbc

theorem CompareVersion_consistent_witness :
    ∃ ab ba bc ac : Int,
      CompareVersion "20240101000000-5".toList "20240101000000-7".toList = Res.ok ab ∧
      CompareVersion "20240101000000-7".toList "20240101000000-5".toList = Res.ok ba ∧
      CompareVersion "20240101000000-7".toList "20240101000001-10".toList = Res.ok bc ∧
      CompareVersion "20240101000000-5".toList "20240101000001-10".toList = Res.ok ac ∧
      CompareVersion "20231231235959-1".toList "20231231235959-1".toList = Res.ok 0 ∧
      (ab = -1 ∨ ab = 0 ∨ ab = 1) ∧ ab = -ba ∧ (ab ≤ 0 → bc ≤ 0 → ac ≤ 0) :=
  CompareVersion_consistent "20231231235959-1".toList "20240101000000-5".toList
    "20240101000000-7".toList "20240101000001-10".toList
    (by decide) (by decide) (by decide) (by decide)

end wal

/-! ## Little-endian lengths -/

namespace binary

theorem leBytes_length (k v : Nat) : (leBytes k v).length = k := by
  induction k generalizing v with
  | zero => rfl
  | succ k ih => simp [leBytes, ih]

theorem leValue_leBytes (k v : Nat) : leValue (leBytes k v) = v % 256 ^ k := by
  induction k generalizing v with
  | zero => simp [leBytes, leValue, Nat.mod_one]
  | succ k ih =>
    simp only [leBytes, leValue, ih]
    rw [pow_succ, Nat.mul_comm (256 ^ k) 256, Nat.mod_mul]

theorem putInt64_length (n : Int) : (putInt64 n).length = 8 := leBytes_length 8 _

theorem getInt64_putInt64 (n : Nat) (h : n < 2 ^ 63) : getInt64 (putInt64 (n : Int)) = n := by
  have h1 : ((n : Int) % 2 ^ 64).toNat = n := by
    have : (n : Int) % 2 ^ 64 = n := Int.emod_eq_of_lt (by omega) (by omega)
    rw [this]
    simp
  have h2 : leValue (putInt64 (n : Int)) = n := by
    unfold putInt64
    rw [h1, leValue_leBytes]
    exact Nat.mod_eq_of_lt (by omega)
  unfold getInt64
  rw [h2, if_pos h]

end binary

/-! ## The file system -/

namespace World

theorem next_files (world : World) : world.next.2.files = world.files := by
  obtain ⟨files, faults, memory⟩ := world
  cases faults <;> rfl

theorem next_faults (world : World) : world.next.2.faults = world.faults.tail := by
  obtain ⟨files, faults, memory⟩ := world
  cases faults <;> rfl

theorem next_memory (world : World) : world.next.2.memory = world.memory := by
  obtain ⟨files, faults, memory⟩ := world
  cases faults <;> rfl

theorem next_fst (world : World) : world.next.1 = world.faults.head?.join := by
  obtain ⟨files, faults, memory⟩ := world
  cases faults <;> rfl

theorem lookup_eq_some {world : World} {p : GoString} {h : Nat} (hl : world.lookup p = some h) :
    ∃ f, world.files[h]? = some f ∧ f.linked = true ∧ f.path = p := by
  unfold lookup at hl
  simp only at hl
  split at hl
  · rename_i hlt
    cases hl
    have := List.findIdx_getElem (w := hlt)
    refine ⟨_, List.getElem?_eq_getElem hlt, ?_⟩
    simpa using this
  · cases hl

theorem lookup_congr {world world1 : World} (p : GoString)
    (h : world1.files.map (fun f => (f.linked, f.path)) =
      world.files.map (fun f => (f.linked, f.path))) :
    world1.lookup p = world.lookup p := by
  have hlen : world1.files.length = world.files.length := by
    simpa using congrArg List.length h
  have hidx : ∀ (l1 l2 : List File),
      l1.map (fun f => (f.linked, f.path)) = l2.map (fun f => (f.linked, f.path)) →
      l1.findIdx (fun f => f.linked && f.path == p) =
        l2.findIdx (fun f => f.linked && f.path == p) := by
    intro l1
    induction l1 with
    | nil =>
      intro l2 h2
      cases l2 with
      | nil => rfl
      | cons _ _ => simp at h2
    | cons a l1 ih =>
      intro l2 h2
      cases l2 with
      | nil => simp at h2
      | cons b l2 =>
        simp only [List.map_cons, List.cons.injEq, Prod.mk.injEq] at h2
        simp only [List.findIdx_cons, h2.1.1, h2.1.2, ih l2 h2.2]
  unfold lookup
  simp only [hidx _ _ h, hlen]

theorem modify_lookup (world : World) (h : Nat) (g : File → File) (p : GoString)
    (hg : ∀ f, (g f).linked = f.linked ∧ (g f).path = f.path) :
    (world.modify h g).lookup p = world.lookup p := by
  apply lookup_congr
  simp only [modify]
  apply List.ext_getElem?
  intro i
  simp only [List.getElem?_map, List.getElem?_modify]
  cases world.files[i]? with
  | none => simp
  | some f =>
    by_cases hi : h = i
    · simp [hi, hg f]
    · simp [hi]

theorem dataOf_modify_self (world : World) (h : Nat) (g : File → File) (f : File)
    (hf : world.files[h]? = some f) : (world.modify h g).dataOf h = (g f).data := by
  simp [dataOf, modify, List.getElem?_modify, hf]

theorem dataOf_modify_other (world : World) (h i : Nat) (g : File → File) (hi : h ≠ i) :
    (world.modify h g).dataOf i = world.dataOf i := by
  simp [dataOf, modify, List.getElem?_modify, hi]

theorem dataOf_eq {world : World} {h : Nat} {f : File} (hf : world.files[h]? = some f) :
    world.dataOf h = f.data := by
  simp [dataOf, hf]

end World

namespace World

theorem next_lookup (world : World) (p : GoString) : world.next.2.lookup p = world.lookup p := by
  unfold lookup
  rw [next_files]

theorem next_dataOf (world : World) (h : Nat) : world.next.2.dataOf h = world.dataOf h := by
  unfold dataOf
  rw [next_files]

theorem next_of_quiet {world : World} {n : Nat} (hq : world.quiet (n + 1)) :
    world.next = (none, world.next.2) ∧ world.next.2.quiet n := by
  obtain ⟨files, faults, memory⟩ := world
  cases faults with
  | nil =>
    refine ⟨rfl, ?_⟩
    intro f hf
    simp [next] at hf
  | cons a rest =>
    have ha : a = none := hq a (by simp)
    subst ha
    refine ⟨rfl, ?_⟩
    intro f hf
    exact hq f (by
      simp only [List.take_succ_cons, List.mem_cons]
      exact Or.inr hf)

end World

namespace os

theorem Seek_memory (world : World) : (Seek world).2.memory = world.memory := by
  obtain ⟨files, faults, memory⟩ := world
  rcases faults with _ | ⟨f, faults⟩
  · rfl
  · cases f <;> rfl

theorem Write_keeps_memory (h : Nat) (bs : List Byte) (world : World) :
    (Write h bs world).2.memory = world.memory := by
  obtain ⟨files, faults, memory⟩ := world
  rcases faults with _ | ⟨f, faults⟩
  · rfl
  · cases f <;> rfl

theorem Sync_memory (h : Nat) (world : World) : (Sync h world).2.memory = world.memory := by
  obtain ⟨files, faults, memory⟩ := world
  rcases faults with _ | ⟨f, faults⟩
  · rfl
  · cases f <;> rfl

theorem Stat_memory (name : GoString) (world : World) :
    (Stat name world).2.memory = world.memory := by
  obtain ⟨files, faults, memory⟩ := world
  rcases faults with _ | ⟨f, faults⟩
  · unfold Stat
    simp only [World.next]
    split <;> rfl
  · cases f
    · unfold Stat
      simp only [World.next]
      split <;> rfl
    · rfl

theorem ReadAll_memory (h : Nat) (world : World) :
    (ReadAll h world).2.memory = world.memory := by
  obtain ⟨files, faults, memory⟩ := world
  rcases faults with _ | ⟨f, faults⟩
  · rfl
  · cases f <;> rfl

end os

/-! ## `Write` and `Read` -/

namespace wal

theorem record_length (d : List Byte) : (record d).length = 8 + d.length := by
  simp [record, binary.putInt64_length]

theorem records_cons (d : List Byte) (ds : List (List Byte)) :
    records (d :: ds) = record d ++ records ds := by
  simp [records]

theorem records_append (ds1 ds2 : List (List Byte)) :
    records (ds1 ++ ds2) = records ds1 ++ records ds2 := by
  simp [records]

theorem records_eq_nil {ds : List (List Byte)} (h : records ds = []) : ds = [] := by
  cases ds with
  | nil => rfl
  | cons d ds =>
    have := congrArg List.length h
    rw [records_cons, List.length_append, record_length] at this
    simp only [List.length_nil] at this
    omega

theorem serialises_append {c : Codec} {es1 es2 : List types.Entry} {ds1 ds2 : List (List Byte)}
    (h1 : serialises c es1 ds1) (h2 : serialises c es2 ds2) :
    serialises c (es1 ++ es2) (ds1 ++ ds2) :=
  List.rel_append h1 h2

theorem WAL.Write.fill_ok (c : Codec) (es : List types.Entry) (acc buf : List Byte) :
    WAL.Write.fill c es acc = Res.ok buf ↔
      ∃ bodies, serialises c es bodies ∧ buf = acc ++ records bodies := by
  induction es generalizing acc with
  | nil =>
    constructor
    · intro h
      simp only [WAL.Write.fill, Res.ok.injEq] at h
      exact ⟨[], List.Forall₂.nil, by simp [records, h]⟩
    · rintro ⟨bodies, hs, rfl⟩
      cases hs
      simp [WAL.Write.fill, records]
  | cons e es ih =>
    constructor
    · intro h
      simp only [WAL.Write.fill] at h
      split at h
      · rename_i data hd
        obtain ⟨bodies, hs, rfl⟩ := (ih _).mp h
        exact ⟨data :: bodies, List.Forall₂.cons hd hs, by simp [records_cons]⟩
      · cases h
      · cases h
    · rintro ⟨bodies, hs, rfl⟩
      cases hs with
      | cons hd hs =>
        rename_i d ds
        simp only [WAL.Write.fill, hd]
        rw [ih]
        exact ⟨ds, hs, by simp [records_cons]⟩

theorem WAL.Read.loop_cons (c : Codec) (memory fuel : Nat) (l : List Byte)
    (entries : List types.Entry) (hl : l ≠ []) :
    WAL.Read.loop c memory (fuel + 1) l entries =
      if l.length < 8 then some (Res.err Error.ErrUnexpectedEOF)
      else
        if binary.getInt64 (l.take 8) < 0 ∨
            (runtime.maxAlloc : Int) < binary.getInt64 (l.take 8) then
          some (Res.panic (Panic.makeSliceLen (binary.getInt64 (l.take 8))))
        else if memory < (binary.getInt64 (l.take 8)).toNat then
          some (Res.panic Panic.outOfMemory)
        else if (l.drop 8).length < (binary.getInt64 (l.take 8)).toNat then
          some (Res.err (if (l.drop 8).length = 0 then Error.EOF else Error.ErrUnexpectedEOF))
        else
          match c.TUnmarshal ((l.drop 8).take (binary.getInt64 (l.take 8)).toNat) with
          | Res.ok entry =>
            WAL.Read.loop c memory fuel ((l.drop 8).drop (binary.getInt64 (l.take 8)).toNat)
              (entries ++ [entry])
          | Res.err e => some (Res.err e)
          | Res.panic p => some (Res.panic p) := by
  cases l with
  | nil => exact absurd rfl hl
  | cons b bs => rfl

/-- The loop of `Read` never runs out of rounds when it is given one round per byte. -/
theorem WAL.Read.loop_total (c : Codec) (memory fuel : Nat) (l : List Byte)
    (entries : List types.Entry) (h : l.length ≤ fuel) :
    WAL.Read.loop c memory fuel l entries ≠ none := by
  induction fuel generalizing l entries with
  | zero =>
    have : l = [] := List.length_eq_zero.mp (by omega)
    subst this
    simp [WAL.Read.loop]
  | succ fuel ih =>
    by_cases hl : l = []
    · subst hl
      simp [WAL.Read.loop]
    · rw [WAL.Read.loop_cons c memory fuel l entries hl]
      split_ifs
      all_goals try exact Option.some_ne_none _
      split
      · apply ih
        simp only [List.length_drop]
        have : 0 < l.length := List.length_pos.mpr hl
        omega
      · simp
      · simp

/-- A body of at most `runtime.maxAlloc` bytes has a length that fits an `int64`. -/
theorem length_lt_of_le_maxAlloc {n : Nat} (h : n ≤ runtime.maxAlloc) : n < 2 ^ 63 := by
  unfold runtime.maxAlloc at h
  omega

theorem WAL.Read.loop_records (c : Codec) (memory : Nat) (es : List types.Entry)
    (bodies : List (List Byte))
    (hs : List.Forall₂ (fun e d => c.TUnmarshal d = Res.ok e ∧
      d.length ≤ runtime.maxAlloc ∧ d.length ≤ memory) es bodies)
    (entries : List types.Entry) (fuel : Nat) (hfuel : (records bodies).length ≤ fuel) :
    WAL.Read.loop c memory fuel (records bodies) entries = some (Res.ok (entries ++ es)) := by
  induction hs generalizing entries fuel with
  | nil =>
    cases fuel <;> simp [records, WAL.Read.loop]
  | cons hd _htl ih =>
    rename_i e d es ds
    rw [records_cons, List.length_append, record_length] at hfuel
    obtain ⟨fuel, rfl⟩ : ∃ k, fuel = k + 1 := ⟨fuel - 1, by omega⟩
    have hne : records (d :: ds) ≠ [] := by
      intro h
      cases records_eq_nil h
    have hform : records (d :: ds) = binary.putInt64 (d.length : Int) ++ (d ++ records ds) := by
      simp [records_cons, record]
    have htake : (records (d :: ds)).take 8 = binary.putInt64 (d.length : Int) := by
      rw [hform]
      exact List.take_left' (binary.putInt64_length _)
    have hdrop : (records (d :: ds)).drop 8 = d ++ records ds := by
      rw [hform]
      exact List.drop_left' (binary.putInt64_length _)
    have hlen : ¬ (records (d :: ds)).length < 8 := by
      rw [records_cons, List.length_append, record_length]
      omega
    rw [WAL.Read.loop_cons c memory fuel _ entries hne, if_neg hlen, htake, hdrop,
      binary.getInt64_putInt64 d.length (length_lt_of_le_maxAlloc hd.2.1)]
    have h1 : ¬ ((d.length : Int) < 0 ∨ (runtime.maxAlloc : Int) < (d.length : Int)) := by
      have := hd.2.1
      omega
    have h2 : ¬ (memory < ((d.length : Int)).toNat) := by
      have := hd.2.2
      simp only [Int.toNat_ofNat]
      omega
    have h3 : ¬ ((d ++ records ds).length < ((d.length : Int)).toNat) := by
      simp
    rw [if_neg h1, if_neg h2, if_neg h3]
    simp only [Int.toNat_ofNat, List.take_left', List.drop_left', hd.1]
    rw [ih (entries ++ [e]) fuel (by omega)]
    simp

theorem WAL.Read.loop_some (c : Codec) (memory fuel : Nat) (l : List Byte)
    (entries : List types.Entry) (h : l.length ≤ fuel) :
    ∃ r, WAL.Read.loop c memory fuel l entries = some r := by
  induction fuel generalizing l entries with
  | zero =>
    have : l = [] := List.length_eq_zero.mp (by omega)
    subst this
    exact ⟨_, rfl⟩
  | succ fuel ih =>
    by_cases hl : l = []
    · subst hl
      exact ⟨_, rfl⟩
    · rw [WAL.Read.loop_cons c memory fuel l entries hl]
      split_ifs
      all_goals try exact ⟨_, rfl⟩
      split
      · apply ih
        simp only [List.length_drop]
        have : 0 < l.length := List.length_pos.mpr hl
        omega
      · exact ⟨_, rfl⟩
      · exact ⟨_, rfl⟩

/-- What the loop of `Read` returns on some machine it returns on a machine with memory
for every allocation the run time allows. -/
theorem WAL.Read.loop_memory (c : Codec) (memory : Nat) :
    ∀ (fuel : Nat) (l : List Byte) (entries es : List types.Entry),
      WAL.Read.loop c memory fuel l entries = some (Res.ok es) →
        WAL.Read.loop c runtime.maxAlloc fuel l entries = some (Res.ok es) := by
  intro fuel
  induction fuel with
  | zero =>
    intro l entries es h
    cases l with
    | nil => exact h
    | cons b bs => simp [WAL.Read.loop] at h
  | succ fuel ih =>
    intro l entries es h
    by_cases hl : l = []
    · subst hl
      exact h
    · rw [WAL.Read.loop_cons c _ fuel l entries hl] at h ⊢
      by_cases h8 : l.length < 8
      · rw [if_pos h8] at h
        cases h
      · rw [if_neg h8] at h ⊢
        by_cases hn : binary.getInt64 (l.take 8) < 0 ∨
            (runtime.maxAlloc : Int) < binary.getInt64 (l.take 8)
        · rw [if_pos hn] at h
          cases h
        · rw [if_neg hn] at h ⊢
          have hm : ¬ runtime.maxAlloc < (binary.getInt64 (l.take 8)).toNat := by
            omega
          rw [if_neg hm]
          by_cases hmem : memory < (binary.getInt64 (l.take 8)).toNat
          · rw [if_pos hmem] at h
            cases h
          · rw [if_neg hmem] at h
            by_cases hs : (l.drop 8).length < (binary.getInt64 (l.take 8)).toNat
            · rw [if_pos hs] at h
              cases h
            · rw [if_neg hs] at h ⊢
              cases hu : c.TUnmarshal ((l.drop 8).take (binary.getInt64 (l.take 8)).toNat) with
              | ok entry =>
                rw [hu] at h
                simp only at h ⊢
                exact ih _ _ _ h
              | err e =>
                rw [hu] at h
                cases h
              | panic q =>
                rw [hu] at h
                cases h

theorem WAL.Read.loop_getD_memory {c : Codec} {memory : Nat} {data : List Byte}
    {es : List types.Entry}
    (h : (WAL.Read.loop c memory data.length data []).getD (Res.ok []) = Res.ok es) :
    (WAL.Read.loop c runtime.maxAlloc data.length data []).getD (Res.ok []) = Res.ok es := by
  obtain ⟨r, hr⟩ := WAL.Read.loop_some c memory data.length data [] (Nat.le_refl _)
  rw [hr] at h
  simp only [Option.getD_some] at h
  subst h
  rw [WAL.Read.loop_memory c memory _ _ _ _ hr]
  rfl

end wal

namespace wal

/-- What a successful `Write` does to the files: the buffer goes to the end of the file
behind the handle, and all of that file becomes durable. -/
theorem WAL.Write_ok {c : Codec} {w : WAL} {es : List types.Entry} {world world1 : World}
    {fd : Nat} (hfd : w.fd = some fd) (hw : w.Write c es world = (Res.ok (), world1)) :
    ∃ buf, WAL.Write.fill c es [] = Res.ok buf ∧
      world1.files = (world.files.modify (fun f => { f with data := f.data ++ buf }) fd).modify
        (fun f => { f with synced := f.data.length }) fd ∧
      world1.faults = world.faults.drop 3 := by
  obtain ⟨files, faults, memory⟩ := world
  simp only [WAL.Write, hfd, os.Seek, World.next] at hw
  rcases faults with _ | ⟨f1, faults⟩
  · -- no fault left at all
    simp only at hw
    cases hfill : WAL.Write.fill c es [] with
    | ok buf =>
      simp only [hfill, os.Write, os.Sync, World.next, World.modify] at hw
      refine ⟨buf, rfl, ?_, ?_⟩
      · simp only [Prod.mk.injEq, true_and] at hw
        rw [← hw]
      · simp only [Prod.mk.injEq, true_and] at hw
        rw [← hw]
        rfl
    | err e => simp [hfill] at hw
    | panic p => simp [hfill] at hw
  · cases f1 with
    | some k => simp at hw
    | none =>
      simp only at hw
      cases hfill : WAL.Write.fill c es [] with
      | err e => simp [hfill] at hw
      | panic p => simp [hfill] at hw
      | ok buf =>
        simp only [hfill, os.Write, World.next] at hw
        rcases faults with _ | ⟨f2, faults⟩
        · simp only [os.Sync, World.next, World.modify, Prod.mk.injEq, true_and] at hw
          refine ⟨buf, rfl, ?_, ?_⟩
          · rw [← hw]
          · rw [← hw]
            rfl
        · cases f2 with
          | some k => simp at hw
          | none =>
            simp only [os.Sync, World.next, World.modify] at hw
            rcases faults with _ | ⟨f3, faults⟩
            · simp only [Prod.mk.injEq, true_and] at hw
              refine ⟨buf, rfl, ?_, ?_⟩
              · rw [← hw]
              · rw [← hw]
                rfl
            · cases f3 with
              | some k => simp at hw
              | none =>
                simp only [Prod.mk.injEq, true_and] at hw
                refine ⟨buf, rfl, ?_, ?_⟩
                · rw [← hw]
                · rw [← hw]
                  rfl

/-- What `Read` returns when the environment fails none of its system calls and the
handle is on the file named by `path`: the decoding of the bytes of the file. -/
theorem WAL.Read_quiet {c : Codec} {w : WAL} {world : World} {fd : Nat}
    (hfd : w.fd = some fd) (hpath : world.lookup w.path = some fd) (hq : world.quiet 3) :
    (w.Read c world).1 =
      if (world.dataOf fd).length = 0 then Res.ok []
      else (WAL.Read.loop c world.memory (world.dataOf fd).length (world.dataOf fd) []).getD
        (Res.ok []) := by
  obtain ⟨h1, hq1⟩ := World.next_of_quiet hq
  obtain ⟨h2, hq2⟩ := World.next_of_quiet hq1
  obtain ⟨h3, -⟩ := World.next_of_quiet hq2
  simp only [WAL.Read, hfd, os.Stat]
  rw [h1]
  simp only [World.next_lookup, hpath, World.next_dataOf]
  by_cases hz : (world.dataOf fd).length = 0
  · simp [hz]
  · simp only [hz, if_false, os.Seek]
    rw [h2]
    simp only [os.ReadAll]
    rw [h3]
    simp only [World.next_dataOf, World.next_memory]

/-- `Write` leaves the memory of the machine as it is. -/
theorem WAL.Write_memory (c : Codec) (w : WAL) (es : List types.Entry) (world : World) :
    (w.Write c es world).2.memory = world.memory := by
  unfold WAL.Write
  cases w.fd with
  | none => rfl
  | some fd =>
    simp only
    rcases hk : os.Seek world with ⟨rk, wk⟩
    have hkm : wk.memory = world.memory := by
      have := os.Seek_memory world
      rw [hk] at this
      exact this
    cases rk with
    | ok u =>
      simp only
      cases WAL.Write.fill c es [] with
      | ok buf =>
        simp only
        rcases hwr : os.Write fd buf wk with ⟨rw, ww⟩
        have hwm : ww.memory = wk.memory := by
          have := os.Write_keeps_memory fd buf wk
          rw [hwr] at this
          exact this
        cases rw with
        | ok u1 =>
          simp only
          rw [os.Sync_memory, hwm, hkm]
        | err e => exact hwm.trans hkm
        | panic q => exact hwm.trans hkm
      | err e => exact hkm
      | panic q => exact hkm
    | err e => exact hkm
    | panic q => exact hkm

end wal

namespace wal

theorem serialises_decodes {c : Codec} {memory : Nat} {es : List types.Entry}
    {bodies : List (List Byte)} (hs : serialises c es bodies)
    (hcodec : ∀ e ∈ es, ∀ d, c.TMarshal e = Res.ok d →
      c.TUnmarshal d = Res.ok e ∧ d.length ≤ runtime.maxAlloc ∧ d.length ≤ memory) :
    List.Forall₂ (fun e d => c.TUnmarshal d = Res.ok e ∧
      d.length ≤ runtime.maxAlloc ∧ d.length ≤ memory) es bodies := by
  induction hs with
  | nil => exact List.Forall₂.nil
  | cons hd _htl ih =>
    refine List.Forall₂.cons (hcodec _ (List.mem_cons_self _ _) _ hd) (ih ?_)
    intro e he d hd1
    exact hcodec e (List.mem_cons_of_mem _ he) d hd1

/-- What `Read` returns on a file that holds the records of `es`, when the codec reads
back what it wrote for them and the environment fails none of the system calls. -/
theorem WAL.Read_records {c : Codec} {w : WAL} {world : World} {fd : Nat}
    {es : List types.Entry} {bodies : List (List Byte)}
    (hfd : w.fd = some fd) (hpath : world.lookup w.path = some fd) (hq : world.quiet 3)
    (hs : serialises c es bodies) (hdata : world.dataOf fd = records bodies)
    (hcodec : ∀ e ∈ es, ∀ d, c.TMarshal e = Res.ok d →
      c.TUnmarshal d = Res.ok e ∧ d.length ≤ runtime.maxAlloc ∧ d.length ≤ world.memory) :
    (w.Read c world).1 = Res.ok es := by
  rw [WAL.Read_quiet hfd hpath hq, hdata]
  split_ifs with hz
  · have hb : bodies = [] := records_eq_nil (List.length_eq_zero.mp hz)
    subst hb
    cases hs
    rfl
  · rw [WAL.Read.loop_records c world.memory es bodies (serialises_decodes hs hcodec) [] _
      (le_refl _)]
    rfl

/-- C1. `Write` then `Read` round trip.  Let the handle of an open WAL be on the file named
by its path, and let that file hold the records of the entries `es0`.  If the codec reads
back what it writes for the entries involved (encodings being within the allocation limit
of the run time and the memory of the machine, as every slice of the running program is),
then after `Write(es)` succeeds the file is its old content followed by
one record per entry of `es`, in order (the 8-byte little-endian length of the encoding, then
the encoding), and `Read`, when none of its three system calls fails, returns `es0 ++ es`
and no error. -/
theorem WAL.Write_Read_roundtrip (c : Codec) (w : WAL) (fd : Nat) (world world1 : World)
    (es0 es : List types.Entry) (bodies0 : List (List Byte))
    (hfd : w.fd = some fd) (hpath : world.lookup w.path = some fd)
    (hold : serialises c es0 bodies0) (hdata : world.dataOf fd = records bodies0)
    (hcodec : ∀ e ∈ es0 ++ es, ∀ d, c.TMarshal e = Res.ok d →
      c.TUnmarshal d = Res.ok e ∧ d.length ≤ runtime.maxAlloc ∧ d.length ≤ world.memory)
    (hw : w.Write c es world = (Res.ok (), world1))
    (hquiet : world1.quiet 3) :
    ∃ bodies, serialises c es bodies ∧
      world1.dataOf fd = world.dataOf fd ++ (bodies.map record).flatten ∧
      (w.Read c world1).1 = Res.ok (es0 ++ es) := by
  obtain ⟨buf, hfill, hfiles, -⟩ := WAL.Write_ok hfd hw
  obtain ⟨bodies, hs, rfl⟩ := (WAL.Write.fill_ok c es [] buf).mp hfill
  obtain ⟨f, hf, -, -⟩ := World.lookup_eq_some hpath
  have hd1 : world1.dataOf fd = world.dataOf fd ++ records bodies := by
    simp [World.dataOf, hfiles, List.getElem?_modify, hf]
  have hl1 : world1.lookup w.path = some fd := by
    rw [← hpath]
    apply World.lookup_congr
    rw [hfiles]
    apply List.ext_getElem?
    intro i
    simp only [List.getElem?_map, List.getElem?_modify]
    cases world.files[i]? with
    | none => simp
    | some g => by_cases hi : fd = i <;> simp [hi]
  have hm : world1.memory = world.memory := by
    have := WAL.Write_memory c w es world
    rw [hw] at this
    exact this
  refine ⟨bodies, hs, hd1, ?_⟩
  refine WAL.Read_records hfd hl1 hquiet (serialises_append hold hs) ?_ (by rw [hm]; exact hcodec)
  rw [hd1, hdata, records_append]

end wal

namespace wal

theorem WAL.Write_Read_roundtrip_witness :
    ∃ bodies, serialises sample.codec [sample.e2, sample.e3] bodies ∧
      (sample.walA.Write sample.codec [sample.e2, sample.e3] sample.worldA).2.dataOf 0 =
        sample.worldA.dataOf 0 ++ (bodies.map record).flatten ∧
      (sample.walA.Read sample.codec
        (sample.walA.Write sample.codec [sample.e2, sample.e3] sample.worldA).2).1 =
        Res.ok ([sample.e1] ++ [sample.e2, sample.e3]) :=
  WAL.Write_Read_roundtrip sample.codec sample.walA 0 sample.worldA
    (sample.walA.Write sample.codec [sample.e2, sample.e3] sample.worldA).2
    [sample.e1] [sample.e2, sample.e3]
    [[0, 10, 0, 0, 0, 0, 0, 0, 0, 1, 0, 0, 0, 0, 0, 0, 0, 97, 1, 2]]
    rfl (by decide) (List.Forall₂.cons (by decide) List.Forall₂.nil) (by decide)
    (by
      intro e he d hd
      simp only [List.cons_append, List.nil_append, List.mem_cons, List.mem_singleton,
        List.not_mem_nil, or_false] at he
      rcases he with rfl | rfl | rfl <;>
        · simp only [sample.codec, sample.TMarshal, Res.ok.injEq] at hd
          subst hd
          decide)
    rfl (by decide)

end wal

/-! ## Versions and the clock -/

namespace wal

/-- C7 (the failing input). Two valid clock readings in one second, 5 and 10 nanoseconds
into it: the first is the earlier one, `Create` succeeds at both, and the version of the
earlier WAL compares as greater (1, where chronological order asks for -1), because the
nanoseconds are formatted by `%d`, without zero padding. -/
theorem Create_versions_not_chronological :
    sample.t1.valid = true ∧ sample.t2.valid = true ∧ sample.t1.before sample.t2 = true ∧
    ∃ w1 w2 world1 world2,
      Create "D".toList sample.t1 sample.emptyWorld = (Res.ok w1, world1) ∧
      Create "D".toList sample.t2 world1 = (Res.ok w2, world2) ∧
      w1.version = "20240101000000-5".toList ∧ w2.version = "20240101000000-10".toList ∧
      CompareVersion w1.version w2.version = Res.ok 1 :=
  ⟨by decide, by decide, by decide, _, _, _, _, rfl, rfl, by decide, by decide, by decide⟩

end wal

/-! ## `freeze` -/

/-- C8. Once `freeze` has returned on a memtable, `set` of any entry panics with
`write readonly memtable` and leaves the memtable (its skip list and its WAL) and the files
as they are, whatever the files; and `get`, `lowerBound`, `scan`, `all` and `size` answer as
before `freeze`, which changes only the handle of the WAL and the `readOnly` flag, and no
file. -/
theorem memtable.freeze_rejects_set_keeps_reads (c : Codec) (mt mt1 : memtable)
    (world world1 world2 : World) (e : types.Entry)
    (hfreeze : mt.freeze world = (Res.ok (), mt1, world1)) :
    mt1.set c e world2 = (Res.panic (Panic.logged "write readonly memtable"), mt1, world2) ∧
    (∀ k, mt1.get k = mt.get k) ∧ (∀ k, mt1.lowerBound k = mt.lowerBound k) ∧
    (∀ s t, mt1.scan s t = mt.scan s t) ∧ mt1.all = mt.all ∧ mt1.size = mt.size ∧
    mt1 = { mt with wal := { mt.wal with fd := none }, readOnly := true } ∧
    world1.files = world.files := by
  have key : mt1 = { mt with wal := { mt.wal with fd := none }, readOnly := true } ∧
      world1.files = world.files := by
    unfold memtable.freeze wal.WAL.Close wal.WAL.close at hfreeze
    cases hfd : mt.wal.fd with
    | none =>
      simp only [hfd, Prod.mk.injEq, true_and] at hfreeze
      obtain ⟨h1, h2⟩ := hfreeze
      subst h1 h2
      refine ⟨?_, rfl⟩
      congr 1
      cases hw : mt.wal
      rw [hw] at hfd
      simp_all
    | some fd =>
      simp only [hfd, os.Close] at hfreeze
      rcases hn : world.next with ⟨f, wn⟩
      have hfiles : wn.files = world.files := by
        have := World.next_files world
        rw [hn] at this
        exact this
      rw [hn] at hfreeze
      cases f with
      | some k => simp at hfreeze
      | none =>
        simp only [Prod.mk.injEq, true_and] at hfreeze
        obtain ⟨h1, h2⟩ := hfreeze
        subst h1 h2
        exact ⟨rfl, hfiles⟩
  obtain ⟨hmt, hfiles⟩ := key
  subst hmt
  refine ⟨?_, ?_, ?_, ?_, ?_, ?_, rfl, hfiles⟩
  · simp [memtable.set]
  · intro k
    rfl
  · intro k
    rfl
  · intro s t
    rfl
  · rfl
  · rfl

theorem memtable.freeze_rejects_set_keeps_reads_witness :
    ({ sample.mtA with wal := { sample.walA with fd := none }, readOnly := true } : memtable).set
        sample.codec sample.e2 sample.worldA =
      (Res.panic (Panic.logged "write readonly memtable"),
        { sample.mtA with wal := { sample.walA with fd := none }, readOnly := true },
        sample.worldA) ∧
    (∀ k, ({ sample.mtA with wal := { sample.walA with fd := none },
                             readOnly := true } : memtable).get k = sample.mtA.get k) :=
  let h := memtable.freeze_rejects_set_keeps_reads sample.codec sample.mtA
    { sample.mtA with wal := { sample.walA with fd := none }, readOnly := true }
    sample.worldA sample.worldA sample.worldA sample.e2 (by rfl)
  ⟨h.1, h.2.1⟩

/-! ## System calls, in every outcome -/

namespace os

theorem next_cases (world : World) :
    ∃ f wa, world.next = (f, wa) ∧ wa.files = world.files :=
  ⟨_, _, rfl, World.next_files world⟩

theorem Seek_spec {world world1 : World} {r : Res Unit} (h : Seek world = (r, world1)) :
    world1.files = world.files ∧ (r = Res.ok () ∨ ∃ e, r = Res.err e) := by
  obtain ⟨f, wa, hn, hwa⟩ := next_cases world
  unfold Seek at h
  rw [hn] at h
  cases f <;> simp only [Prod.mk.injEq] at h <;> obtain ⟨rfl, rfl⟩ := h
  · exact ⟨hwa, Or.inl rfl⟩
  · exact ⟨hwa, Or.inr ⟨_, rfl⟩⟩

theorem Close_spec {world world1 : World} {r : Res Unit} (h : Close world = (r, world1)) :
    world1.files = world.files ∧ (r = Res.ok () ∨ ∃ e, r = Res.err e) := by
  obtain ⟨f, wa, hn, hwa⟩ := next_cases world
  unfold Close at h
  rw [hn] at h
  cases f <;> simp only [Prod.mk.injEq] at h <;> obtain ⟨rfl, rfl⟩ := h
  · exact ⟨hwa, Or.inl rfl⟩
  · exact ⟨hwa, Or.inr ⟨_, rfl⟩⟩

theorem Write_outcome {world world1 : World} {r : Res Unit} {h : Nat} {bs : List Byte}
    (hw : Write h bs world = (r, world1)) :
    (r = Res.ok () ∧
        world1.files = world.files.modify (fun f => { f with data := f.data ++ bs }) h) ∨
      ((∃ e, r = Res.err e) ∧ ∃ k,
        world1.files = world.files.modify (fun f => { f with data := f.data ++ bs.take k }) h) := by
  obtain ⟨f, wa, hn, hwa⟩ := next_cases world
  unfold Write at hw
  rw [hn] at hw
  cases f with
  | none =>
    simp only [Prod.mk.injEq] at hw
    obtain ⟨rfl, rfl⟩ := hw
    exact Or.inl ⟨rfl, by simp [World.modify, hwa]⟩
  | some k =>
    simp only [Prod.mk.injEq] at hw
    obtain ⟨rfl, rfl⟩ := hw
    exact Or.inr ⟨⟨_, rfl⟩, k, by simp [World.modify, hwa]⟩

theorem Sync_spec {world world1 : World} {r : Res Unit} {h : Nat}
    (hs : Sync h world = (r, world1)) :
    (r = Res.ok () ∧
        world1.files = world.files.modify (fun f => { f with synced := f.data.length }) h) ∨
      ((∃ e, r = Res.err e) ∧ world1.files = world.files) := by
  obtain ⟨f, wa, hn, hwa⟩ := next_cases world
  unfold Sync at hs
  rw [hn] at hs
  cases f <;> simp only [Prod.mk.injEq] at hs <;> obtain ⟨rfl, rfl⟩ := hs
  · exact Or.inl ⟨rfl, by simp [World.modify, hwa]⟩
  · exact Or.inr ⟨⟨_, rfl⟩, hwa⟩

theorem ReadAll_spec {world world1 : World} {r : Res (List Byte)} {h : Nat}
    (hs : ReadAll h world = (r, world1)) :
    world1.files = world.files ∧ (r = Res.ok (world.dataOf h) ∨ ∃ e, r = Res.err e) := by
  obtain ⟨f, wa, hn, hwa⟩ := next_cases world
  unfold ReadAll at hs
  rw [hn] at hs
  cases f <;> simp only [Prod.mk.injEq] at hs <;> obtain ⟨rfl, rfl⟩ := hs
  · exact ⟨hwa, Or.inl (by simp [World.dataOf, hwa])⟩
  · exact ⟨hwa, Or.inr ⟨_, rfl⟩⟩

theorem lookup_files {world wa : World} (hwa : wa.files = world.files) (p : GoString) :
    wa.lookup p = world.lookup p := by
  unfold World.lookup
  rw [hwa]

theorem dataOf_files {world wa : World} (hwa : wa.files = world.files) (h : Nat) :
    wa.dataOf h = world.dataOf h := by
  unfold World.dataOf
  rw [hwa]

theorem Stat_spec {world world1 : World} {r : Res Nat} {p : GoString}
    (hs : Stat p world = (r, world1)) :
    world1.files = world.files ∧
      ((∃ h, world.lookup p = some h ∧ r = Res.ok (world.dataOf h).length) ∨
        ∃ e, r = Res.err e) := by
  obtain ⟨f, wa, hn, hwa⟩ := next_cases world
  unfold Stat at hs
  rw [hn] at hs
  cases f with
  | some k =>
    simp only [Prod.mk.injEq] at hs
    obtain ⟨rfl, rfl⟩ := hs
    exact ⟨hwa, Or.inr ⟨_, rfl⟩⟩
  | none =>
    simp only [lookup_files hwa, dataOf_files hwa] at hs
    cases hl : world.lookup p with
    | none =>
      simp only [hl, Prod.mk.injEq] at hs
      obtain ⟨rfl, rfl⟩ := hs
      exact ⟨hwa, Or.inr ⟨_, rfl⟩⟩
    | some i =>
      simp only [hl, Prod.mk.injEq] at hs
      obtain ⟨rfl, rfl⟩ := hs
      exact ⟨hwa, Or.inl ⟨i, rfl, rfl⟩⟩

theorem OpenFile_existing_spec {world world1 : World} {r : Res Nat} {p : GoString}
    (hs : OpenFile p false world = (r, world1)) :
    world1.files = world.files ∧ (∀ i, r = Res.ok i → world.lookup p = some i) ∧
      ∀ q, r ≠ Res.panic q := by
  obtain ⟨f, wa, hn, hwa⟩ := next_cases world
  unfold OpenFile at hs
  rw [hn] at hs
  cases f with
  | some k =>
    simp only [Prod.mk.injEq] at hs
    obtain ⟨rfl, rfl⟩ := hs
    exact ⟨hwa, (by intro i hi; cases hi), (by intro q hq; cases hq)⟩
  | none =>
    simp only [lookup_files hwa] at hs
    cases hl : world.lookup p with
    | none =>
      simp only [hl, Bool.false_eq_true, if_false, Prod.mk.injEq] at hs
      obtain ⟨rfl, rfl⟩ := hs
      exact ⟨hwa, (by intro i hi; cases hi), (by intro q hq; cases hq)⟩
    | some i =>
      simp only [hl] at hs
      split at hs
      · split at hs <;> simp only [Prod.mk.injEq] at hs <;> obtain ⟨rfl, rfl⟩ := hs
        · exact ⟨hwa, (by intro i hi; cases hi), (by intro q hq; cases hq)⟩
        · exact ⟨hwa, (by intro j hj; cases hj; rfl), (by intro q hq; cases hq)⟩
      · simp only [Prod.mk.injEq] at hs
        obtain ⟨rfl, rfl⟩ := hs
        exact ⟨hwa, (by intro i hi; cases hi), (by intro q hq; cases hq)⟩

theorem Remove_spec {world world1 : World} {r : Res Unit} {p : GoString}
    (hs : Remove p world = (r, world1)) :
    (r = Res.ok () ∧ ∃ i, world.lookup p = some i ∧
        world1.files = world.files.modify (fun f => { f with linked := false }) i) ∨
      ((∃ e, r = Res.err e) ∧ world1.files = world.files) := by
  obtain ⟨f, wa, hn, hwa⟩ := next_cases world
  unfold Remove at hs
  rw [hn] at hs
  cases f with
  | some k =>
    simp only [Prod.mk.injEq] at hs
    obtain ⟨rfl, rfl⟩ := hs
    exact Or.inr ⟨⟨_, rfl⟩, hwa⟩
  | none =>
    simp only [lookup_files hwa] at hs
    cases hl : world.lookup p with
    | none =>
      simp only [hl, Prod.mk.injEq] at hs
      obtain ⟨rfl, rfl⟩ := hs
      exact Or.inr ⟨⟨_, rfl⟩, hwa⟩
    | some i =>
      simp only [hl, Prod.mk.injEq] at hs
      obtain ⟨rfl, rfl⟩ := hs
      exact Or.inl ⟨rfl, i, rfl, by simp [World.modify, hwa]⟩

end os

/-! ## How the files change -/

theorem File.Step.refl (h : Nat) (U : List GoString) (k : Nat) (f : File) :
    File.Step h U k f f :=
  ⟨rfl, rfl, Or.inl rfl, fun _ => ⟨rfl, rfl⟩, fun _ => ⟨⟨[], by simp⟩, ⟨[], by simp⟩⟩⟩

theorem File.Step.compose {h : Nat} {U V : List GoString} {k : Nat} {f f1 f2 : File}
    (s1 : File.Step h U k f f1) (s2 : File.Step h V k f1 f2) : File.Step h (U ++ V) k f f2 := by
  obtain ⟨p1, d1, l1, o1, c1⟩ := s1
  obtain ⟨p2, d2, l2, o2, c2⟩ := s2
  refine ⟨p2.trans p1, d2.trans d1, ?_, ?_, ?_⟩
  · rcases l2 with l2 | ⟨m2, l2, n2⟩
    · rcases l1 with l1 | ⟨m1, l1, n1⟩
      · exact Or.inl (l2.trans l1)
      · exact Or.inr ⟨List.mem_append_left _ m1, l2.trans l1, n1⟩
    · exact Or.inr ⟨List.mem_append_right _ (p1 ▸ m2), l2, n2⟩
  · intro hk
    exact ⟨(o2 hk).1.trans (o1 hk).1, (o2 hk).2.trans (o1 hk).2⟩
  · intro hk
    obtain ⟨⟨x1, hx1⟩, ⟨y1, hy1⟩⟩ := c1 hk
    obtain ⟨⟨x2, hx2⟩, ⟨y2, hy2⟩⟩ := c2 hk
    exact ⟨⟨x1 ++ x2, by rw [hx2, hx1, List.append_assoc]⟩,
      ⟨y1 ++ y2, by rw [hy2, hy1, List.append_assoc]⟩⟩

namespace World

theorem Step.of_files_eq {h : Nat} {world world1 : World} (he : world1.files = world.files) :
    Step h [] world world1 :=
  ⟨by rw [he], fun k f hf => ⟨f, by rw [he]; exact hf, File.Step.refl h [] k f⟩⟩

theorem Step.trans {h : Nat} {U V : List GoString} {world world1 world2 : World}
    (s1 : Step h U world world1) (s2 : Step h V world1 world2) :
    Step h (U ++ V) world world2 := by
  refine ⟨s2.1.trans s1.1, ?_⟩
  intro k f hf
  obtain ⟨f1, hf1, t1⟩ := s1.2 k f hf
  obtain ⟨f2, hf2, t2⟩ := s2.2 k f1 hf1
  exact ⟨f2, hf2, t1.compose t2⟩

theorem Step.trans_nil {h : Nat} {U : List GoString} {world world1 world2 : World}
    (s1 : Step h [] world world1) (s2 : Step h U world1 world2) : Step h U world world2 := by
  simpa using s1.trans s2

theorem Step.nil_trans {h : Nat} {U : List GoString} {world world1 world2 : World}
    (s1 : Step h U world world1) (s2 : Step h [] world1 world2) : Step h U world world2 := by
  simpa using s1.trans s2

theorem Step.of_modify {h : Nat} {U : List GoString} {world world1 : World} {j : Nat}
    {g : File → File} (he : world1.files = world.files.modify g j)
    (hg : ∀ f, world.files[j]? = some f → File.Step h U j f (g f)) :
    Step h U world world1 := by
  refine ⟨by rw [he, List.length_modify], ?_⟩
  intro k f hf
  rw [he, List.getElem?_modify, hf]
  by_cases hjk : j = k
  · subst hjk
    exact ⟨g f, by simp, hg f hf⟩
  · exact ⟨f, by simp [hjk], File.Step.refl h U k f⟩

theorem Step.of_append {h : Nat} {world world1 : World} {extra : List Byte}
    (he : world1.files = world.files.modify (fun f => { f with data := f.data ++ extra }) h) :
    Step h [] world world1 := by
  refine Step.of_modify he ?_
  intro f _
  refine ⟨rfl, rfl, Or.inl rfl, fun hk => absurd rfl hk, fun _ => ⟨⟨extra, rfl⟩, ?_⟩⟩
  exact ⟨(extra.take (f.synced - f.data.length)), by
    simp only [List.take_append_eq_append_take]⟩

theorem Step.of_sync {h : Nat} {world world1 : World}
    (he : world1.files = world.files.modify (fun f => { f with synced := f.data.length }) h) :
    Step h [] world world1 := by
  refine Step.of_modify he ?_
  intro f _
  refine ⟨rfl, rfl, Or.inl rfl, fun hk => absurd rfl hk, fun _ => ⟨⟨[], by simp⟩, ?_⟩⟩
  exact ⟨f.data.drop f.synced, by simp⟩

theorem Step.of_unlink {h i : Nat} {world world1 : World} {p : GoString} {f : File}
    (he : world1.files = world.files.modify (fun f => { f with linked := false }) i)
    (hf : world.files[i]? = some f) (hp : f.path = p) (hi : i ≠ h) :
    Step h [p] world world1 := by
  refine Step.of_modify he ?_
  intro g hg
  rw [hf] at hg
  cases hg
  exact ⟨rfl, rfl, Or.inr ⟨by simp [hp], rfl, hi⟩, fun _ => ⟨rfl, rfl⟩, fun hk => absurd hk hi⟩

theorem dataOf_lt {world : World} {h : Nat} (hh : h < world.files.length) :
    ∃ f, world.files[h]? = some f ∧ world.dataOf h = f.data ∧
      world.durableOf h = f.data.take f.synced :=
  ⟨world.files[h], List.getElem?_eq_getElem hh, by simp [dataOf, List.getElem?_eq_getElem hh],
    by simp [durableOf, List.getElem?_eq_getElem hh]⟩

end World

/-! ## `Write`, `Read`, `Open` and `Delete` in every outcome -/

namespace wal

/-- `Write` in every outcome: it touches the file behind its handle only, by appending;
when it succeeds, what it appended is one record per entry and the whole file is
durable. -/
theorem WAL.Write_spec {c : Codec} {w : WAL} {es : List types.Entry} {world world1 : World}
    {r : Res Unit} {h : Nat} (hfd : w.fd = some h) (hh : h < world.files.length)
    (hw : w.Write c es world = (r, world1)) :
    World.Step h [] world world1 ∧
      (r = Res.ok () → ∃ bodies, serialises c es bodies ∧
        world1.dataOf h = world.dataOf h ++ records bodies ∧
        world1.durableOf h = world1.dataOf h) := by
  unfold WAL.Write at hw
  rw [hfd] at hw
  simp only at hw
  rcases hs : os.Seek world with ⟨rs, ws⟩
  rw [hs] at hw
  obtain ⟨hsf, -⟩ := os.Seek_spec hs
  cases rs with
  | err e =>
    simp only [Prod.mk.injEq] at hw
    obtain ⟨rfl, rfl⟩ := hw
    exact ⟨World.Step.of_files_eq hsf, by intro h; cases h⟩
  | panic q =>
    simp only [Prod.mk.injEq] at hw
    obtain ⟨rfl, rfl⟩ := hw
    exact ⟨World.Step.of_files_eq hsf, by intro h; cases h⟩
  | ok u =>
    simp only at hw
    cases hfill : WAL.Write.fill c es [] with
    | err e =>
      simp only [hfill, Prod.mk.injEq] at hw
      obtain ⟨rfl, rfl⟩ := hw
      exact ⟨World.Step.of_files_eq hsf, by intro h; cases h⟩
    | panic q =>
      simp only [hfill, Prod.mk.injEq] at hw
      obtain ⟨rfl, rfl⟩ := hw
      exact ⟨World.Step.of_files_eq hsf, by intro h; cases h⟩
    | ok buf =>
      simp only [hfill] at hw
      rcases hwr : os.Write h buf ws with ⟨rwr, ww⟩
      rw [hwr] at hw
      rcases os.Write_outcome hwr with ⟨rfl, hwf⟩ | ⟨⟨e, rfl⟩, k, hwf⟩
      · simp only at hw
        have s1 : World.Step h [] world ww :=
          (World.Step.of_files_eq hsf).trans_nil (World.Step.of_append hwf)
        rcases os.Sync_spec hw with ⟨rfl, hsy⟩ | ⟨⟨e, rfl⟩, hsy⟩
        · refine ⟨s1.trans_nil (World.Step.of_sync hsy), ?_⟩
          intro _
          obtain ⟨bodies, hsb, rfl⟩ := (WAL.Write.fill_ok c es [] buf).mp hfill
          obtain ⟨f, hf, hd, -⟩ := World.dataOf_lt hh
          refine ⟨bodies, hsb, ?_, ?_⟩
          · rw [hd]
            simp [World.dataOf, hsy, hwf, hsf, List.getElem?_modify, hf]
          · simp [World.dataOf, World.durableOf, hsy, hwf, hsf, List.getElem?_modify, hf]
        · exact ⟨s1.trans_nil (World.Step.of_files_eq hsy), by intro h; cases h⟩
      · simp only [Prod.mk.injEq] at hw
        obtain ⟨rfl, rfl⟩ := hw
        exact ⟨(World.Step.of_files_eq hsf).trans_nil (World.Step.of_append hwf),
          by intro h; cases h⟩

/-- `Read` in every outcome: it changes no file, and the entries it returns are the
decoding of the bytes behind its handle. -/
theorem WAL.Read_spec {c : Codec} {l : WAL} {world world1 : World}
    {r : Res (List types.Entry)} {i : Nat} (hfd : l.fd = some i)
    (hl : world.lookup l.path = some i) (hr : l.Read c world = (r, world1)) :
    world1.files = world.files ∧ ∀ es, r = Res.ok es → decode c (world.dataOf i) = Res.ok es := by
  unfold WAL.Read at hr
  rw [hfd] at hr
  simp only at hr
  rcases hs : os.Stat l.path world with ⟨rs, ws⟩
  rw [hs] at hr
  obtain ⟨hsf, hsr⟩ := os.Stat_spec hs
  rcases hsr with ⟨j, hj, rfl⟩ | ⟨e, rfl⟩
  · rw [hl] at hj
    cases hj
    simp only at hr
    split at hr
    · rename_i hz
      simp only [Prod.mk.injEq] at hr
      obtain ⟨rfl, rfl⟩ := hr
      refine ⟨hsf, ?_⟩
      intro es hes
      cases hes
      simp [decode, hz]
    · rename_i hz
      rcases hk : os.Seek ws with ⟨rk, wk⟩
      rw [hk] at hr
      obtain ⟨hkf, hkr⟩ := os.Seek_spec hk
      rcases hkr with rfl | ⟨e, rfl⟩
      · simp only at hr
        rcases ha : os.ReadAll i wk with ⟨ra, wr⟩
        rw [ha] at hr
        obtain ⟨haf, har⟩ := os.ReadAll_spec ha
        rcases har with rfl | ⟨e, rfl⟩
        · simp only [Prod.mk.injEq] at hr
          obtain ⟨rfl, rfl⟩ := hr
          refine ⟨haf.trans (hkf.trans hsf), ?_⟩
          intro es hes
          have hd : wk.dataOf i = world.dataOf i := os.dataOf_files (hkf.trans hsf) i
          rw [hd] at hes
          simp only [decode, hz, if_false]
          exact WAL.Read.loop_getD_memory hes
        · simp only [Prod.mk.injEq] at hr
          obtain ⟨rfl, rfl⟩ := hr
          exact ⟨haf.trans (hkf.trans hsf), by intro es h; cases h⟩
      · simp only [Prod.mk.injEq] at hr
        obtain ⟨rfl, rfl⟩ := hr
        exact ⟨hkf.trans hsf, by intro es h; cases h⟩
  · simp only [Prod.mk.injEq] at hr
    obtain ⟨rfl, rfl⟩ := hr
    exact ⟨hsf, by intro es h; cases h⟩

/-- `Open` in every outcome: it changes no file, and the WAL it returns has its handle on
the file named by its path. -/
theorem Open_spec {file : GoString} {world world1 : World} {r : Res WAL}
    (ho : Open file world = (r, world1)) :
    world1.files = world.files ∧
      ∀ l, r = Res.ok l → l.path = file ∧ ∃ i, l.fd = some i ∧ world.lookup file = some i := by
  unfold Open at ho
  rcases hs : os.Stat file world with ⟨rs, ws⟩
  rw [hs] at ho
  obtain ⟨hsf, -⟩ := os.Stat_spec hs
  simp only at ho
  split at ho
  · simp only [Prod.mk.injEq] at ho
    obtain ⟨rfl, rfl⟩ := ho
    exact ⟨hsf, by intro l h; cases h⟩
  · rcases hof : os.OpenFile file false ws with ⟨ro, wo⟩
    rw [hof] at ho
    obtain ⟨hoff, hofr, -⟩ := os.OpenFile_existing_spec hof
    cases ro with
    | err e =>
      simp only [Prod.mk.injEq] at ho
      obtain ⟨rfl, rfl⟩ := ho
      exact ⟨hoff.trans hsf, by intro l h; cases h⟩
    | panic q =>
      simp only [Prod.mk.injEq] at ho
      obtain ⟨rfl, rfl⟩ := ho
      exact ⟨hoff.trans hsf, by intro l h; cases h⟩
    | ok fd =>
      simp only at ho
      have hlk : world.lookup file = some fd := by
        rw [← os.lookup_files hsf]
        exact hofr fd rfl
      split at ho <;> simp only [Prod.mk.injEq] at ho <;> obtain ⟨rfl, rfl⟩ := ho
      · refine ⟨hoff.trans hsf, ?_⟩
        intro l hl
        cases hl
        exact ⟨rfl, fd, rfl, hlk⟩
      · exact ⟨hoff.trans hsf, by intro l h; cases h⟩
      · exact ⟨hoff.trans hsf, by intro l h; cases h⟩

/-- `Delete` in every outcome: when it succeeds the file named by the path has left its
directory, otherwise no file has changed. -/
theorem WAL.Delete_spec {l l1 : WAL} {world world1 : World} {r : Res Unit}
    (hd : l.Delete world = (r, l1, world1)) :
    (r = Res.ok () ∧ ∃ i, world.lookup l.path = some i ∧
        world1.files = world.files.modify (fun f => { f with linked := false }) i) ∨
      (r ≠ Res.ok () ∧ world1.files = world.files) := by
  unfold WAL.Delete WAL.close at hd
  cases hfd : l.fd with
  | none =>
    simp only [hfd] at hd
    rcases hrm : os.Remove l.path world with ⟨rr, wr⟩
    rw [hrm] at hd
    simp only [Prod.mk.injEq] at hd
    obtain ⟨rfl, -, rfl⟩ := hd
    rcases os.Remove_spec hrm with ⟨rfl, i, hi, hf⟩ | ⟨⟨e, rfl⟩, hf⟩
    · exact Or.inl ⟨rfl, i, hi, hf⟩
    · exact Or.inr ⟨(by intro h; cases h), hf⟩
  | some fd =>
    simp only [hfd] at hd
    rcases hc : os.Close world with ⟨rc, wc⟩
    rw [hc] at hd
    obtain ⟨hcf, hcr⟩ := os.Close_spec hc
    rcases hcr with rfl | ⟨e, rfl⟩
    · simp only at hd
      rcases hrm : os.Remove l.path wc with ⟨rr, wr⟩
      rw [hrm] at hd
      simp only [Prod.mk.injEq] at hd
      obtain ⟨rfl, -, rfl⟩ := hd
      rcases os.Remove_spec hrm with ⟨rfl, i, hi, hf⟩ | ⟨⟨e, rfl⟩, hf⟩
      · exact Or.inl ⟨rfl, i, (by rw [← os.lookup_files hcf]; exact hi), (by rw [hf, hcf])⟩
      · exact Or.inr ⟨(by intro h; cases h), hf.trans hcf⟩
    · simp only [Prod.mk.injEq] at hd
      obtain ⟨rfl, -, rfl⟩ := hd
      exact Or.inr ⟨(by intro h; cases h), hcf⟩

end wal

/-! ## Names under `World.Step` -/

namespace World

theorem findIdx_congr {α : Type} (p : α → Bool) :
    ∀ l1 l2 : List α, l1.map p = l2.map p → l1.findIdx p = l2.findIdx p := by
  intro l1
  induction l1 with
  | nil =>
    intro l2 h
    cases l2 with
    | nil => rfl
    | cons _ _ => simp at h
  | cons a l1 ih =>
    intro l2 h
    cases l2 with
    | nil => simp at h
    | cons b l2 =>
      simp only [List.map_cons, List.cons.injEq] at h
      simp only [List.findIdx_cons, h.1, ih l2 h.2]

theorem Step.lookup_eq {h : Nat} {U : List GoString} {world world1 : World}
    (s : Step h U world world1) {q : GoString} (hq : q ∉ U) :
    world1.lookup q = world.lookup q := by
  have hmap : world1.files.map (fun f => f.linked && f.path == q) =
      world.files.map (fun f => f.linked && f.path == q) := by
    apply List.ext_getElem?
    intro k
    simp only [List.getElem?_map]
    cases hk : world.files[k]? with
    | none =>
      have : world1.files[k]? = none := by
        rw [List.getElem?_eq_none_iff] at hk ⊢
        rw [s.1]
        exact hk
      simp [this]
    | some f =>
      obtain ⟨f1, hf1, hp, -, hl, -, -⟩ := s.2 k f hk
      simp only [hf1, Option.map_some', Option.some.injEq]
      rcases hl with hl | ⟨hm, -, -⟩
      · rw [hl, hp]
      · have hne : f.path ≠ q := by
          rintro rfl
          exact hq hm
        have h1 : (f.path == q) = false := by simpa using hne
        rw [hp, h1]
        simp
  unfold lookup
  simp only [findIdx_congr _ _ _ hmap, s.1]

theorem Step.absent {h : Nat} {U : List GoString} {world world1 : World}
    (s : Step h U world world1) {p : GoString} (ha : world.absent p) : world1.absent p := by
  intro k f1 hf1 hp1
  have hk : k < world.files.length := by
    rw [← s.1]
    exact (List.getElem?_eq_some_iff.mp hf1).1
  obtain ⟨f2, hf2, hp, -, hl, -, -⟩ := s.2 k _ (List.getElem?_eq_getElem hk)
  rw [hf1] at hf2
  cases hf2
  rcases hl with hl | ⟨-, hl, -⟩
  · rw [hl]
    exact ha k _ (List.getElem?_eq_getElem hk) (hp.symm.trans hp1)
  · exact hl

theorem Step.namesUnique {h : Nat} {U : List GoString} {world world1 : World}
    (s : Step h U world world1) (hu : world.namesUnique) : world1.namesUnique := by
  intro i j f g hf hg hfl hgl hfg
  have hi : i < world.files.length := by
    rw [← s.1]
    exact (List.getElem?_eq_some_iff.mp hf).1
  have hj : j < world.files.length := by
    rw [← s.1]
    exact (List.getElem?_eq_some_iff.mp hg).1
  obtain ⟨f2, hf2, hpf, -, hlf, -, -⟩ := s.2 i _ (List.getElem?_eq_getElem hi)
  obtain ⟨g2, hg2, hpg, -, hlg, -, -⟩ := s.2 j _ (List.getElem?_eq_getElem hj)
  rw [hf] at hf2
  rw [hg] at hg2
  cases hf2
  cases hg2
  refine hu i j _ _ (List.getElem?_eq_getElem hi) (List.getElem?_eq_getElem hj) ?_ ?_ ?_
  · rcases hlf with hlf | ⟨-, hlf, -⟩
    · rw [← hlf]
      exact hfl
    · rw [hlf] at hfl
      cases hfl
  · rcases hlg with hlg | ⟨-, hlg, -⟩
    · rw [← hlg]
      exact hgl
    · rw [hlg] at hgl
      cases hgl
  · rw [← hpf, ← hpg]
    exact hfg

theorem Step.dataOf_other {h : Nat} {U : List GoString} {world world1 : World}
    (s : Step h U world world1) {k : Nat} (hk : k ≠ h) : world1.dataOf k = world.dataOf k := by
  unfold dataOf
  cases hf : world.files[k]? with
  | none =>
    have : world1.files[k]? = none := by
      rw [List.getElem?_eq_none_iff] at hf ⊢
      rw [s.1]
      exact hf
    simp [this, hf]
  | some f =>
    obtain ⟨f1, hf1, -, -, -, ho, -⟩ := s.2 k f hf
    simp [hf1, hf, (ho hk).1]

theorem Step.dataOf_cur {h : Nat} {U : List GoString} {world world1 : World}
    (s : Step h U world world1) :
    (∃ x, world1.dataOf h = world.dataOf h ++ x) ∧
      (∃ y, world1.durableOf h = world.durableOf h ++ y) := by
  cases hf : world.files[h]? with
  | none =>
    have h1 : world1.files[h]? = none := by
      rw [List.getElem?_eq_none_iff] at hf ⊢
      rw [s.1]
      exact hf
    exact ⟨⟨[], by simp [dataOf, hf, h1]⟩, ⟨[], by simp [durableOf, hf, h1]⟩⟩
  | some f =>
    obtain ⟨f1, hf1, -, -, -, -, hc⟩ := s.2 h f hf
    obtain ⟨⟨x, hx⟩, ⟨y, hy⟩⟩ := hc rfl
    exact ⟨⟨x, by simp [dataOf, hf1, hf, hx]⟩, ⟨y, by simp [durableOf, hf1, hf, hy]⟩⟩

theorem Step.path_cur {h : Nat} {U : List GoString} {world world1 : World}
    (s : Step h U world world1) {f1 : File} (hf1 : world1.files[h]? = some f1) :
    ∃ f, world.files[h]? = some f ∧ f.path = f1.path := by
  have hh : h < world.files.length := by
    rw [← s.1]
    exact (List.getElem?_eq_some_iff.mp hf1).1
  obtain ⟨f2, hf2, hp, -⟩ := s.2 h _ (List.getElem?_eq_getElem hh)
  rw [hf1] at hf2
  cases hf2
  exact ⟨_, List.getElem?_eq_getElem hh, hp.symm⟩

theorem lookup_none_of_absent {world : World} {p : GoString} (ha : world.absent p) :
    world.lookup p = none := by
  unfold lookup
  simp only
  rw [if_neg]
  intro hlt
  have := List.findIdx_getElem (w := hlt)
  simp only [Bool.and_eq_true, beq_iff_eq] at this
  have hf := ha _ _ (List.getElem?_eq_getElem hlt) this.2
  rw [hf] at this
  exact absurd this.1 (by simp)

theorem absent_of_unlink {world world1 : World} {p : GoString} {i : Nat}
    (hu : world.namesUnique) (hl : world.lookup p = some i)
    (he : world1.files = world.files.modify (fun f => { f with linked := false }) i) :
    world1.absent p := by
  obtain ⟨fi, hfi, hli, hpi⟩ := lookup_eq_some hl
  intro k f1 hf1 hp1
  rw [he, List.getElem?_modify] at hf1
  cases hk : world.files[k]? with
  | none => simp [hk] at hf1
  | some f =>
    rw [hk] at hf1
    by_cases hik : i = k
    · subst hik
      simp only [if_true, Option.map_eq_map, Option.map_some', Option.some.injEq] at hf1
      rw [← hf1]
    · simp only [hik, if_false, Option.map_eq_map, Option.map_some', Option.some.injEq,
        id_eq] at hf1
      subst hf1
      by_contra hlf
      have hlf1 : f.linked = true := by simpa using hlf
      exact hik (hu i k fi f hfi hk hli hlf1 (hpi.trans hp1.symm))

end World

/-! ## The loops of `recover` -/

theorem recover.replay_spec {c : Codec} {cur : wal.WAL} {h : Nat} (hfd : cur.fd = some h) :
    ∀ (es : List types.Entry) (st st1 : recover.State) (r : Res Unit),
      recover.replay c cur es st = (r, st1) → h < st.world.files.length →
      World.Step h [] st.world st1.world ∧ (∀ e, r ≠ Res.err e) ∧
      (r = Res.ok () →
        st1.skiplist = es.foldl (fun s e => s.Set e) st.skiplist ∧
        st1.maxVersion = es.foldl (fun m e => max m e.Version) st.maxVersion ∧
        ∃ bodies, wal.serialises c es bodies ∧
          st1.world.dataOf h = st.world.dataOf h ++ wal.records bodies ∧
          (es ≠ [] → st1.world.durableOf h = st1.world.dataOf h)) := by
  intro es
  induction es with
  | nil =>
    intro st st1 r hr _
    simp only [recover.replay, Prod.mk.injEq] at hr
    obtain ⟨rfl, rfl⟩ := hr
    refine ⟨World.Step.of_files_eq rfl, (by intro e h; cases h), fun _ => ⟨rfl, rfl, [], ?_, ?_, ?_⟩⟩
    · exact List.Forall₂.nil
    · simp [wal.records]
    · intro h
      exact absurd rfl h
  | cons e es ih =>
    intro st st1 r hr hh
    simp only [recover.replay] at hr
    rcases hw : cur.Write c [e] st.world with ⟨rw, w1⟩
    rw [hw] at hr
    obtain ⟨s1, hok⟩ := wal.WAL.Write_spec hfd hh hw
    cases rw with
    | err x =>
      simp only [Prod.mk.injEq] at hr
      obtain ⟨rfl, rfl⟩ := hr
      exact ⟨s1, (by intro e h; cases h), by intro h; cases h⟩
    | panic q =>
      simp only [Prod.mk.injEq] at hr
      obtain ⟨rfl, rfl⟩ := hr
      exact ⟨s1, (by intro e h; cases h), by intro h; cases h⟩
    | ok u =>
      simp only at hr
      have hh1 : h < w1.files.length := by
        rw [s1.1]
        exact hh
      obtain ⟨s2, hne, hrest⟩ := ih _ _ _ hr hh1
      refine ⟨s1.trans_nil s2, hne, ?_⟩
      intro hrok
      obtain ⟨hsl, hmv, bodies, hsb, hd, hdur⟩ := hrest hrok
      obtain ⟨b1, hsb1, hd1, hdur1⟩ := hok rfl
      refine ⟨hsl, hmv, b1 ++ bodies, wal.serialises_append hsb1 hsb, ?_, ?_⟩
      · rw [hd]
        show w1.dataOf h ++ wal.records bodies = _
        rw [hd1, wal.records_append, List.append_assoc]
      · intro _
        by_cases hes : es = []
        · subst hes
          simp only [recover.replay, Prod.mk.injEq] at hr
          obtain ⟨-, rfl⟩ := hr
          exact hdur1
        · exact hdur hes

/-- With the current WAL closed, `Write` fails at once: a replay succeeds only when there
is nothing to replay, and no file changes. -/
theorem recover.replay_closed {c : Codec} {cur : wal.WAL} (hfd : cur.fd = none)
    (es : List types.Entry) (st st1 : recover.State) (r : Res Unit)
    (hr : recover.replay c cur es st = (r, st1)) :
    st1.world = st.world ∧ (∀ e, r ≠ Res.err e) ∧ (r = Res.ok () → es = [] ∧ st1 = st) := by
  cases es with
  | nil =>
    simp only [recover.replay, Prod.mk.injEq] at hr
    obtain ⟨rfl, rfl⟩ := hr
    exact ⟨rfl, (by intro e h; cases h), fun _ => ⟨rfl, rfl⟩⟩
  | cons e es =>
    simp only [recover.replay, wal.WAL.Write, hfd, Prod.mk.injEq] at hr
    obtain ⟨rfl, rfl⟩ := hr
    exact ⟨rfl, (by intro e h; cases h), by intro h; cases h⟩

/-- The replay of the entries of one file, whether the current WAL is open (on handle `h`)
or closed. -/
theorem recover.replay_any {c : Codec} {cur : wal.WAL} {h : Nat}
    (hfd : ∀ h1, cur.fd = some h1 → h1 = h)
    (es : List types.Entry) (st st1 : recover.State) (r : Res Unit)
    (hr : recover.replay c cur es st = (r, st1))
    (hh : cur.fd ≠ none → h < st.world.files.length) :
    World.Step h [] st.world st1.world ∧ (∀ e, r ≠ Res.err e) ∧
      (r = Res.ok () →
        st1.skiplist = es.foldl (fun s e => s.Set e) st.skiplist ∧
        st1.maxVersion = es.foldl (fun m e => max m e.Version) st.maxVersion ∧
        ∃ bodies, wal.serialises c es bodies ∧
          st1.world.dataOf h = st.world.dataOf h ++ wal.records bodies ∧
          (es ≠ [] → st1.world.durableOf h = st1.world.dataOf h)) ∧
      (cur.fd = none → r = Res.ok () → es = []) := by
  cases hc : cur.fd with
  | some h1 =>
    have e1 := hfd h1 hc
    subst e1
    obtain ⟨a, b, d⟩ := recover.replay_spec hc es st st1 r hr (hh (by rw [hc]; simp))
    exact ⟨a, b, d, by intro h; cases h⟩
  | none =>
    obtain ⟨hw, hne, hok⟩ := recover.replay_closed hc es st st1 r hr
    refine ⟨World.Step.of_files_eq (by rw [hw]), hne, ?_, fun _ hr1 => (hok hr1).1⟩
    intro hr1
    obtain ⟨rfl, rfl⟩ := hok hr1
    refine ⟨rfl, rfl, [], List.Forall₂.nil, by simp [wal.records], ?_⟩
    intro hne1
    exact absurd rfl hne1

theorem List.forall₂_imp_mem {α β : Type} {R S : α → β → Prop} {l1 : List α} {l2 : List β}
    (h : List.Forall₂ R l1 l2) (himp : ∀ a b, a ∈ l1 → R a b → S a b) :
    List.Forall₂ S l1 l2 := by
  induction h with
  | nil => exact List.Forall₂.nil
  | cons hab _ ih =>
    refine List.Forall₂.cons (himp _ _ (List.mem_cons_self _ _) hab) (ih ?_)
    intro a b ha
    exact himp a b (List.mem_cons_of_mem _ ha)

/-- A merge that stops before it deletes its file has deleted nothing. -/
theorem recover.Merged.of_stop {c : Codec} {fd : Option Nat} {h : Nat} {ps : List GoString}
    {st st1 : recover.State} {r : Res Unit} (hr : r ≠ Res.ok ())
    (s : World.Step h [] st.world st1.world) :
    recover.Merged c fd h ps st r st1 := by
  obtain ⟨⟨x, hx⟩, -⟩ := s.dataOf_cur
  refine ⟨[], ps, [], [], x, rfl, fun h => absurd h hr, s, List.Forall₂.nil, List.Forall₂.nil,
    ?_, ?_, ?_, ?_, fun h => absurd h hr⟩
  · intro _ es hes
    cases hes
  · intro p hp
    cases hp
  · simp [wal.records, hx]
  · intro hne
    exact absurd rfl hne

theorem recover.merge_spec {c : Codec} {cur : wal.WAL} {h : Nat}
    (hfd : ∀ h1, cur.fd = some h1 → h1 = h) :
    ∀ (ps : List GoString) (st st1 : recover.State) (r : Res Unit),
      recover.merge c cur ps st = (r, st1) →
      st.world.namesUnique → (cur.fd ≠ none → h < st.world.files.length) → ps.Nodup →
      (∀ f, st.world.files[h]? = some f → f.path ∉ ps) →
      recover.Merged c cur.fd h ps st r st1 := by
  intro ps
  induction ps with
  | nil =>
    intro st st1 r hm _ _ _ _
    simp only [recover.merge, Prod.mk.injEq] at hm
    obtain ⟨rfl, rfl⟩ := hm
    refine ⟨[], [], [], [], [], rfl, fun _ => ⟨rfl, rfl⟩, World.Step.of_files_eq rfl,
      List.Forall₂.nil, List.Forall₂.nil, ?_, ?_, ?_, ?_, fun _ => ⟨rfl, rfl⟩⟩
    · intro _ es hes
      cases hes
    · intro p hp
      cases hp
    · simp [wal.records]
    · intro hne
      exact absurd rfl hne
  | cons p ps ih =>
    intro st st1 r hm hu hh hnd hcur
    simp only [recover.merge] at hm
    rcases hO : wal.Open p st.world with ⟨ro, w1⟩
    rw [hO] at hm
    obtain ⟨hf1, hol⟩ := wal.Open_spec hO
    cases ro with
    | err e =>
      simp only [Prod.mk.injEq] at hm
      obtain ⟨rfl, rfl⟩ := hm
      exact recover.Merged.of_stop (by intro h; cases h) (World.Step.of_files_eq hf1)
    | panic q =>
      simp only [Prod.mk.injEq] at hm
      obtain ⟨rfl, rfl⟩ := hm
      exact recover.Merged.of_stop (by intro h; cases h) (World.Step.of_files_eq hf1)
    | ok l =>
      obtain ⟨hlp, i, hli, hlook⟩ := hol l rfl
      simp only at hm
      rcases hR : l.Read c w1 with ⟨rr, w2⟩
      rw [hR] at hm
      have hlook1 : w1.lookup l.path = some i := by
        rw [hlp, os.lookup_files hf1]
        exact hlook
      obtain ⟨hf2, hdec⟩ := wal.WAL.Read_spec hli hlook1 hR
      have hf02 : w2.files = st.world.files := hf2.trans hf1
      cases rr with
      | err e =>
        simp only [Prod.mk.injEq] at hm
        obtain ⟨rfl, rfl⟩ := hm
        exact recover.Merged.of_stop (by intro h; cases h) (World.Step.of_files_eq hf02)
      | panic q =>
        simp only [Prod.mk.injEq] at hm
        obtain ⟨rfl, rfl⟩ := hm
        exact recover.Merged.of_stop (by intro h; cases h) (World.Step.of_files_eq hf02)
      | ok es =>
        have hdecode : wal.decode c (st.world.dataOf i) = Res.ok es := by
          rw [← os.dataOf_files hf1 i]
          exact hdec es rfl
        simp only at hm
        rcases hP : recover.replay c cur es { st with world := w2 } with ⟨rp, st2⟩
        rw [hP] at hm
        have hh2 : cur.fd ≠ none → h < w2.files.length := by
          intro hn
          rw [hf02]
          exact hh hn
        obtain ⟨sP, hnoerr, hPok, hclosed⟩ := recover.replay_any hfd es _ _ _ hP hh2
        have s02 : World.Step h [] st.world st2.world :=
          (World.Step.of_files_eq hf02).trans_nil sP
        cases rp with
        | err e => exact absurd rfl (hnoerr e)
        | panic q =>
          simp only [Prod.mk.injEq] at hm
          obtain ⟨rfl, rfl⟩ := hm
          exact recover.Merged.of_stop (by intro h; cases h) s02
        | ok u =>
          obtain ⟨hsl, hmv, bodies, hsb, hdata, hdur⟩ := hPok rfl
          simp only at hm
          rcases hD : l.Delete st2.world with ⟨rd, l1, w3⟩
          rw [hD] at hm
          rcases wal.WAL.Delete_spec hD with ⟨rfl, j, hj, hf3⟩ | ⟨hrd, hf3⟩
          · -- the file has been merged and deleted
            simp only at hm
            have hij : j = i := by
              rw [hlp, s02.lookup_eq (List.not_mem_nil p), hlook] at hj
              exact (Option.some.inj hj).symm
            subst hij
            have hlook2 : st2.world.lookup p = some j := by
              rw [s02.lookup_eq (List.not_mem_nil p)]
              exact hlook
            obtain ⟨fj, hfj, -, hpj⟩ := World.lookup_eq_some hlook2
            have hjh : j ≠ h := by
              rintro rfl
              obtain ⟨f0, hf0, hp0⟩ := s02.path_cur hfj
              exact hcur f0 hf0 (by rw [hp0, hpj]; exact List.mem_cons_self _ _)
            have s23 : World.Step h [p] st2.world w3 := World.Step.of_unlink hf3 hfj hpj hjh
            have s03 : World.Step h [p] st.world w3 := s02.trans_nil s23
            have hu3 : w3.namesUnique := s03.namesUnique hu
            have hh3 : cur.fd ≠ none → h < w3.files.length := by
              intro hn
              rw [s03.1]
              exact hh hn
            have hcur3 : ∀ f, w3.files[h]? = some f → f.path ∉ ps := by
              intro f hf hmem
              obtain ⟨f0, hf0, hp0⟩ := s03.path_cur hf
              exact hcur f0 hf0 (by rw [hp0]; exact List.mem_cons_of_mem _ hmem)
            have hpps : p ∉ ps := (List.nodup_cons.mp hnd).1
            obtain ⟨done, rest, ess, bodiess, extra, hps, hrok, sM, hF, hS, hC, hA, hDat, hDur,
                hSk⟩ :=
              ih { st2 with world := w3 } st1 r hm hu3 hh3 (List.nodup_cons.mp hnd).2 hcur3
            have hd3 : w3.dataOf h = st.world.dataOf h ++ wal.records bodies := by
              have : w3.dataOf h = st2.world.dataOf h := by
                simp [World.dataOf, hf3, List.getElem?_modify, hjh]
              rw [this, hdata]
              exact congrArg (· ++ wal.records bodies) (os.dataOf_files hf02 h)
            have hdone : ∀ q ∈ done, q ∈ ps := by
              intro q hq
              rw [hps]
              exact List.mem_append_left _ hq
            refine ⟨p :: done, rest, es :: ess, bodies :: bodiess, extra, ?_, hrok, ?_, ?_,
              List.Forall₂.cons hsb hS, ?_, ?_, ?_, ?_, ?_⟩
            · rw [hps]
              rfl
            · have := s03.trans sM
              simpa using this
            · refine List.Forall₂.cons ⟨j, hlook, hdecode⟩ (List.forall₂_imp_mem hF ?_)
              rintro q qs hq ⟨k, hk, hkd⟩
              have hqp : q ≠ p := by
                rintro rfl
                exact hpps (hdone _ hq)
              have hk0 : st.world.lookup q = some k := by
                rw [← s03.lookup_eq (by simpa using hqp)]
                exact hk
              refine ⟨k, hk0, ?_⟩
              obtain ⟨fk, hfk, -, hpk⟩ := World.lookup_eq_some hk
              have hkh : k ≠ h := by
                rintro rfl
                exact hcur3 fk hfk (by rw [hpk]; exact hdone _ hq)
              rw [← s03.dataOf_other hkh]
              exact hkd
            · intro hn es1 hes1
              rcases List.mem_cons.mp hes1 with rfl | hes1
              · exact hclosed hn rfl
              · exact hC hn es1 hes1
            · intro q hq
              rcases List.mem_cons.mp hq with rfl | hq
              · exact sM.absent (World.absent_of_unlink (s02.namesUnique hu) hlook2 hf3)
              · exact hA q hq
            · show st1.world.dataOf h = _
              rw [hDat]
              show w3.dataOf h ++ _ ++ _ = _
              rw [hd3]
              simp [wal.records_append, List.append_assoc]
            · intro hne
              by_cases hb : bodiess.flatten = []
              · have hbne : bodies ≠ [] := by
                  intro hb0
                  apply hne
                  simp [hb0, hb]
                have hes : es ≠ [] := by
                  rintro rfl
                  cases hsb
                  exact hbne rfl
                have hdur2 := hdur hes
                have hdur3 : w3.durableOf h = w3.dataOf h := by
                  have e1 : w3.durableOf h = st2.world.durableOf h := by
                    simp [World.durableOf, hf3, List.getElem?_modify, hjh]
                  have e2 : w3.dataOf h = st2.world.dataOf h := by
                    simp [World.dataOf, hf3, List.getElem?_modify, hjh]
                  rw [e1, e2]
                  exact hdur2
                obtain ⟨-, ⟨y, hy⟩⟩ := sM.dataOf_cur
                refine ⟨y, ?_⟩
                show st1.world.durableOf h = _
                rw [hy]
                show w3.durableOf h ++ y = _
                rw [hdur3, hd3]
                simp [hb, wal.records_append, wal.records]
              · obtain ⟨post, hpost⟩ := hDur hb
                refine ⟨post, ?_⟩
                rw [hpost]
                show w3.dataOf h ++ _ ++ _ = _
                rw [hd3]
                simp [wal.records_append, List.append_assoc]
            · intro hrk
              obtain ⟨h1, h2⟩ := hSk hrk
              constructor
              · rw [h1]
                show List.foldl _ st2.skiplist _ = _
                rw [hsl]
                simp [List.foldl_append]
              · rw [h2]
                show List.foldl _ st2.maxVersion _ = _
                rw [hmv]
                simp [List.foldl_append]
          · -- `Delete` failed: nothing was deleted
            have s03 : World.Step h [] st.world w3 := s02.trans_nil (World.Step.of_files_eq hf3)
            cases rd with
            | ok u => exact absurd rfl hrd
            | err e =>
              simp only [Prod.mk.injEq] at hm
              obtain ⟨rfl, rfl⟩ := hm
              exact recover.Merged.of_stop (by intro h; cases h) s03
            | panic q =>
              simp only [Prod.mk.injEq] at hm
              obtain ⟨rfl, rfl⟩ := hm
              exact recover.Merged.of_stop (by intro h; cases h) s03

/-! ## The selection of the older WAL files -/

namespace strings

theorem lt_or_of_lt {a c : GoString} (b : GoString) (h : lt a c = true) :
    lt a b = true ∨ lt b c = true := by
  by_cases h1 : lt a b = true
  · exact Or.inl h1
  · by_cases h2 : lt b a = true
    · exact Or.inr (lt_chain h2 h)
    · have he : a = b := eq_of_not_lt (by simpa using h1) (by simpa using h2)
      subst he
      exact Or.inr h

theorem le_total (a b : GoString) : le a b = true ∨ le b a = true := by
  unfold le
  by_cases h : lt b a = true
  · right
    simp [lt_flip h]
  · left
    simpa using h

theorem le_trans {a b c : GoString} (h1 : le a b = true) (h2 : le b c = true) :
    le a c = true := by
  unfold le at *
  by_contra hc
  have hca : lt c a = true := by simpa using hc
  rcases lt_or_of_lt b hca with h | h
  · simp [h] at h2
  · simp [h] at h1

theorem lt_of_le_of_ne {a b : GoString} (h : le a b = true) (hne : a ≠ b) : lt a b = true := by
  unfold le at h
  by_contra hc
  exact hne (eq_of_not_lt (by simpa using hc) (by simpa using h))

end strings

namespace os

theorem childName_eq_some {dir p name : GoString} (h : childName dir p = some name) :
    p = path.Join dir name ∧ name ≠ [] ∧ '/' ∉ name := by
  unfold childName at h
  split at h
  · rename_i ht
    simp only at h
    split at h
    · rename_i hn
      cases h
      refine ⟨?_, hn.1, hn.2⟩
      unfold path.Join
      have := List.take_append_drop (dir.length + 1) p
      rw [ht] at this
      rw [← this]
      simp
    · cases h
  · cases h

theorem mem_children {dir : GoString} {files : List File} {e : DirEntry} :
    e ∈ children dir files ↔
      ∃ f ∈ files, f.linked = true ∧ childName dir f.path = some e.Name ∧ e.IsDir = f.isDir := by
  induction files with
  | nil => simp [children]
  | cons g gs ih =>
    simp only [children]
    constructor
    · intro he
      split at he
      · rename_i name hname
        rcases List.mem_cons.mp he with rfl | he
        · refine ⟨g, List.mem_cons_self _ _, ?_, ?_, rfl⟩
          · by_contra hl
            simp [hl] at hname
          · by_cases hl : g.linked = true
            · simpa [hl] using hname
            · simp [hl] at hname
        · obtain ⟨f, hf, h1, h2, h3⟩ := ih.mp he
          exact ⟨f, List.mem_cons_of_mem _ hf, h1, h2, h3⟩
      · obtain ⟨f, hf, h1, h2, h3⟩ := ih.mp he
        exact ⟨f, List.mem_cons_of_mem _ hf, h1, h2, h3⟩
    · rintro ⟨f, hf, h1, h2, h3⟩
      rcases List.mem_cons.mp hf with rfl | hf
      · simp only [h1, if_true, h2]
        cases e
        simp_all
      · have := ih.mpr ⟨f, hf, h1, h2, h3⟩
        split
        · exact List.mem_cons_of_mem _ this
        · exact this

theorem ReadDir_spec {dir : GoString} {world world1 : World} {r : Res (List DirEntry)}
    (h : ReadDir dir world = (r, world1)) :
    world1.files = world.files ∧
      (r = Res.ok ((children dir world.files).insertionSort
        (fun a b => strings.le a.Name b.Name = true)) ∨ ∃ e, r = Res.err e) := by
  obtain ⟨f, wa, hn, hwa⟩ := next_cases world
  unfold ReadDir at h
  rw [hn] at h
  cases f <;> simp only [Prod.mk.injEq] at h <;> obtain ⟨rfl, rfl⟩ := h
  · exact ⟨hwa, Or.inl (by rw [hwa])⟩
  · exact ⟨hwa, Or.inr ⟨_, rfl⟩⟩

end os

namespace wal

theorem CompareVersion_self {v : GoString} {n : Int} (h : CompareVersion v v = Res.ok n) :
    n = 0 := by
  unfold CompareVersion at h
  simp only [strings.lt_self, Bool.false_eq_true, if_false] at h
  split at h
  · cases h
  · cases h
  · rename_i a1 b1 h1 h2
    rw [h1] at h2
    cases h2
    simp only [strings.lt_self, Bool.false_eq_true, if_false, Res.ok.injEq] at h
    exact h.symm

end wal

theorem recover.isOld_true {version : GoString} {file : os.DirEntry}
    (h : recover.isOld version file = Res.ok true) :
    file.IsDir = false ∧ path.Ext file.Name = ".log".toList ∧
      ∃ v n, wal.ParseVersion file.Name = Res.ok v ∧
        wal.CompareVersion v version = Res.ok n ∧ n < 0 := by
  unfold recover.isOld at h
  split at h
  · rename_i hc
    simp only [Bool.and_eq_true, Bool.not_eq_true', beq_iff_eq] at hc
    split at h
    · rename_i v hv
      split at h
      · rename_i n hn
        simp only [Res.ok.injEq, decide_eq_true_eq] at h
        exact ⟨hc.1, hc.2, v, n, hv, hn, h⟩
      · cases h
      · cases h
    · cases h
    · cases h
  · cases h

theorem recover.isOld_of {version : GoString} {file : os.DirEntry} {v : GoString} {n : Int}
    (h1 : file.IsDir = false) (h2 : path.Ext file.Name = ".log".toList)
    (h3 : wal.ParseVersion file.Name = Res.ok v) (h4 : wal.CompareVersion v version = Res.ok n)
    (h5 : n < 0) : recover.isOld version file = Res.ok true := by
  unfold recover.isOld
  simp [h1, h2, h3, h4, h5]

theorem recover.select_ok {dir version : GoString} :
    ∀ (files : List os.DirEntry) (acc walFiles : List GoString),
      recover.select dir version files acc = Res.ok walFiles →
      walFiles = acc ++ (files.filter (fun f => recover.isOld version f = Res.ok true)).map
        (fun f => path.Join dir f.Name) := by
  intro files
  induction files with
  | nil =>
    intro acc walFiles h
    simp only [recover.select, Res.ok.injEq] at h
    simp [h]
  | cons f fs ih =>
    intro acc walFiles h
    simp only [recover.select] at h
    split at h
    · rename_i ht
      rw [ih _ _ h]
      simp [List.filter_cons, ht]
    · rename_i hf
      rw [ih _ _ h]
      simp [List.filter_cons, hf]
    · cases h
    · cases h

namespace os

theorem children_paths_nodup {dir : GoString} :
    ∀ (files : List File),
      (∀ (i j : Nat) (f g : File), files[i]? = some f → files[j]? = some g →
        f.linked = true → g.linked = true → f.path = g.path → i = j) →
      ((children dir files).map (fun e => path.Join dir e.Name)).Nodup := by
  intro files
  induction files with
  | nil => intro _; simp [children]
  | cons a fs ih =>
    intro hu
    have hu1 : ∀ (i j : Nat) (f g : File), fs[i]? = some f → fs[j]? = some g →
        f.linked = true → g.linked = true → f.path = g.path → i = j := by
      intro i j f g hf hg hfl hgl hp
      have := hu (i + 1) (j + 1) f g (by simpa using hf) (by simpa using hg) hfl hgl hp
      omega
    simp only [children]
    split
    · rename_i name hname
      have hl : a.linked = true := by
        by_contra hl
        simp [hl] at hname
      simp only [hl, if_true] at hname
      simp only [List.map_cons, List.nodup_cons]
      refine ⟨?_, ih hu1⟩
      intro hmem
      obtain ⟨e, he, hpe⟩ := List.mem_map.mp hmem
      obtain ⟨g, hg, hgl, hgc, -⟩ := mem_children.mp he
      obtain ⟨j, hj⟩ := List.getElem?_of_mem hg
      have h1 := (childName_eq_some hname).1
      have h2 := (childName_eq_some hgc).1
      have := hu 0 (j + 1) a g (by simp) (by simpa using hj) hl hgl (by rw [h1, h2, hpe])
      omega
    · exact ih hu1

end os

theorem recover.sort_perm (l : List GoString) : (recover.sort l).Perm l :=
  List.perm_insertionSort _ l

theorem recover.sort_sorted (l : List GoString) :
    (recover.sort l).Pairwise (fun a b => strings.le a b = true) := by
  haveI : IsTotal GoString (fun a b => strings.le a b = true) := ⟨strings.le_total⟩
  haveI : IsTrans GoString (fun a b => strings.le a b = true) :=
    ⟨fun _ _ _ h1 h2 => strings.le_trans h1 h2⟩
  exact List.sorted_insertionSort _ l

theorem recover.sort_strict {l : List GoString} (hn : l.Nodup) :
    (recover.sort l).Pairwise (fun a b => strings.lt a b = true) := by
  have h1 := recover.sort_sorted l
  have h2 : (recover.sort l).Nodup := ((recover.sort_perm l).nodup_iff).mpr hn
  have h3 := List.Pairwise.and h1 h2
  exact h3.imp (fun h => strings.lt_of_le_of_ne h.1 h.2)

/-- The paths `recover` merges are those of the older WAL files. -/
theorem recover.mem_selected {mt : memtable} {world : World} {walFiles : List GoString}
    (hs : recover.select mt.dir mt.wal.Version ((os.children mt.dir world.files).insertionSort
      (fun a b => strings.le a.Name b.Name = true)) [] = Res.ok walFiles) (p : GoString) :
    p ∈ recover.sort walFiles ↔ recover.older mt world p := by
  rw [(recover.sort_perm walFiles).mem_iff, recover.select_ok _ _ _ hs]
  simp only [List.nil_append, List.mem_map, List.mem_filter, List.mem_insertionSort]
  constructor
  · rintro ⟨e, ⟨he, hold⟩, rfl⟩
    obtain ⟨f, hf, hfl, hfc, hfd⟩ := os.mem_children.mp he
    obtain ⟨h1, h2, v, n, h3, h4, h5⟩ := recover.isOld_true (of_decide_eq_true hold)
    have hp := (os.childName_eq_some hfc).1
    exact ⟨e.Name, f, v, n, hf, hfl, hp, by rw [← hfd]; exact h1, by rw [← hp]; exact hfc, h2,
      h3, h4, h5⟩
  · rintro ⟨name, f, v, n, hf, hfl, hfp, hfd, hc, hext, hpv, hcv, hn⟩
    refine ⟨⟨name, f.isDir⟩, ⟨?_, ?_⟩, ?_⟩
    · exact os.mem_children.mpr ⟨f, hf, hfl, by rw [hfp]; exact hc, rfl⟩
    · exact decide_eq_true (recover.isOld_of hfd hext hpv hcv hn)
    · exact ((os.childName_eq_some hc).1).symm

theorem recover.selected_nodup {mt : memtable} {world : World} {walFiles : List GoString}
    (hu : world.namesUnique)
    (hs : recover.select mt.dir mt.wal.Version ((os.children mt.dir world.files).insertionSort
      (fun a b => strings.le a.Name b.Name = true)) [] = Res.ok walFiles) :
    walFiles.Nodup := by
  rw [recover.select_ok _ _ _ hs]
  simp only [List.nil_append]
  have h1 := @os.children_paths_nodup mt.dir world.files hu
  have h2 : (((os.children mt.dir world.files).insertionSort
      (fun a b => strings.le a.Name b.Name = true)).map (fun e => path.Join mt.dir e.Name)).Nodup :=
    (((List.perm_insertionSort _ _).map _).nodup_iff).mpr h1
  exact List.Nodup.sublist ((List.filter_sublist _).map _) h2

/-- The current WAL, whose name parses to its own version, is not an older WAL file. -/
theorem recover.current_not_older {mt : memtable} {world : World} {name0 : GoString}
    (hpath : mt.wal.path = path.Join mt.dir name0)
    (hver : wal.ParseVersion name0 = Res.ok mt.wal.version) :
    ¬ recover.older mt world mt.wal.path := by
  rintro ⟨name, f, v, n, -, -, -, -, hc, -, hpv, hcv, hn⟩
  have h1 := (os.childName_eq_some hc).1
  rw [hpath] at h1
  have h2 : name0 = name := by
    unfold path.Join at h1
    simpa using h1
  subst h2
  rw [hver] at hpv
  cases hpv
  have := wal.CompareVersion_self hcv
  omega

/-! ## `recover` as a whole -/

theorem wal.serialises_flatten {c : Codec} {ess : List (List types.Entry)}
    {bodiess : List (List (List Byte))} (h : List.Forall₂ (wal.serialises c) ess bodiess) :
    wal.serialises c ess.flatten bodiess.flatten := by
  induction h with
  | nil => exact List.Forall₂.nil
  | cons h1 _ ih =>
    simp only [List.flatten_cons]
    exact wal.serialises_append h1 ih

theorem World.namesUnique_of_files {world w0 : World} (he : w0.files = world.files)
    (hu : world.namesUnique) : w0.namesUnique := by
  unfold World.namesUnique at *
  rw [he]
  exact hu

/-- The ways `recover` can end.  Either it merges nothing: no file changes, and it returns
0 because there is no older WAL file, or it does not return at all.  Or it runs its merge
loop over the older WAL files, in ascending order of their paths. -/
theorem memtable.recover_cases {c : Codec} {mt mt1 : memtable} {world world1 : World}
    {r : Res Int} {h : Nat}
    (hu : world.namesUnique)
    (hopen : ∀ h1, mt.wal.fd = some h1 → h1 = h ∧ world.lookup mt.wal.path = some h ∧
      ∃ name0, mt.wal.path = path.Join mt.dir name0 ∧
        wal.ParseVersion name0 = Res.ok mt.wal.version)
    (hclosed : mt.wal.fd = none → h = world.files.length)
    (hrec : mt.recover c world = (r, mt1, world1)) :
    (mt1 = mt ∧ world1.files = world.files ∧
        ((r = Res.ok 0 ∧ ∀ p, ¬ recover.older mt world p) ∨ ∀ v, r ≠ Res.ok v)) ∨
      ∃ (ps : List GoString) (w0 : World) (rm : Res Unit) (st1 : recover.State),
        (∀ p, p ∈ ps ↔ recover.older mt world p) ∧
        ps.Pairwise (fun a b => strings.lt a b = true) ∧ w0.files = world.files ∧
        recover.Merged c mt.wal.fd h ps ⟨0, mt.skiplist, w0⟩ rm st1 ∧
        mt1 = { mt with skiplist := st1.skiplist } ∧ world1 = st1.world ∧
        ∀ v, r = Res.ok v ↔ (rm = Res.ok () ∧ v = st1.maxVersion) := by
  unfold memtable.recover at hrec
  rcases hrd : os.ReadDir mt.dir world with ⟨rd, w0⟩
  rw [hrd] at hrec
  obtain ⟨hf0, hrdr⟩ := os.ReadDir_spec hrd
  rcases hrdr with rfl | ⟨e, rfl⟩
  · simp only at hrec
    cases hsel : recover.select mt.dir mt.wal.Version ((os.children mt.dir world.files).insertionSort
        (fun a b => strings.le a.Name b.Name = true)) [] with
    | err e =>
      simp only [hsel, Prod.mk.injEq] at hrec
      obtain ⟨rfl, rfl, rfl⟩ := hrec
      exact Or.inl ⟨rfl, hf0, Or.inr (by intro v h; cases h)⟩
    | panic q =>
      simp only [hsel, Prod.mk.injEq] at hrec
      obtain ⟨rfl, rfl, rfl⟩ := hrec
      exact Or.inl ⟨rfl, hf0, Or.inr (by intro v h; cases h)⟩
    | ok walFiles =>
      simp only [hsel] at hrec
      have hmem := recover.mem_selected hsel
      have hnd : walFiles.Nodup := recover.selected_nodup hu hsel
      split at hrec
      · rename_i hz
        simp only [Prod.mk.injEq] at hrec
        obtain ⟨rfl, rfl, rfl⟩ := hrec
        have hnil : walFiles = [] := List.length_eq_zero.mp hz
        refine Or.inl ⟨rfl, hf0, Or.inl ⟨rfl, ?_⟩⟩
        intro p hp
        have := (hmem p).mpr hp
        rw [hnil] at this
        simp [recover.sort] at this
      · rcases hm : recover.merge c mt.wal (recover.sort walFiles) ⟨0, mt.skiplist, w0⟩ with
          ⟨rm, st1⟩
        rw [hm] at hrec
        have hh : mt.wal.fd ≠ none → h < w0.files.length := by
          intro hn
          cases hfd : mt.wal.fd with
          | none => exact absurd hfd hn
          | some h1 =>
            obtain ⟨-, hlook, -⟩ := hopen h1 hfd
            obtain ⟨fh, hfh, -, -⟩ := World.lookup_eq_some hlook
            rw [hf0]
            exact (List.getElem?_eq_some_iff.mp hfh).1
        have hcur : ∀ f, w0.files[h]? = some f → f.path ∉ recover.sort walFiles := by
          intro f hf hmem1
          cases hfd : mt.wal.fd with
          | none =>
            rw [hf0, hclosed hfd] at hf
            simp at hf
          | some h1 =>
            obtain ⟨-, hlook, name0, hpath, hver⟩ := hopen h1 hfd
            obtain ⟨fh, hfh, -, hph⟩ := World.lookup_eq_some hlook
            rw [hf0, hfh] at hf
            cases hf
            rw [hph] at hmem1
            exact recover.current_not_older hpath hver ((hmem _).mp hmem1)
        have hM := recover.merge_spec (fun h1 e => (hopen h1 e).1) (recover.sort walFiles)
          _ _ _ hm (World.namesUnique_of_files hf0 hu) hh
          (((recover.sort_perm walFiles).nodup_iff).mpr hnd) hcur
        refine Or.inr ⟨recover.sort walFiles, w0, rm, st1, hmem, recover.sort_strict hnd, hf0, hM,
          ?_⟩
        cases rm with
        | ok u =>
          simp only [Prod.mk.injEq] at hrec
          obtain ⟨rfl, rfl, rfl⟩ := hrec
          refine ⟨rfl, rfl, ?_⟩
          intro v
          constructor
          · intro hv
            cases hv
            exact ⟨rfl, rfl⟩
          · rintro ⟨-, rfl⟩
            rfl
        | err e =>
          simp only [Prod.mk.injEq] at hrec
          obtain ⟨rfl, rfl, rfl⟩ := hrec
          refine ⟨rfl, rfl, ?_⟩
          intro v
          constructor
          · intro hv
            cases hv
          · rintro ⟨hv, -⟩
            cases hv
        | panic q =>
          simp only [Prod.mk.injEq] at hrec
          obtain ⟨rfl, rfl, rfl⟩ := hrec
          refine ⟨rfl, rfl, ?_⟩
          intro v
          constructor
          · intro hv
            cases hv
          · rintro ⟨hv, -⟩
            cases hv
  · simp only [Prod.mk.injEq] at hrec
    obtain ⟨rfl, rfl, rfl⟩ := hrec
    exact Or.inl ⟨rfl, hf0, Or.inr (by intro v h; cases h)⟩

/-- What a `recover` that returns has done. -/
theorem memtable.recover_ok {c : Codec} {mt mt1 : memtable} {world world1 : World}
    {v : Int} {h : Nat} {name0 : GoString}
    (hu : world.namesUnique) (hfd : mt.wal.fd = some h)
    (hlook : world.lookup mt.wal.path = some h)
    (hpath : mt.wal.path = path.Join mt.dir name0)
    (hver : wal.ParseVersion name0 = Res.ok mt.wal.version)
    (hrec : mt.recover c world = (Res.ok v, mt1, world1)) :
    ∃ (ps : List GoString) (ess : List (List types.Entry)) (bodiess : List (List (List Byte))),
      (∀ p, p ∈ ps ↔ recover.older mt world p) ∧
      ps.Pairwise (fun a b => strings.lt a b = true) ∧
      List.Forall₂ (fun p es => ∃ i, world.lookup p = some i ∧
        wal.decode c (world.dataOf i) = Res.ok es) ps ess ∧
      List.Forall₂ (wal.serialises c) ess bodiess ∧
      (∀ p ∈ ps, world1.absent p) ∧
      world1.dataOf h = world.dataOf h ++ wal.records bodiess.flatten ∧
      mt1 = { mt with skiplist := ess.flatten.foldl (fun s e => s.Set e) mt.skiplist } ∧
      v = ess.flatten.foldl (fun m e => max m e.Version) 0 := by
  have hopen : ∀ h1, mt.wal.fd = some h1 → h1 = h ∧ world.lookup mt.wal.path = some h ∧
      ∃ name0, mt.wal.path = path.Join mt.dir name0 ∧
        wal.ParseVersion name0 = Res.ok mt.wal.version := by
    intro h1 e
    rw [hfd] at e
    cases e
    exact ⟨rfl, hlook, name0, hpath, hver⟩
  have hclosed : mt.wal.fd = none → h = world.files.length := by
    intro e
    rw [hfd] at e
    cases e
  rcases memtable.recover_cases hu hopen hclosed hrec with
    ⟨rfl, hf, hr⟩ | ⟨ps, w0, rm, st1, hmem, hsorted, hf0, hM, rfl, rfl, hrv⟩
  · rcases hr with ⟨hr, hnone⟩ | hr
    · cases hr
      refine ⟨[], [], [], ?_, List.Pairwise.nil, List.Forall₂.nil, List.Forall₂.nil, ?_, ?_, rfl,
        rfl⟩
      · intro p
        simp [hnone p]
      · intro p hp
        cases hp
      · simp [wal.records, os.dataOf_files hf]
    · exact absurd rfl (hr v)
  · obtain ⟨hrm, rfl⟩ := (hrv v).mp rfl
    obtain ⟨done, rest, ess, bodiess, extra, hps, hrok, -, hF, hS, -, hA, hDat, -, hSk⟩ := hM
    obtain ⟨rfl, rfl⟩ := hrok hrm
    simp only [List.append_nil] at hps hDat
    subst hps
    obtain ⟨h1, h2⟩ := hSk hrm
    refine ⟨ps, ess, bodiess, hmem, hsorted, ?_, hS, hA, ?_, ?_, h2⟩
    · refine hF.imp ?_
      rintro p es ⟨i, hi, hd⟩
      exact ⟨i, by rw [← os.lookup_files hf0]; exact hi, by rw [← os.dataOf_files hf0]; exact hd⟩
    · rw [hDat]
      exact congrArg (· ++ wal.records bodiess.flatten) (os.dataOf_files hf0 h)
    · rw [h1]

theorem World.namesUnique_of_nodup (world : World)
    (h : ((world.files.filter (fun f => f.linked)).map (fun f => f.path)).Nodup) :
    world.namesUnique := by
  unfold World.namesUnique
  generalize world.files = files at h
  induction files with
  | nil =>
    intro i j f g hf
    simp at hf
  | cons a fs ih =>
    intro i j f g hf hg hfl hgl hp
    have htail : ((fs.filter (fun f => f.linked)).map (fun f => f.path)).Nodup := by
      by_cases ha : a.linked = true
      · simp only [List.filter_cons, ha, if_true, List.map_cons, List.nodup_cons] at h
        exact h.2
      · simpa [List.filter_cons, ha] using h
    have hhead : ∀ (k : Nat) (x : File), fs[k]? = some x → x.linked = true →
        a.linked = true → x.path ≠ a.path := by
      intro k x hx hxl ha hxa
      simp only [List.filter_cons, ha, if_true, List.map_cons, List.nodup_cons] at h
      apply h.1
      rw [← hxa]
      exact List.mem_map.mpr ⟨x, List.mem_filter.mpr ⟨List.getElem?_mem hx, by simpa using hxl⟩,
        rfl⟩
    cases i with
    | zero =>
      cases j with
      | zero => rfl
      | succ j =>
        simp only [List.getElem?_cons_zero, Option.some.injEq] at hf
        simp only [List.getElem?_cons_succ] at hg
        subst hf
        exact absurd hp.symm (hhead j g hg hgl hfl)
    | succ i =>
      cases j with
      | zero =>
        simp only [List.getElem?_cons_zero, Option.some.injEq] at hg
        simp only [List.getElem?_cons_succ] at hf
        subst hg
        exact absurd hp (hhead i f hf hfl hgl)
      | succ j =>
        simp only [List.getElem?_cons_succ] at hf hg
        have := ih htail i j f g hf hg hfl hgl hp
        omega

/-- C4. Recovery merges and deletes.  Let the current WAL be open on the file named by its
path, a name that parses to its version, and let no two files share a name.  When `recover`
returns, there is the list `ps` of the older WAL files of the directory, in strictly
ascending order of their paths, with the entries `ess` that `Read` decodes from each, such
that: the file of the current WAL is its previous content followed by one record per entry,
files in the order of `ps` and entries in file order; the skip list is the old one after
`Set` of every one of those entries in that same order; the WAL of the memtable is unchanged;
and no file of `ps` is in the directory any more. -/
theorem memtable.recover_merges_and_deletes (c : Codec) (mt mt1 : memtable)
    (world world1 : World) (v : Int) (h : Nat) (name0 : GoString)
    (hu : world.namesUnique) (hfd : mt.wal.fd = some h)
    (hlook : world.lookup mt.wal.path = some h)
    (hpath : mt.wal.path = path.Join mt.dir name0)
    (hver : wal.ParseVersion name0 = Res.ok mt.wal.version)
    (hrec : mt.recover c world = (Res.ok v, mt1, world1)) :
    ∃ (ps : List GoString) (ess : List (List types.Entry)) (bodies : List (List Byte)),
      (∀ p, p ∈ ps ↔ recover.older mt world p) ∧
      ps.Pairwise (fun a b => strings.lt a b = true) ∧
      List.Forall₂ (fun p es => ∃ i, world.lookup p = some i ∧
        wal.decode c (world.dataOf i) = Res.ok es) ps ess ∧
      wal.serialises c ess.flatten bodies ∧
      world1.dataOf h = world.dataOf h ++ (bodies.map wal.record).flatten ∧
      mt1.skiplist = ess.flatten.foldl (fun s e => s.Set e) mt.skiplist ∧
      mt1.wal = mt.wal ∧ mt1.dir = mt.dir ∧ mt1.readOnly = mt.readOnly ∧
      ∀ p ∈ ps, world1.lookup p = none := by
  obtain ⟨ps, ess, bodiess, hmem, hsorted, hF, hS, hA, hD, rfl, -⟩ :=
    memtable.recover_ok hu hfd hlook hpath hver hrec
  exact ⟨ps, ess, bodiess.flatten, hmem, hsorted, hF, wal.serialises_flatten hS, hD, rfl, rfl, rfl,
    rfl, fun p hp => World.lookup_none_of_absent (hA p hp)⟩

theorem memtable.recover_merges_and_deletes_witness :
    ∃ (ps : List GoString) (ess : List (List types.Entry)) (bodies : List (List Byte)),
      (∀ p, p ∈ ps ↔ recover.older sample.mtB sample.worldB p) ∧
      ps.Pairwise (fun a b => strings.lt a b = true) ∧
      List.Forall₂ (fun p es => ∃ i, sample.worldB.lookup p = some i ∧
        wal.decode sample.codec (sample.worldB.dataOf i) = Res.ok es) ps ess ∧
      wal.serialises sample.codec ess.flatten bodies ∧
      (sample.mtB.recover sample.codec sample.worldB).2.2.dataOf 1 =
        sample.worldB.dataOf 1 ++ (bodies.map wal.record).flatten ∧
      (sample.mtB.recover sample.codec sample.worldB).2.1.skiplist =
        ess.flatten.foldl (fun s e => s.Set e) sample.mtB.skiplist ∧
      (sample.mtB.recover sample.codec sample.worldB).2.1.wal = sample.mtB.wal ∧
      (sample.mtB.recover sample.codec sample.worldB).2.1.dir = sample.mtB.dir ∧
      (sample.mtB.recover sample.codec sample.worldB).2.1.readOnly = sample.mtB.readOnly ∧
      ∀ p ∈ ps, (sample.mtB.recover sample.codec sample.worldB).2.2.lookup p = none :=
  memtable.recover_merges_and_deletes sample.codec sample.mtB
    (sample.mtB.recover sample.codec sample.worldB).2.1 sample.worldB
    (sample.mtB.recover sample.codec sample.worldB).2.2 10 1 "wal-20240101000001-10.log".toList
    (World.namesUnique_of_nodup _ (by decide)) rfl (by decide) (by decide) (by decide) (by rfl)

theorem List.foldl_max_spec (l : List types.Entry) (m : Int) :
    m ≤ l.foldl (fun m e => max m e.Version) m ∧
      (∀ e ∈ l, e.Version ≤ l.foldl (fun m e => max m e.Version) m) ∧
      (l.foldl (fun m e => max m e.Version) m = m ∨
        ∃ e ∈ l, e.Version = l.foldl (fun m e => max m e.Version) m) := by
  induction l generalizing m with
  | nil => simp
  | cons a l ih =>
    obtain ⟨h1, h2, h3⟩ := ih (max m a.Version)
    simp only [List.foldl_cons]
    refine ⟨le_trans (le_max_left _ _) h1, ?_, ?_⟩
    · intro e he
      rcases List.mem_cons.mp he with rfl | he
      · exact le_trans (le_max_right _ _) h1
      · exact h2 e he
    · rcases h3 with h3 | ⟨e, he, h3⟩
      · rcases max_cases m a.Version with ⟨hm, -⟩ | ⟨hm, -⟩
        · left
          rw [h3, hm]
        · right
          exact ⟨a, List.mem_cons_self _ _, by rw [h3, hm]⟩
      · right
        exact ⟨e, List.mem_cons_of_mem _ he, h3⟩

/-- C5 (as amended). Under the conditions of C4, the value `recover` returns is the greatest
of 0 and the versions, read as the signed 64-bit integers they are in the code, of all the
entries replayed from the older WAL files: it is at least 0 and at least every replayed
version, and it is 0 or the version of a replayed entry.  So it is the maximum version as
soon as one replayed version is not negative; and it is 0 when there is no older WAL
file. -/
theorem memtable.recover_returns_max (c : Codec) (mt mt1 : memtable)
    (world world1 : World) (v : Int) (h : Nat) (name0 : GoString)
    (hu : world.namesUnique) (hfd : mt.wal.fd = some h)
    (hlook : world.lookup mt.wal.path = some h)
    (hpath : mt.wal.path = path.Join mt.dir name0)
    (hver : wal.ParseVersion name0 = Res.ok mt.wal.version)
    (hrec : mt.recover c world = (Res.ok v, mt1, world1)) :
    ∃ (ps : List GoString) (ess : List (List types.Entry)),
      (∀ p, p ∈ ps ↔ recover.older mt world p) ∧
      List.Forall₂ (fun p es => ∃ i, world.lookup p = some i ∧
        wal.decode c (world.dataOf i) = Res.ok es) ps ess ∧
      v = ess.flatten.foldl (fun m e => max m e.Version) 0 ∧
      0 ≤ v ∧ (∀ e ∈ ess.flatten, e.Version ≤ v) ∧
      (v = 0 ∨ ∃ e ∈ ess.flatten, e.Version = v) ∧
      ((∀ p, ¬ recover.older mt world p) → v = 0) := by
  obtain ⟨ps, ess, bodiess, hmem, -, hF, -, -, -, -, rfl⟩ :=
    memtable.recover_ok hu hfd hlook hpath hver hrec
  obtain ⟨h1, h2, h3⟩ := List.foldl_max_spec ess.flatten 0
  refine ⟨ps, ess, hmem, hF, rfl, h1, h2, h3, ?_⟩
  intro hnone
  have hps : ps = [] := by
    cases ps with
    | nil => rfl
    | cons p ps => exact absurd ((hmem p).mp (List.mem_cons_self _ _)) (hnone p)
  subst hps
  cases hF
  rfl

theorem memtable.recover_returns_max_witness :
    ∃ (ps : List GoString) (ess : List (List types.Entry)),
      (∀ p, p ∈ ps ↔ recover.older sample.mtB sample.worldB p) ∧
      List.Forall₂ (fun p es => ∃ i, sample.worldB.lookup p = some i ∧
        wal.decode sample.codec (sample.worldB.dataOf i) = Res.ok es) ps ess ∧
      (10 : Int) = ess.flatten.foldl (fun m e => max m e.Version) 0 ∧
      (0 : Int) ≤ 10 ∧ (∀ e ∈ ess.flatten, e.Version ≤ 10) ∧
      ((10 : Int) = 0 ∨ ∃ e ∈ ess.flatten, e.Version = 10) ∧
      ((∀ p, ¬ recover.older sample.mtB sample.worldB p) → (10 : Int) = 0) :=
  memtable.recover_returns_max sample.codec sample.mtB
    (sample.mtB.recover sample.codec sample.worldB).2.1 sample.worldB
    (sample.mtB.recover sample.codec sample.worldB).2.2 10 1 "wal-20240101000001-10.log".toList
    (World.namesUnique_of_nodup _ (by decide)) rfl (by decide) (by decide) (by decide) (by rfl)

/-- C5 (counterexample to the claim as stated). The older WAL of the directory holds one
entry whose version field has every bit set: `2^64 - 1` in the spec's unsigned domain, -1
as the `int64` of the code.  `recover` replays that entry and returns 0, which is the
maximum version in neither reading. -/
theorem memtable.recover_max_counterexample :
    ∃ mt1 world1,
      sample.mtB.recover sample.codec sample.worldC = (Res.ok 0, mt1, world1) ∧
      mt1.all = [sample.eNeg] ∧
      sample.eNeg.Version = -1 ∧ sample.eNeg.Version % 2 ^ 64 = 2 ^ 64 - 1 ∧
      (0 : Int) ≠ sample.eNeg.Version ∧ (0 : Int) ≠ sample.eNeg.Version % 2 ^ 64 :=
  ⟨_, _, rfl, by decide, rfl, by decide, by decide, by decide⟩

/-! ## Deletion only after the merge -/

theorem List.forall₂_pick {α β γ : Type} {R : α → β → Prop} {S : β → γ → Prop}
    {l1 : List α} {l2 : List β} {l3 : List γ} (h1 : List.Forall₂ R l1 l2)
    (h2 : List.Forall₂ S l2 l3) {a : α} (ha : a ∈ l1) :
    ∃ b c cs1 cs2, b ∈ l2 ∧ R a b ∧ S b c ∧ l3 = cs1 ++ c :: cs2 := by
  induction h1 generalizing l3 with
  | nil => cases ha
  | cons hab _ ih =>
    cases h2 with
    | cons hbc h2 =>
      rcases List.mem_cons.mp ha with rfl | ha
      · exact ⟨_, _, [], _, List.mem_cons_self _ _, hab, hbc, rfl⟩
      · obtain ⟨b, c, cs1, cs2, hb, hr, hs, rfl⟩ := ih h2 ha
        exact ⟨b, c, _ :: cs1, cs2, List.mem_cons_of_mem _ hb, hr, hs, rfl⟩

/-- C9. A WAL file is unlinked only after it has been fully re-logged.  Take any execution
of `recover`, whatever system calls the environment makes fail and however the execution
ends (return, error or panic), on a memtable whose current WAL is closed, or open on the
file named by its path, a name that parses to its version.  If a file `p` that was in the
directory before is not there afterwards, then `p` is one of the older WAL files and `Read`
decoded its bytes to entries `es` without error.  When the current WAL is open, its file
holds, after its previous content and the bytes `pre` written before, the records of all of
`es`, and when `es` is not empty those records are within what `fsync` has made durable;
when the current WAL is closed, `es` is empty.  System calls can fail at every point, so
every state in which an execution can be cut short is the final state of an execution
covered here. -/
theorem memtable.recover_deletes_only_merged (c : Codec) (mt mt1 : memtable)
    (world world1 : World) (r : Res Int)
    (hu : world.namesUnique)
    (hopen : ∀ h, mt.wal.fd = some h → world.lookup mt.wal.path = some h ∧
      ∃ name0, mt.wal.path = path.Join mt.dir name0 ∧
        wal.ParseVersion name0 = Res.ok mt.wal.version)
    (hrec : mt.recover c world = (r, mt1, world1))
    (p : GoString) (i : Nat) (hbefore : world.lookup p = some i)
    (hafter : world1.lookup p = none) :
    recover.older mt world p ∧
    ∃ (es : List types.Entry) (bodies : List (List Byte)),
      wal.decode c (world.dataOf i) = Res.ok es ∧ wal.serialises c es bodies ∧
      (mt.wal.fd = none → es = []) ∧
      ∀ h, mt.wal.fd = some h → ∃ pre post : List Byte,
        world1.dataOf h = world.dataOf h ++ pre ++ (bodies.map wal.record).flatten ++ post ∧
        (es ≠ [] → ∃ post1, world1.durableOf h =
          world.dataOf h ++ pre ++ (bodies.map wal.record).flatten ++ post1) := by
  have hopen1 : ∀ h1, mt.wal.fd = some h1 →
      h1 = mt.wal.fd.getD world.files.length ∧
      world.lookup mt.wal.path = some (mt.wal.fd.getD world.files.length) ∧
      ∃ name0, mt.wal.path = path.Join mt.dir name0 ∧
        wal.ParseVersion name0 = Res.ok mt.wal.version := by
    intro h1 e
    obtain ⟨hl, hn⟩ := hopen h1 e
    have hg : mt.wal.fd.getD world.files.length = h1 := by simp [e]
    rw [hg]
    exact ⟨rfl, hl, hn⟩
  have hclosed : mt.wal.fd = none → mt.wal.fd.getD world.files.length = world.files.length := by
    intro e
    simp [e]
  rcases memtable.recover_cases hu hopen1 hclosed hrec with
    ⟨-, hf, -⟩ | ⟨ps, w0, rm, st1, hmem, -, hf0, hM, -, rfl, -⟩
  · rw [os.lookup_files hf, hbefore] at hafter
    cases hafter
  · obtain ⟨done, rest, ess, bodiess, extra, hps, -, sM, hF, hS, hC, -, hDat, hDur, -⟩ := hM
    have hp : p ∈ done := by
      by_contra hp
      have := sM.lookup_eq hp
      simp only at this
      rw [hafter, os.lookup_files hf0, hbefore] at this
      cases this
    obtain ⟨es, bodies, bs1, bs2, hmes, ⟨j, hj, hdec⟩, hser, rfl⟩ := List.forall₂_pick hF hS hp
    simp only at hj hdec hDat hDur
    rw [os.lookup_files hf0, hbefore] at hj
    cases hj
    rw [os.dataOf_files hf0] at hdec hDat hDur
    refine ⟨(hmem p).mp (by rw [hps]; exact List.mem_append_left _ hp), es, bodies, hdec, hser,
      fun hn => hC hn es hmes, ?_⟩
    intro h hfd
    have hh : mt.wal.fd.getD world.files.length = h := by simp [hfd]
    rw [hh] at hDat hDur
    refine ⟨wal.records bs1.flatten, wal.records bs2.flatten ++ extra, ?_, ?_⟩
    · rw [hDat]
      simp [wal.records, List.append_assoc]
    · intro hes
      have hne : (bs1 ++ bodies :: bs2).flatten ≠ [] := by
        intro hnil
        have hb : bodies = [] := by
          simp only [List.flatten_append, List.flatten_cons, List.append_eq_nil] at hnil
          exact hnil.2.1
        subst hb
        cases hser
        exact hes rfl
      obtain ⟨post1, hpost⟩ := hDur hne
      refine ⟨wal.records bs2.flatten ++ post1, ?_⟩
      rw [hpost]
      simp [wal.records, List.append_assoc]

theorem memtable.recover_deletes_only_merged_witness :
    recover.older sample.mtB sample.worldB "D/wal-20240101000000-5.log".toList ∧
    ∃ (es : List types.Entry) (bodies : List (List Byte)),
      wal.decode sample.codec (sample.worldB.dataOf 0) = Res.ok es ∧
      wal.serialises sample.codec es bodies ∧
      (sample.mtB.wal.fd = none → es = []) ∧
      ∀ h, sample.mtB.wal.fd = some h → ∃ pre post : List Byte,
        (sample.mtB.recover sample.codec sample.worldB).2.2.dataOf h =
          sample.worldB.dataOf h ++ pre ++ (bodies.map wal.record).flatten ++ post ∧
        (es ≠ [] → ∃ post1, (sample.mtB.recover sample.codec sample.worldB).2.2.durableOf h =
          sample.worldB.dataOf h ++ pre ++ (bodies.map wal.record).flatten ++ post1) :=
  memtable.recover_deletes_only_merged sample.codec sample.mtB
    (sample.mtB.recover sample.codec sample.worldB).2.1 sample.worldB
    (sample.mtB.recover sample.codec sample.worldB).2.2
    (sample.mtB.recover sample.codec sample.worldB).1
    (World.namesUnique_of_nodup _ (by decide))
    (fun h e => by
      have e1 : h = 1 := by
        have e2 : sample.mtB.wal.fd = some 1 := rfl
        rw [e2] at e
        exact (Option.some.inj e).symm
      subst e1
      exact ⟨by decide, "wal-20240101000001-10.log".toList, by decide, by decide⟩)
    rfl "D/wal-20240101000000-5.log".toList 0 (by decide) (by decide)

/-! ## File names and versions -/

namespace strings

theorem Split_of_not_mem {sep : Char} {a : GoString} (h : sep ∉ a) : Split sep a = [a] := by
  induction a with
  | nil => rfl
  | cons c cs ih =>
    have hc : c ≠ sep := fun hc => h (by simp [hc])
    have hcs : sep ∉ cs := fun hm => h (List.mem_cons_of_mem _ hm)
    simp [Split, hc, ih hcs]

theorem Split_append {sep : Char} {a : GoString} (b : GoString) (h : sep ∉ a) :
    Split sep (a ++ sep :: b) = a :: Split sep b := by
  induction a with
  | nil => simp [Split]
  | cons c cs ih =>
    have hc : c ≠ sep := fun hc => h (by simp [hc])
    have hcs : sep ∉ cs := fun hm => h (List.mem_cons_of_mem _ hm)
    simp [Split, hc, ih hcs]

theorem TrimSuffix_append (x suffix : GoString) : TrimSuffix (x ++ suffix) suffix = x := by
  unfold TrimSuffix HasSuffix
  simp

theorem lt_append_left (pre x y : GoString) : lt (pre ++ x) (pre ++ y) = lt x y := by
  induction pre with
  | nil => rfl
  | cons c cs ih => simp [lt, ih]

theorem lt_append_of_lt {a b : GoString} (x y : GoString) (hlen : a.length = b.length)
    (h : lt a b = true) : lt (a ++ x) (b ++ y) = true := by
  induction a generalizing b with
  | nil =>
    cases b with
    | nil => simp [lt] at h
    | cons _ _ => simp at hlen
  | cons c cs ih =>
    cases b with
    | nil => simp at hlen
    | cons d ds =>
      simp only [List.length_cons, Nat.add_right_cancel_iff] at hlen
      simp only [lt, List.cons_append] at h ⊢
      by_cases h1 : c < d
      · simp [h1]
      · simp only [h1, if_false] at h ⊢
        by_cases h2 : d < c
        · simp [h2] at h
        · simp only [h2, if_false] at h ⊢
          exact ih hlen h

theorem dot_lt_digit {c : Char} (h : c.isDigit = true) : '.' < c := by
  simp only [Char.isDigit, Bool.and_eq_true, decide_eq_true_eq] at h
  have h1 : (48 : UInt32) ≤ c.val := h.1
  rw [UInt32.le_def, BitVec.le_def] at h1
  rw [Char.lt_def, UInt32.lt_def, BitVec.lt_def]
  have e1 : (48 : UInt32).toBitVec.toNat = 48 := by decide
  have e2 : ('.' : Char).val.toBitVec.toNat = 46 := by decide
  rw [e1] at h1
  rw [e2]
  omega

theorem digit_ne_dash {c : Char} (h : c.isDigit = true) : c ≠ '-' := by
  rintro rfl
  simp [Char.isDigit] at h

/-- Appending `.log` keeps the order of two strings of digits, because a dot is smaller
than every digit. -/
theorem lt_digits_log {a b : GoString} (ha : ∀ ch ∈ a, ch.isDigit = true)
    (hb : ∀ ch ∈ b, ch.isDigit = true) (h : lt a b = true) :
    lt (a ++ ".log".toList) (b ++ ".log".toList) = true := by
  induction a generalizing b with
  | nil =>
    cases b with
    | nil => simp [lt] at h
    | cons d ds =>
      have hd := dot_lt_digit (hb d (List.mem_cons_self _ _))
      show lt ('.' :: "log".toList) (d :: (ds ++ ".log".toList)) = true
      simp [lt, hd]
  | cons c cs ih =>
    cases b with
    | nil => simp [lt] at h
    | cons d ds =>
      simp only [lt, List.cons_append] at h ⊢
      by_cases h1 : c < d
      · simp [h1]
      · simp only [h1, if_false] at h ⊢
        by_cases h2 : d < c
        · simp [h2] at h
        · simp only [h2, if_false] at h ⊢
          exact ih (fun ch hch => ha ch (List.mem_cons_of_mem _ hch))
            (fun ch hch => hb ch (List.mem_cons_of_mem _ hch)) h

end strings

namespace wal

theorem ParseVersion_fileName {ts ns : GoString} (hts : '-' ∉ ts) (hns : '-' ∉ ns) :
    ParseVersion (fileName (ts ++ '-' :: ns)) = Res.ok (ts ++ '-' :: ns) := by
  unfold ParseVersion fileName
  rw [strings.TrimSuffix_append]
  have h1 : "wal-".toList ++ (ts ++ '-' :: ns) = "wal".toList ++ '-' :: (ts ++ '-' :: ns) := rfl
  rw [h1, strings.Split_append _ (by decide), strings.Split_append _ hts,
    strings.Split_of_not_mem hns]

theorem not_mem_dash_of_digits {s : GoString} (h : ∀ ch ∈ s, ch.isDigit = true) : '-' ∉ s :=
  fun hm => strings.digit_ne_dash (h _ hm) rfl

/-- For two names of the form `wal-<ts>-<ns>.log`, if `CompareVersion` puts the version of
the first strictly before that of the second, then the path of the first sorts strictly
before the path of the second. -/
theorem path_lt_of_version_lt {dir a b va vb : GoString} (ha : isWALName a)
    (hb : isWALName b) (hva : ParseVersion a = Res.ok va) (hvb : ParseVersion b = Res.ok vb)
    (h : CompareVersion va vb = Res.ok (-1)) :
    strings.lt (path.Join dir a) (path.Join dir b) = true := by
  obtain ⟨ts, ns, rfl, hlen, hts, hns⟩ := ha
  obtain ⟨ts1, ns1, rfl, hlen1, hts1, hns1⟩ := hb
  have d1 := not_mem_dash_of_digits hts
  have d2 := not_mem_dash_of_digits hns
  have d3 := not_mem_dash_of_digits hts1
  have d4 := not_mem_dash_of_digits hns1
  rw [ParseVersion_fileName d1 d2] at hva
  rw [ParseVersion_fileName d3 d4] at hvb
  cases hva
  cases hvb
  have s1 : strings.Split '-' (ts ++ '-' :: ns) = [ts, ns] := by
    rw [strings.Split_append _ d1, strings.Split_of_not_mem d2]
  have s2 : strings.Split '-' (ts1 ++ '-' :: ns1) = [ts1, ns1] := by
    rw [strings.Split_append _ d3, strings.Split_of_not_mem d4]
  rw [CompareVersion_pieces s1 s2] at h
  have e1 : path.Join dir (fileName (ts ++ '-' :: ns)) =
      (dir ++ '/' :: "wal-".toList) ++ (ts ++ ('-' :: (ns ++ ".log".toList))) := by
    simp [path.Join, fileName]
  have e2 : path.Join dir (fileName (ts1 ++ '-' :: ns1)) =
      (dir ++ '/' :: "wal-".toList) ++ (ts1 ++ ('-' :: (ns1 ++ ".log".toList))) := by
    simp [path.Join, fileName]
  rw [e1, e2, strings.lt_append_left]
  by_cases h1 : strings.lt ts ts1 = true
  · exact strings.lt_append_of_lt _ _ (hlen.trans hlen1.symm) h1
  · simp only [h1, if_false] at h
    by_cases h2 : strings.lt ts1 ts = true
    · simp [h2] at h
    · simp only [h2, if_false] at h
      have he : ts = ts1 := strings.eq_of_not_lt (by simpa using h1) (by simpa using h2)
      subst he
      rw [strings.lt_append_left]
      by_cases h3 : strings.lt ns ns1 = true
      · have := strings.lt_digits_log hns hns1 h3
        simpa [strings.lt] using this
      · simp only [h3, if_false] at h
        by_cases h4 : strings.lt ns1 ns = true <;> simp [h4] at h

end wal

/-! ## The skip list of the memtable: the last `Set` of a key is what `Get` returns -/

namespace skiplist

theorem update_none {entry : types.Entry} {chain : List Element}
    (h : update entry chain = none) : ∀ x ∈ chain, x.Entry.Key ≠ entry.Key := by
  induction chain with
  | nil => intro x hx; cases hx
  | cons e rest ih =>
    simp only [update] at h
    split at h
    · cases h
    · rename_i hne
      split at h
      · cases h
      · rename_i hr
        intro x hx
        rcases List.mem_cons.mp hx with rfl | hx
        · exact hne
        · exact ih hr x hx

theorem find_update {entry old : types.Entry} {chain chain1 : List Element} (k : types.Key)
    (h : update entry chain = some (chain1, old)) :
    (chain1.find? (fun e => e.Entry.Key = k)).map Element.Entry =
      if entry.Key = k then some entry
      else (chain.find? (fun e => e.Entry.Key = k)).map Element.Entry := by
  induction chain generalizing chain1 with
  | nil => simp [update] at h
  | cons e rest ih =>
    simp only [update] at h
    split at h
    · rename_i hk
      simp only [Option.some.injEq, Prod.mk.injEq] at h
      obtain ⟨rfl, -⟩ := h
      by_cases hek : entry.Key = k
      · simp [List.find?_cons, hek]
      · have : ¬ e.Entry.Key = k := by rw [hk]; exact hek
        simp [List.find?_cons, hek, this]
    · rename_i hne
      split at h
      · rename_i rest1 old1 hr
        simp only [Option.some.injEq, Prod.mk.injEq] at h
        obtain ⟨rfl, rfl⟩ := h
        have := ih hr
        by_cases hek : e.Entry.Key = k
        · have hne2 : ¬ entry.Key = k := by
            intro h2
            exact hne (hek.trans h2.symm)
          simp [List.find?_cons, hek, hne2]
        · simp only [List.find?_cons, hek, decide_False]
          exact this
      · cases h

theorem find_splice (node : Element) (chain : List Element) (k : types.Key)
    (hnone : ∀ x ∈ chain, x.Entry.Key ≠ node.Entry.Key) :
    ((splice node chain).find? (fun e => e.Entry.Key = k)).map Element.Entry =
      if node.Entry.Key = k then some node.Entry
      else (chain.find? (fun e => e.Entry.Key = k)).map Element.Entry := by
  induction chain with
  | nil =>
    by_cases hk : node.Entry.Key = k <;> simp [splice, List.find?_cons, hk]
  | cons e rest ih =>
    have hrest : ∀ x ∈ rest, x.Entry.Key ≠ node.Entry.Key :=
      fun x hx => hnone x (List.mem_cons_of_mem _ hx)
    have he : e.Entry.Key ≠ node.Entry.Key := hnone e (List.mem_cons_self _ _)
    simp only [splice]
    split
    · by_cases hek : e.Entry.Key = k
      · have hnk : ¬ node.Entry.Key = k := fun h2 => he (hek.trans h2.symm)
        simp [List.find?_cons, hek, hnk]
      · simp only [List.find?_cons, hek, decide_False]
        exact ih hrest
    · by_cases hk : node.Entry.Key = k
      · simp [List.find?_cons, hk]
      · simp [List.find?_cons, hk]

/-- `Get` after `Set`: the entry just set for its key, the old answer for every other
key. -/
theorem Get_Set (s : SkipList) (entry : types.Entry) (k : types.Key) :
    (s.Set entry).Get k = if entry.Key = k then (entry, true) else s.Get k := by
  unfold SkipList.Set
  cases hu : update entry s.chain with
  | some res =>
    obtain ⟨chain1, old⟩ := res
    have := find_update k hu
    simp only [SkipList.Get]
    by_cases hk : entry.Key = k
    · simp only [hk, if_true] at this ⊢
      cases hf : chain1.find? (fun e => e.Entry.Key = k) with
      | none => simp [hf] at this
      | some e =>
        simp only [hf, Option.map_some', Option.some.injEq] at this
        simp [this]
    · simp only [hk, if_false] at this ⊢
      cases hf : chain1.find? (fun e => e.Entry.Key = k) with
      | none =>
        simp only [hf, Option.map_none'] at this
        cases hg : s.chain.find? (fun e => e.Entry.Key = k) with
        | none => rfl
        | some g => simp [hg] at this
      | some e =>
        simp only [hf, Option.map_some'] at this
        cases hg : s.chain.find? (fun e => e.Entry.Key = k) with
        | none => simp [hg] at this
        | some g =>
          simp only [hg, Option.map_some', Option.some.injEq] at this
          simp [this]
  | none =>
    simp only
    have := find_splice ⟨entry, (randomLevel s.maxLevel s.p s.rand 1).1⟩ s.chain k
      (update_none hu)
    simp only [SkipList.Get]
    by_cases hk : entry.Key = k
    · simp only [hk, if_true] at this ⊢
      cases hf : (splice ⟨entry, (randomLevel s.maxLevel s.p s.rand 1).1⟩ s.chain).find?
          (fun e => e.Entry.Key = k) with
      | none => simp [hf] at this
      | some e =>
        simp only [hf, Option.map_some', Option.some.injEq] at this
        simp [this]
    · simp only [hk, if_false] at this ⊢
      cases hf : (splice ⟨entry, (randomLevel s.maxLevel s.p s.rand 1).1⟩ s.chain).find?
          (fun e => e.Entry.Key = k) with
      | none =>
        simp only [hf, Option.map_none'] at this
        cases hg : s.chain.find? (fun e => e.Entry.Key = k) with
        | none => rfl
        | some g => simp [hg] at this
      | some e =>
        simp only [hf, Option.map_some'] at this
        cases hg : s.chain.find? (fun e => e.Entry.Key = k) with
        | none => simp [hg] at this
        | some g =>
          simp only [hg, Option.map_some', Option.some.injEq] at this
          simp [this]

theorem Get_foldl_other (s : SkipList) (l : List types.Entry) (k : types.Key)
    (h : ∀ x ∈ l, x.Key ≠ k) : (l.foldl (fun s e => s.Set e) s).Get k = s.Get k := by
  induction l generalizing s with
  | nil => rfl
  | cons a l ih =>
    simp only [List.foldl_cons]
    rw [ih _ (fun x hx => h x (List.mem_cons_of_mem _ hx)), Get_Set,
      if_neg (h a (List.mem_cons_self _ _))]

/-- After a sequence of `Set`, `Get` of a key returns the last entry set for it. -/
theorem Get_foldl_last (s : SkipList) (l1 l2 : List types.Entry) (e : types.Entry)
    (h : ∀ x ∈ l2, x.Key ≠ e.Key) :
    ((l1 ++ e :: l2).foldl (fun s e => s.Set e) s).Get e.Key = (e, true) := by
  rw [List.foldl_append, List.foldl_cons, Get_foldl_other _ _ _ h, Get_Set, if_pos rfl]

end skiplist

/-! ## The order of recovery -/

theorem List.chain'_imp_mem {α : Type} {R S : α → α → Prop} :
    ∀ {l : List α}, List.Chain' R l → (∀ a b, a ∈ l → b ∈ l → R a b → S a b) →
      List.Chain' S l
  | [], _, _ => List.chain'_nil
  | [_], _, _ => List.chain'_singleton _
  | a :: b :: l, h, himp => by
    rw [List.chain'_cons] at h ⊢
    refine ⟨himp a b (by simp) (by simp) h.1, List.chain'_imp_mem h.2 ?_⟩
    intro x y hx hy
    exact himp x y (List.mem_cons_of_mem _ hx) (List.mem_cons_of_mem _ hy)

theorem strings.eq_of_strict_sorted {l1 l2 : List GoString}
    (h1 : l1.Pairwise (fun a b => strings.lt a b = true))
    (h2 : l2.Pairwise (fun a b => strings.lt a b = true))
    (hmem : ∀ p, p ∈ l1 ↔ p ∈ l2) : l1 = l2 := by
  have ne_of_lt : ∀ {a b : GoString}, strings.lt a b = true → a ≠ b := by
    rintro a b h rfl
    simp [strings.lt_self] at h
  have n1 : l1.Nodup := h1.imp ne_of_lt
  have n2 : l2.Nodup := h2.imp ne_of_lt
  haveI : IsAntisymm GoString (fun a b => strings.lt a b = true) :=
    ⟨fun a b hab hba => by simp [strings.lt_flip hab] at hba⟩
  exact List.eq_of_perm_of_sorted ((List.perm_ext_iff_of_nodup n1 n2).mpr hmem) h1 h2

/-- C6. Recovery order is version order.  Under the conditions of C4, let the older WAL
files of the directory be exactly the files named `names`, each name of the form
`wal-<ts>-<ns>.log` (`ts` of 14 digits, `ns` of decimal digits), listed so that
`CompareVersion` puts the version of each strictly before the version of the next.  When
`recover` returns it has replayed the files in exactly that order: the skip list is the old
one after `Set` of the entries of the first file, then of the second, and so on.  So for an
entry `e` that is the last one of its key in its file, when no later file has an entry of
that key, `get` of the key returns `e`. -/
theorem memtable.recover_in_version_order (c : Codec) (mt mt1 : memtable)
    (world world1 : World) (v : Int) (h : Nat) (name0 : GoString) (names : List GoString)
    (hu : world.namesUnique) (hfd : mt.wal.fd = some h)
    (hlook : world.lookup mt.wal.path = some h)
    (hpath : mt.wal.path = path.Join mt.dir name0)
    (hver : wal.ParseVersion name0 = Res.ok mt.wal.version)
    (hrec : mt.recover c world = (Res.ok v, mt1, world1))
    (hform : ∀ n ∈ names, wal.isWALName n)
    (hasc : names.Chain' (fun a b => ∃ va vb, wal.ParseVersion a = Res.ok va ∧
      wal.ParseVersion b = Res.ok vb ∧ wal.CompareVersion va vb = Res.ok (-1)))
    (hall : ∀ p, recover.older mt world p ↔ p ∈ names.map (path.Join mt.dir)) :
    ∃ ess : List (List types.Entry),
      List.Forall₂ (fun n es => ∃ i, world.lookup (path.Join mt.dir n) = some i ∧
        wal.decode c (world.dataOf i) = Res.ok es) names ess ∧
      mt1.skiplist = ess.flatten.foldl (fun s e => s.Set e) mt.skiplist ∧
      ∀ (before after : List (List types.Entry)) (es l1 l2 : List types.Entry)
        (e : types.Entry), ess = before ++ es :: after → es = l1 ++ e :: l2 →
        (∀ x ∈ l2, x.Key ≠ e.Key) → (∀ es1 ∈ after, ∀ x ∈ es1, x.Key ≠ e.Key) →
        mt1.get e.Key = (e, true) := by
  obtain ⟨ps, ess, bodiess, hmem, hsorted, hF, -, -, -, rfl, -⟩ :=
    memtable.recover_ok hu hfd hlook hpath hver hrec
  haveI : IsTrans GoString (fun a b => strings.lt a b = true) :=
    ⟨fun _ _ _ h1 h2 => strings.lt_chain h1 h2⟩
  have hchain : (names.map (path.Join mt.dir)).Chain' (fun a b => strings.lt a b = true) := by
    rw [List.chain'_map]
    refine List.chain'_imp_mem hasc ?_
    rintro a b ha hb ⟨va, vb, h1, h2, h3⟩
    exact wal.path_lt_of_version_lt (hform a ha) (hform b hb) h1 h2 h3
  have hps : ps = names.map (path.Join mt.dir) :=
    strings.eq_of_strict_sorted hsorted (List.chain'_iff_pairwise.mp hchain)
      (fun p => (hmem p).trans (hall p))
  subst hps
  refine ⟨ess, List.forall₂_map_left_iff.mp hF, rfl, ?_⟩
  intro before after es l1 l2 e hess hes hl2 hafter
  subst hess hes
  show skiplist.SkipList.Get (List.foldl (fun s e => s.Set e) mt.skiplist
    (before ++ (l1 ++ e :: l2) :: after).flatten) e.Key = _
  have hflat : (before ++ (l1 ++ e :: l2) :: after).flatten =
      (before.flatten ++ l1) ++ e :: (l2 ++ after.flatten) := by
    simp [List.append_assoc]
  rw [hflat]
  apply skiplist.Get_foldl_last
  intro x hx
  rcases List.mem_append.mp hx with hx | hx
  · exact hl2 x hx
  · obtain ⟨es1, hes1, hx1⟩ := List.mem_flatten.mp hx
    exact hafter es1 hes1 x hx1

theorem memtable.recover_in_version_order_witness :
    ∃ ess : List (List types.Entry),
      List.Forall₂ (fun n es => ∃ i, sample.worldD.lookup (path.Join sample.mtD.dir n) = some i ∧
        wal.decode sample.codec (sample.worldD.dataOf i) = Res.ok es)
        ["wal-20240101000000-5.log".toList, "wal-20240101000001-10.log".toList] ess ∧
      (sample.mtD.recover sample.codec sample.worldD).2.1.skiplist =
        ess.flatten.foldl (fun s e => s.Set e) sample.mtD.skiplist ∧
      ∀ (before after : List (List types.Entry)) (es l1 l2 : List types.Entry)
        (e : types.Entry), ess = before ++ es :: after → es = l1 ++ e :: l2 →
        (∀ x ∈ l2, x.Key ≠ e.Key) → (∀ es1 ∈ after, ∀ x ∈ es1, x.Key ≠ e.Key) →
        (sample.mtD.recover sample.codec sample.worldD).2.1.get e.Key = (e, true) :=
  memtable.recover_in_version_order sample.codec sample.mtD
    (sample.mtD.recover sample.codec sample.worldD).2.1 sample.worldD
    (sample.mtD.recover sample.codec sample.worldD).2.2 12 2 "wal-20240101000002-7.log".toList
    ["wal-20240101000000-5.log".toList, "wal-20240101000001-10.log".toList]
    (World.namesUnique_of_nodup _ (by decide)) rfl (by decide) (by decide) (by decide) (by rfl)
    (by
      intro n hn
      simp only [List.mem_cons, List.mem_singleton, List.not_mem_nil, or_false] at hn
      rcases hn with rfl | rfl
      · exact ⟨"20240101000000".toList, "5".toList, rfl, rfl, by decide, by decide⟩
      · exact ⟨"20240101000001".toList, "10".toList, rfl, rfl, by decide, by decide⟩)
    (List.chain'_pair.mpr ⟨"20240101000000-5".toList, "20240101000001-10".toList,
      by decide, by decide, by decide⟩)
    (fun p => (@recover.mem_selected sample.mtD sample.worldD
      ["D/wal-20240101000000-5.log".toList, "D/wal-20240101000001-10.log".toList]
      (by rfl) p).symm)

/-! ## The skip list draft: `Set` -/

theorem SkipList.Set.raise_spec (head : Option Nat) :
    ∀ (n i : Nat) (update : List (Option Nat)), i ≤ update.length →
      SkipList.Set.raise head n i update =
          Res.panic (Panic.indexOutOfRange update.length update.length) ∨
        ∃ u2, SkipList.Set.raise head n i update = Res.ok u2 ∧ u2.length = update.length := by
  intro n
  induction n with
  | zero =>
    intro i update _
    exact Or.inr ⟨update, rfl, rfl⟩
  | succ n ih =>
    intro i update hi
    simp only [SkipList.Set.raise]
    by_cases hlt : i < update.length
    · simp only [hlt, if_true]
      have := ih (i + 1) (update.set i head) (by simpa using hlt)
      simpa using this
    · have he : i = update.length := by omega
      subst he
      simp

theorem SkipList.Set.splice_top (node : Nat) (update : List (Option Nat))
    (heap : List Element) :
    SkipList.Set.splice node (update.length + 1) update heap =
      Res.panic (Panic.indexOutOfRange update.length update.length) := by
  simp [SkipList.Set.splice, SkipList.index]

theorem SkipList.Set.descend_empty (maxLevel : Nat) (key : GoString) (x : Entry) :
    ∀ (n : Nat) (update : List (Option Nat)), n ≤ maxLevel → update.length = maxLevel →
      ∃ u1, SkipList.Set.descend [⟨x, List.replicate maxLevel none⟩] key n (some 0) update =
          Res.ok (some 0, u1) ∧ u1.length = maxLevel := by
  intro n
  induction n with
  | zero =>
    intro update _ hlen
    exact ⟨update, rfl, hlen⟩
  | succ n ih =>
    intro update hn hlen
    have h1 : n < maxLevel := by omega
    have h2 : (List.replicate maxLevel (none : Option Nat))[n]? = some none := by
      simp [List.getElem?_replicate, h1]
    simp only [SkipList.Set.descend, SkipList.deref, SkipList.index, List.getElem?_cons_zero, h2,
      hlen, h1, if_true]
    exact ih (update.set n (some 0)) (by omega) (by simpa using hlen)

/-- C3 (the failing input). On an empty list of the draft, `Set` of any entry panics with an
index out of range, for every `maxLevel`, `p`, random source and value of `level`: in the
create case the splice loop starts at `i = maxLevel`, one past the end of `update` (and a
`level` of `maxLevel` or more already overruns `head.next` in the descent).  So no entry is
ever stored. -/
theorem SkipList.Set_empty_panics (maxLevel level : Nat) (p : Float64) (rand : List Float64)
    (e : Entry) :
    (SkipList.empty maxLevel p rand level).Set e =
      Res.panic (Panic.indexOutOfRange ((max level maxLevel : Nat) : Int) maxLevel) := by
  by_cases hl : level < maxLevel
  · have hmax : max level maxLevel = maxLevel := max_eq_right (le_of_lt hl)
    obtain ⟨u1, hd, hlen⟩ := SkipList.Set.descend_empty maxLevel e.key ⟨[], [], false⟩
      (level + 1) (List.replicate maxLevel none) (by omega) (by simp)
    have h0 : (List.replicate maxLevel (none : Option Nat))[0]? = some none := by
      simp [List.getElem?_replicate]
      omega
    rw [hmax]
    simp only [SkipList.Set, SkipList.empty, hd, SkipList.deref, SkipList.index,
      List.getElem?_cons_zero, h0]
    rcases hrl : SkipList.RandomLevel ⟨maxLevel, p, level, rand, 0, some 0,
        [⟨⟨[], [], false⟩, List.replicate maxLevel none⟩]⟩ with ⟨lvl, rand1⟩
    simp only
    by_cases hgt : lvl > level
    · simp only [hgt, if_true]
      rcases SkipList.Set.raise_spec (some 0) (lvl - level) level u1 (by omega) with hr | ⟨u2, hr, hl2⟩
      · rw [hr, hlen]
      · rw [hr]
        simp only
        have := SkipList.Set.splice_top 1 u2
          [⟨⟨[], [], false⟩, List.replicate maxLevel none⟩,
            ⟨⟨e.key, e.value, e.tombstone⟩, List.replicate lvl none⟩]
        rw [hl2, hlen] at this
        simp only [List.length_singleton, List.singleton_append]
        rw [this]
    · simp only [hgt, if_false]
      have := SkipList.Set.splice_top 1 u1
        [⟨⟨[], [], false⟩, List.replicate maxLevel none⟩,
          ⟨⟨e.key, e.value, e.tombstone⟩, List.replicate lvl none⟩]
      rw [hlen] at this
      simp only [List.length_singleton, List.singleton_append]
      rw [this]
  · have hmax : max level maxLevel = level := max_eq_left (by omega)
    have h2 : (List.replicate maxLevel (none : Option Nat))[level]? = none := by
      simp [List.getElem?_replicate]
      omega
    rw [hmax]
    simp [SkipList.Set, SkipList.empty, SkipList.Set.descend, SkipList.deref, SkipList.index, h2]

/-! ## Recovery after a `Create` in the same second -/

/-- C2 (the failing input). `M1` is made in the empty directory `D` at `t1` and `e1` is set
on it; `M2` is made in `D` afterwards, at `t2`, 5 nanoseconds later in the same second.
`recover` on `M2` returns 0 and replays nothing: the skip list of `M2` stays empty while that
of `M1` holds `e1`, and the WAL file of `M1` is still in the directory.  The version
`...-5` of `M1` does not compare as smaller than the version `...-10` of `M2`. -/
theorem memtable.recover_misses_wal_of_same_second :
    sample.t1.before sample.t2 = true ∧
    ∃ m1 w1 m1a w2 m2 w3 m2a w4,
      newMemtable "D".toList 4 ⟨1, 2⟩ [] sample.t1 sample.emptyWorld = (Res.ok m1, w1) ∧
      m1.set sample.codec sample.e1 w1 = (Res.ok (), m1a, w2) ∧
      newMemtable "D".toList 4 ⟨1, 2⟩ [] sample.t2 w2 = (Res.ok m2, w3) ∧
      m2.recover sample.codec w3 = (Res.ok 0, m2a, w4) ∧
      m1a.all = [sample.e1] ∧ m1a.get sample.e1.Key = (sample.e1, true) ∧
      m2a.all = [] ∧ m2a.get sample.e1.Key = (skiplist.noEntry, false) ∧
      w4.lookup m1.wal.path = some 0 ∧
      wal.CompareVersion m1.wal.version m2.wal.version = Res.ok 1 :=
  ⟨by decide, _, _, _, _, _, _, _, _, rfl, rfl, rfl, rfl, by decide, by decide, by decide,
    by decide, by decide, by decide⟩

/-- Read-your-write on the memtable: after `set(e)` returns, `get(e.Key)` returns
`(e, true)`. -/
theorem memtable.get_after_set (c : Codec) (mt mt1 : memtable) (e : types.Entry)
    (world world1 : World) (h : mt.set c e world = (Res.ok (), mt1, world1)) :
    mt1.get e.Key = (e, true) := by
  unfold memtable.set at h
  split at h
  · cases h
  · rcases hw : mt.wal.Write c [e] world with ⟨r, w1⟩
    rw [hw] at h
    cases r with
    | ok u =>
      simp only [Prod.mk.injEq, true_and] at h
      obtain ⟨rfl, -⟩ := h
      simp [memtable.get, skiplist.Get_Set]
    | err x => simp at h
    | panic q => simp at h

theorem memtable.get_after_set_witness :
    (sample.mtA.set sample.codec sample.e3 sample.worldA).2.1.get sample.e3.Key =
      (sample.e3, true) :=
  memtable.get_after_set sample.codec sample.mtA
    (sample.mtA.set sample.codec sample.e3 sample.worldA).2.1 sample.e3 sample.worldA
    (sample.mtA.set sample.codec sample.e3 sample.worldA).2.2 (by rfl)

/-- An execution of `recover` that aborts: the `Stat` of `Read` fails on the older WAL.
`recover` panics through the logger, the older WAL is still in the directory and nothing
was appended to the current WAL. -/
theorem memtable.recover_read_failure :
    ∃ mt1 world1,
      sample.mtB.recover sample.codec sample.worldFaulty =
        (Res.panic (Panic.logged "read wal %v failed: %v"), mt1, world1) ∧
      world1.lookup "D/wal-20240101000000-5.log".toList = some 0 ∧
      world1.dataOf 1 = [] ∧ mt1.all = [] :=
  ⟨_, _, rfl, by decide, by decide, by decide⟩

theorem wal.WAL.Read.loop_total_witness :
    wal.WAL.Read.loop sample.codec sample.worldA.memory 28 (sample.worldA.dataOf 0) [] ≠ none :=
  wal.WAL.Read.loop_total sample.codec sample.worldA.memory 28 (sample.worldA.dataOf 0) []
    (by decide)

/-! ## `ParseVersion` on the names `Create` makes -/


/-! ### Decimal digits -/

namespace fmt

theorem digitChar_isDigit (k : Nat) (h : k < 10) : (Nat.digitChar k).isDigit = true := by
  interval_cases k <;> decide

theorem toDigitsCore_digits (fuel : Nat) : ∀ (n : Nat) (acc : List Char),
    (∀ ch ∈ acc, ch.isDigit = true) →
      ∀ ch ∈ Nat.toDigitsCore 10 fuel n acc, ch.isDigit = true := by
  induction fuel with
  | zero =>
    intro n acc h
    simpa [Nat.toDigitsCore] using h
  | succ fuel ih =>
    intro n acc h
    have hacc : ∀ ch ∈ Nat.digitChar (n % 10) :: acc, ch.isDigit = true := by
      intro ch hch
      rcases List.mem_cons.mp hch with rfl | hch
      · exact digitChar_isDigit _ (Nat.mod_lt _ (by decide))
      · exact h _ hch
    unfold Nat.toDigitsCore
    simp only
    split
    · exact hacc
    · exact ih _ _ hacc

theorem d_digits (n : Nat) : ∀ ch ∈ d n, ch.isDigit = true :=
  toDigitsCore_digits _ _ _ (by simp)

theorem padded_digits (width n : Nat) : ∀ ch ∈ padded width n, ch.isDigit = true := by
  intro ch hch
  unfold padded at hch
  rcases List.mem_append.mp hch with h | h
  · rw [(List.mem_replicate.mp h).2]
    decide
  · exact d_digits n ch h

end fmt

theorem time.Time.Format_digits (t : time.Time) : ∀ ch ∈ t.Format, ch.isDigit = true := by
  intro ch hch
  unfold time.Time.Format at hch
  simp only [List.mem_append] at hch
  rcases hch with ((((h | h) | h) | h) | h) | h <;> exact fmt.padded_digits _ _ ch h

namespace strings

theorem Split_ne_nil (sep : Char) (a : GoString) : Split sep a ≠ [] := by
  cases a with
  | nil => simp [Split]
  | cons c cs =>
    unfold Split
    split
    · simp
    · split <;> simp

theorem Split_append_sep (sep : Char) (a b : GoString) :
    Split sep (a ++ sep :: b) = Split sep a ++ Split sep b := by
  induction a with
  | nil => simp [Split]
  | cons c cs ih =>
    by_cases hc : c = sep
    · simp [Split, hc, ih]
    · rcases hs : Split sep cs with _ | ⟨p, ps⟩
      · exact absurd hs (Split_ne_nil sep cs)
      · simp [Split, hc, ih, hs]

theorem digit_ne_slash {c : Char} (h : c.isDigit = true) : c ≠ '/' := by
  rintro rfl
  simp [Char.isDigit] at h

end strings

namespace path

theorem Base_Join (dir : GoString) {name : GoString} (h : '/' ∉ name) :
    Base (Join dir name) = name := by
  unfold Base Join
  rw [strings.Split_append_sep, strings.Split_of_not_mem h]
  simp

end path

namespace wal

theorem versionAt_pieces (t : time.Time) :
    '-' ∉ t.Format ∧ '-' ∉ fmt.d t.nanosecond ∧ '/' ∉ fileName (versionAt t) := by
  refine ⟨not_mem_dash_of_digits (time.Time.Format_digits t),
    not_mem_dash_of_digits (fmt.d_digits _), ?_⟩
  intro hm
  unfold fileName versionAt at hm
  simp only [List.mem_append, List.mem_cons] at hm
  rcases hm with (h | h | h | h) | h
  · revert h; decide
  · exact strings.digit_ne_slash (time.Time.Format_digits t _ h) rfl
  · revert h; decide
  · exact strings.digit_ne_slash (fmt.d_digits _ _ h) rfl
  · revert h; decide

theorem ParseVersion_Base_Create {dir : GoString} {t : time.Time} {world world1 : World}
    {w : WAL} (hc : Create dir t world = (Res.ok w, world1)) :
    w.path = path.Join dir (fileName (versionAt t)) ∧ w.version = versionAt t ∧ w.dir = dir ∧
      ParseVersion (fileName (versionAt t)) = Res.ok (versionAt t) ∧
      ParseVersion (path.Base w.path) = Res.ok w.version := by
  obtain ⟨h1, h2, h3⟩ := versionAt_pieces t
  have hp : ParseVersion (fileName (versionAt t)) = Res.ok (versionAt t) :=
    ParseVersion_fileName h1 h2
  unfold Create at hc
  simp only at hc
  rcases ho : os.OpenFile (path.Join dir (fileName (versionAt t))) true world with ⟨r, wa⟩
  rw [ho] at hc
  cases r with
  | ok file =>
    simp only [Prod.mk.injEq, Res.ok.injEq] at hc
    obtain ⟨rfl, rfl⟩ := hc
    refine ⟨rfl, rfl, rfl, hp, ?_⟩
    show ParseVersion (path.Base (path.Join dir (fileName (versionAt t)))) = _
    rw [path.Base_Join dir h3]
    exact hp
  | err e => simp at hc
  | panic q => simp at hc

end wal

namespace os

theorem OpenFile_create_ok {name : GoString} {world world1 : World} {h : Nat}
    (ho : OpenFile name true world = (Res.ok h, world1)) :
    world1.lookup name = some h ∧ ∃ f, world1.files[h]? = some f ∧ f.isDir = false := by
  obtain ⟨f, wa, hn, hwa⟩ := next_cases world
  unfold OpenFile at ho
  rw [hn] at ho
  cases f with
  | some k => simp at ho
  | none =>
    simp only at ho
    rcases hl : wa.lookup name with _ | i
    · rw [hl] at ho
      simp only [if_true, Prod.mk.injEq, Res.ok.injEq] at ho
      obtain ⟨rfl, rfl⟩ := ho
      unfold World.lookup at hl
      simp only at hl
      split at hl
      · cases hl
      · rename_i hnot
        refine ⟨?_, ⟨name, false, [], 0, true⟩, by simp, rfl⟩
        unfold World.lookup
        simp only [List.findIdx_append, if_neg hnot]
        simp [List.findIdx_cons]
    · rw [hl] at ho
      simp only at ho
      rcases hf : wa.files[i]? with _ | f
      · rw [hf] at ho
        simp at ho
      · rw [hf] at ho
        simp only at ho
        by_cases hd : f.isDir = true
        · simp [hd] at ho
        · simp only [hd, Bool.false_eq_true, if_false, Prod.mk.injEq, Res.ok.injEq] at ho
          obtain ⟨rfl, rfl⟩ := ho
          exact ⟨hl, f, hf, by simpa using hd⟩

end os

namespace wal

theorem Open_quiet {file : GoString} {world : World} {h : Nat} {f : File} {v : GoString}
    (hq : world.quiet 2) (hl : world.lookup file = some h) (hf : world.files[h]? = some f)
    (hd : f.isDir = false) (hv : ParseVersion (path.Base file) = Res.ok v) :
    (Open file world).1 = Res.ok ⟨some h, path.Dir file, file, v⟩ := by
  obtain ⟨hn1, hq1⟩ := World.next_of_quiet hq
  obtain ⟨hn2, -⟩ := World.next_of_quiet hq1
  have hl1 : world.next.2.lookup file = some h := by rw [World.next_lookup]; exact hl
  have hl2 : world.next.2.next.2.lookup file = some h := by rw [World.next_lookup]; exact hl1
  have hf2 : world.next.2.next.2.files[h]? = some f := by
    rw [World.next_files, World.next_files]; exact hf
  unfold Open os.Stat
  rw [hn1]
  simp only [hl1, os.IsNotExist]
  unfold os.OpenFile
  rw [hn2]
  simp [hl2, hf2, hd, hv]

end wal

namespace os

theorem OpenFile_no_panic (name : GoString) (create : Bool) (world : World) (q : Panic) :
    (OpenFile name create world).1 ≠ Res.panic q := by
  unfold OpenFile
  repeat' split
  all_goals simp

end os

namespace wal

theorem Open_version {file v : GoString} (hv : ParseVersion (path.Base file) = Res.ok v)
    {world world1 : World} {r : Res WAL} (ho : Open file world = (r, world1)) :
    (∀ q, r ≠ Res.panic q) ∧ ∀ l, r = Res.ok l → l.version = v ∧ l.path = file := by
  unfold Open at ho
  rw [hv] at ho
  simp only at ho
  split at ho
  · simp only [Prod.mk.injEq] at ho
    obtain ⟨rfl, -⟩ := ho
    simp
  · rcases hof : os.OpenFile file false (os.Stat file world).2 with ⟨ro, wo⟩
    have hnp := os.OpenFile_no_panic file false (os.Stat file world).2
    rw [hof] at ho hnp
    cases ro with
    | ok fd =>
      simp only [Prod.mk.injEq] at ho
      obtain ⟨rfl, -⟩ := ho
      refine ⟨by simp, ?_⟩
      intro l hl
      cases hl
      exact ⟨rfl, rfl⟩
    | err e =>
      simp only [Prod.mk.injEq] at ho
      obtain ⟨rfl, -⟩ := ho
      simp
    | panic q => exact absurd rfl (hnp q)

end wal

/-- C11: `ParseVersion` inverts the file naming of `Create`.  For strings `ts` and `ns`
without `-` (a decimal `ns` is one), `ParseVersion("wal-" + ts + "-" + ns + ".log")` returns
`ts + "-" + ns` and indexes no missing piece.  For a WAL `w` that `Create` made, at any
reading `t` of the clock: its version is `<t formatted>-<nanosecond>`, the name of its file
parses to that version, `Open` on its path never panics and, whenever it returns a WAL, that
WAL has the version and the path of `w`; and right after the `Create`, when the environment
fails neither system call of `Open`, `Open` does return such a WAL. -/
theorem wal.ParseVersion_inverts_Create (ts ns : GoString) (hts : '-' ∉ ts) (hns : '-' ∉ ns)
    (dir : GoString) (t : time.Time) (world world1 : World) (w : wal.WAL)
    (hc : wal.Create dir t world = (Res.ok w, world1)) :
    wal.ParseVersion ("wal-".toList ++ ts ++ "-".toList ++ ns ++ ".log".toList) =
        Res.ok (ts ++ "-".toList ++ ns) ∧
      w.version = t.Format ++ "-".toList ++ fmt.d t.nanosecond ∧
      wal.ParseVersion (path.Base w.path) = Res.ok w.version ∧
      (∀ (world2 world3 : World) (r : Res wal.WAL), wal.Open w.path world2 = (r, world3) →
        (∀ q, r ≠ Res.panic q) ∧
          ∀ l, r = Res.ok l → l.version = w.version ∧ l.path = w.path) ∧
      (world1.quiet 2 → ∃ l, (wal.Open w.path world1).1 = Res.ok l ∧ l.version = w.version) := by
  obtain ⟨hpath, hver, -, -, hbase⟩ := wal.ParseVersion_Base_Create hc
  refine ⟨?_, ?_, hbase, ?_, ?_⟩
  · have h := @wal.ParseVersion_fileName ts ns hts hns
    unfold wal.fileName at h
    simpa using h
  · rw [hver]
    simp [wal.versionAt]
  · intro world2 world3 r ho
    exact wal.Open_version hbase ho
  · intro hq
    have hof : ∃ h, os.OpenFile w.path true world = (Res.ok h, world1) := by
      unfold wal.Create at hc
      simp only at hc
      rw [hpath]
      rcases ho : os.OpenFile (path.Join dir (wal.fileName (wal.versionAt t))) true world
        with ⟨r, wa⟩
      rw [ho] at hc
      cases r with
      | ok file =>
        simp only [Prod.mk.injEq, Res.ok.injEq] at hc
        exact ⟨file, by rw [hc.2]⟩
      | err e => simp at hc
      | panic q => simp at hc
    obtain ⟨h, hof⟩ := hof
    obtain ⟨hl, f, hf, hd⟩ := os.OpenFile_create_ok hof
    exact ⟨_, wal.Open_quiet hq hl hf hd hbase, rfl⟩

theorem wal.ParseVersion_inverts_Create_witness :
    wal.ParseVersion "wal-20240101000000-5.log".toList = Res.ok "20240101000000-5".toList ∧
      wal.ParseVersion (path.Base sample.walA.path) = Res.ok sample.walA.version ∧
      ∃ l, (wal.Open sample.walA.path
          (wal.Create "D".toList sample.t1 sample.emptyWorld).2).1 = Res.ok l ∧
        l.version = sample.walA.version :=
  have h := wal.ParseVersion_inverts_Create "20240101000000".toList "5".toList (by decide)
    (by decide) "D".toList sample.t1 sample.emptyWorld
    (wal.Create "D".toList sample.t1 sample.emptyWorld).2 sample.walA rfl
  ⟨h.1, h.2.2.1, h.2.2.2.2 (by decide)⟩

/-! ## The skip list draft: `Set` never links a node, `All`, `RandomLevel` -/


theorem SkipList.Set.descend_step {heap : List Element} {key : GoString} {n : Nat}
    {current : Option Nat} {update : List (Option Nat)} {r : Option Nat × List (Option Nat)}
    (h : SkipList.Set.descend heap key (n + 1) current update = Res.ok r) :
    n < update.length ∧
      ∃ c1, SkipList.Set.descend heap key n c1 (update.set n c1) = Res.ok r := by
  unfold SkipList.Set.descend at h
  by_cases hlt : n < update.length
  · refine ⟨hlt, ?_⟩
    simp only [hlt, if_true] at h
    split at h
    · split at h
      · split at h
        · exact ⟨_, h⟩
        · split at h
          · exact ⟨_, h⟩
          · cases h
          · cases h
      · cases h
      · cases h
    · cases h
    · cases h
  · simp only [hlt, if_false] at h
    split at h
    · split at h
      · split at h
        · cases h
        · split at h <;> cases h
      · cases h
      · cases h
    · cases h
    · cases h

theorem SkipList.Set.descend_ok (heap : List Element) (key : GoString) :
    ∀ (n : Nat) (current : Option Nat) (update : List (Option Nat))
      (r : Option Nat × List (Option Nat)),
      SkipList.Set.descend heap key n current update = Res.ok r →
        r.2.length = update.length ∧ n ≤ update.length := by
  intro n
  induction n with
  | zero =>
    intro current update r h
    simp only [SkipList.Set.descend, Res.ok.injEq] at h
    subst h
    exact ⟨rfl, Nat.zero_le _⟩
  | succ n ih =>
    intro current update r h
    obtain ⟨hlt, c1, h1⟩ := SkipList.Set.descend_step h
    obtain ⟨h2, -⟩ := ih _ _ _ h1
    rw [List.length_set] at h2
    exact ⟨h2, hlt⟩

theorem SkipList.deref_ok {heap : List Element} {ptr : Option Nat} {x : Element}
    (h : SkipList.deref heap ptr = Res.ok x) : ∃ a, ptr = some a ∧ heap[a]? = some x := by
  unfold SkipList.deref at h
  split at h
  · cases h
  · rename_i a
    split at h
    · rename_i y hy
      cases h
      exact ⟨a, rfl, hy⟩
    · cases h

theorem SkipList.deref_ne_err (heap : List Element) (ptr : Option Nat) (x : Error) :
    SkipList.deref heap ptr ≠ Res.err x := by
  unfold SkipList.deref
  repeat' split
  all_goals simp

theorem SkipList.index_ok {α : Type} {l : List α} {i : Nat} {a : α}
    (h : SkipList.index l i = Res.ok a) : l[i]? = some a := by
  unfold SkipList.index at h
  split at h
  · rename_i y hy
    cases h
    exact hy
  · cases h

theorem SkipList.index_ne_err {α : Type} (l : List α) (i : Nat) (x : Error) :
    SkipList.index l i ≠ Res.err x := by
  unfold SkipList.index
  split <;> simp

theorem SkipList.Set.descend_ne_err (heap : List Element) (key : GoString) (x : Error) :
    ∀ (n : Nat) (current : Option Nat) (update : List (Option Nat)),
      SkipList.Set.descend heap key n current update ≠ Res.err x := by
  intro n
  induction n with
  | zero =>
    intro current update
    simp [SkipList.Set.descend]
  | succ n ih =>
    intro current update h
    unfold SkipList.Set.descend at h
    split at h
    · split at h
      · split at h
        · split at h
          · exact ih _ _ h
          · cases h
        · split at h
          · simp only at h
            split at h
            · exact ih _ _ h
            · cases h
          · rename_i hx
            exact SkipList.deref_ne_err _ _ _ hx
          · cases h
      · rename_i hx
        exact SkipList.index_ne_err _ _ _ hx
      · cases h
    · rename_i hx
      exact SkipList.deref_ne_err _ _ _ hx
    · cases h

/-- Whatever the list and the entry, `Set` of the draft never links a node: it panics, or
it is the update case, which overwrites the value and the tombstone of a node that some
`next[0]` points to and whose key equals that of the entry.  The create case always ends in
the index out of range of its splice loop, or of the loop that raises the level. -/
theorem SkipList.Set_cases (s : SkipList) (e : Entry) :
    (∃ q, s.Set e = Res.panic q) ∨
      ∃ (b a : Nat) (y x : Element), s.heap[b]? = some y ∧ y.next[0]? = some (some a) ∧
        s.heap[a]? = some x ∧ compareKey x.entry.key e.key = 0 ∧
        s.Set e = Res.ok { s with
          size := s.size + ((e.value.length : Int) - x.entry.value.length),
          heap := s.heap.modify (fun z => { z with entry :=
            { z.entry with value := e.value, tombstone := e.tombstone } }) a } := by
  have create : ∀ (update1 : List (Option Nat)), update1.length = s.maxLevel →
      s.level < s.maxLevel → ∃ q,
      (match s.RandomLevel with
        | (level, rand1) =>
          match (if level > s.level then
              SkipList.Set.raise s.head (level - s.level) s.level update1
            else Res.ok update1) with
          | Res.ok update2 =>
            match SkipList.Set.splice s.heap.length (s.maxLevel + 1) update2
                (s.heap ++ [⟨⟨e.key, e.value, e.tombstone⟩, List.replicate level none⟩]) with
            | Res.ok heap2 =>
              Res.ok { s with
                level := if level > s.level then level else s.level, rand := rand1,
                heap := heap2,
                size := s.size + (e.key.length + e.value.length + 1 + 8 + level * 8) }
            | Res.err x => Res.err x
            | Res.panic q => Res.panic q
          | Res.err x => Res.err x
          | Res.panic q => Res.panic q : Res SkipList) = Res.panic q := by
    intro update1 hlen hlev
    rcases s.RandomLevel with ⟨level, rand1⟩
    simp only
    by_cases hgt : level > s.level
    · simp only [hgt, if_true]
      rcases SkipList.Set.raise_spec s.head (level - s.level) s.level update1 (by omega)
        with hr | ⟨u2, hr, hl2⟩
      · rw [hr]
        exact ⟨_, rfl⟩
      · rw [hr]
        simp only
        have := SkipList.Set.splice_top s.heap.length u2
          (s.heap ++ [⟨⟨e.key, e.value, e.tombstone⟩, List.replicate level none⟩])
        rw [hl2, hlen] at this
        rw [this]
        exact ⟨_, rfl⟩
    · simp only [hgt, if_false]
      have := SkipList.Set.splice_top s.heap.length update1
        (s.heap ++ [⟨⟨e.key, e.value, e.tombstone⟩, List.replicate level none⟩])
      rw [hlen] at this
      rw [this]
      exact ⟨_, rfl⟩
  unfold SkipList.Set
  simp only
  rcases hd : SkipList.Set.descend s.heap e.key (s.level + 1) s.head
      (List.replicate s.maxLevel none) with ⟨current, update1⟩ | x | q
  · obtain ⟨hlen, hlev⟩ := SkipList.Set.descend_ok _ _ _ _ _ _ hd
    simp only [List.length_replicate] at hlen hlev
    simp only
    rcases hc : SkipList.deref s.heap current with cur | x | q
    · simp only
      obtain ⟨b, -, hb⟩ := SkipList.deref_ok hc
      rcases hn : SkipList.index cur.next 0 with nxt | x | q
      · simp only
        have hn0 := SkipList.index_ok hn
        cases nxt with
        | none =>
          simp only
          obtain ⟨q, hq⟩ := create update1 hlen (by omega)
          exact Or.inl ⟨q, hq⟩
        | some a =>
          simp only
          rcases ha : SkipList.deref s.heap (some a) with x | x | q
          · simp only
            obtain ⟨a1, ha1, hx⟩ := SkipList.deref_ok ha
            cases ha1
            by_cases hk : compareKey x.entry.key e.key = 0
            · simp only [hk, if_true]
              exact Or.inr ⟨b, a, cur, x, hb, hn0, hx, hk, rfl⟩
            · simp only [hk, if_false]
              obtain ⟨q, hq⟩ := create update1 hlen (by omega)
              exact Or.inl ⟨q, hq⟩
          · exact absurd ha (SkipList.deref_ne_err _ _ _)
          · exact Or.inl ⟨q, rfl⟩
      · exact absurd hn (SkipList.index_ne_err _ _ _)
      · exact Or.inl ⟨q, rfl⟩
    · exact absurd hc (SkipList.deref_ne_err _ _ _)
    · exact Or.inl ⟨q, rfl⟩
  · exact absurd hd (SkipList.Set.descend_ne_err _ _ _ _ _ _)
  · exact Or.inl ⟨q, rfl⟩

/-- The update case of `Set` leaves what `f` reads of each element, when `f` does not read
the value or the tombstone. -/
theorem SkipList.map_modify_entry {β : Type} (f : Element → β) (g : Element → Element)
    (hg : ∀ z, f (g z) = f z) (heap : List Element) (a : Nat) :
    (heap.modify g a).map f = heap.map f := by
  apply List.ext_getElem?
  intro i
  simp only [List.getElem?_map, List.getElem?_modify]
  cases heap[i]? with
  | none => simp
  | some z =>
    by_cases hi : a = i
    · simp [hi, hg z]
    · simp [hi]

/-- Whatever the list and the entry, `Set` of the draft either panics or returns a list with
the same head, the same `level`, the same number of elements, and in each element the same
key and the same forward pointers as before: no call of `Set` ever puts a node on a chain. -/
theorem SkipList.Set_never_links (s : SkipList) (e : Entry) :
    (∃ q, s.Set e = Res.panic q) ∨
      ∃ s1, s.Set e = Res.ok s1 ∧ s1.head = s.head ∧ s1.level = s.level ∧
        s1.maxLevel = s.maxLevel ∧ s1.heap.length = s.heap.length ∧
        s1.heap.map (fun z => z.next) = s.heap.map (fun z => z.next) ∧
        s1.heap.map (fun z => z.entry.key) = s.heap.map (fun z => z.entry.key) := by
  rcases SkipList.Set_cases s e with ⟨q, hq⟩ | ⟨b, a, y, x, -, -, -, -, hs⟩
  · exact Or.inl ⟨q, hq⟩
  · refine Or.inr ⟨_, hs, rfl, rfl, rfl, ?_, ?_, ?_⟩
    · simp
    · exact SkipList.map_modify_entry (fun z => z.next)
        (fun z => { z with entry :=
          { z.entry with value := e.value, tombstone := e.tombstone } })
        (fun _ => rfl) s.heap a
    · exact SkipList.map_modify_entry (fun z => z.entry.key)
        (fun z => { z with entry :=
          { z.entry with value := e.value, tombstone := e.tombstone } })
        (fun _ => rfl) s.heap a

/-- Starting from an empty list of the draft, for every `maxLevel`, `p`, random source and
value of `level`, a run of one or more `Set` calls that stops at the first panic ends in the
panic of its first call: the create case always overruns `update` (see
`SkipList.Set_cases`).  With `maxLevel = 4` the calls `Set(a)`, `Set(b)` end in the index
out of range [4] with length 4. -/
theorem SkipList.setAll_empty_panics (maxLevel level : Nat) (p : Float64)
    (rand : List Float64) (e : Entry) (es : List Entry) :
    (∃ q, SkipList.setAll (SkipList.empty maxLevel p rand level) (e :: es) = Res.panic q) ∧
      SkipList.setAll (SkipList.empty 4 ⟨1, 2⟩ [] 0)
          [⟨"a".toList, [1], false⟩, ⟨"b".toList, [2], false⟩] =
        Res.panic (Panic.indexOutOfRange 4 4) := by
  refine ⟨?_, by decide⟩
  rcases SkipList.Set_cases (SkipList.empty maxLevel p rand level) e with
    ⟨q, hq⟩ | ⟨b, a, y, x, hb, hy, -, -, -⟩
  · exact ⟨q, by simp [SkipList.setAll, hq]⟩
  · exfalso
    simp only [SkipList.empty] at hb
    cases b with
    | zero =>
      simp only [List.getElem?_cons_zero, Option.some.injEq] at hb
      subst hb
      simp only [List.getElem?_replicate] at hy
      split at hy <;> simp at hy
    | succ b => simp at hb

/-- C13 (the failing input). In the list with the keys `a`, `b`, `c` on its level-0 chain,
`Set` of an entry with the key `c`, which the list holds, does not overwrite: the descent
moves one node per level (an `if`, not a loop), stops at `a`, misses `c`, and `Set` goes on
to the create case, which panics.  That is so whether `level` is 1 or 0.  The key `b`, one
step from the head's successor, is found and updated: value and tombstone are overwritten,
`size` changes by the difference of the value lengths, pointers and keys stay. -/
theorem SkipList.Set_existing_key_panics :
    (sample.abc 1).Set ⟨"c".toList, [9, 9], true⟩ = Res.panic (Panic.indexOutOfRange 4 4) ∧
    (sample.abc 0).Set ⟨"c".toList, [9, 9], true⟩ = Res.panic (Panic.indexOutOfRange 4 4) ∧
    (sample.abc 1).Set ⟨"b".toList, [9, 9], true⟩ = Res.ok
      ⟨4, ⟨1, 2⟩, 1, [], 58, some 0,
        [⟨⟨[], [], false⟩, [some 1, none, none, none]⟩,
         ⟨⟨"a".toList, [1], false⟩, [some 2]⟩,
         ⟨⟨"b".toList, [9, 9], true⟩, [some 3]⟩,
         ⟨⟨"c".toList, [3], false⟩, [none]⟩]⟩ :=
  ⟨by decide, by decide, by decide⟩

/-- C14 (the failing input). On the empty list, with `maxLevel` at least 1, `All` of the
draft panics with a nil dereference: it starts at `s.head.next[0]`, which is nil, and tests
`current.next[0]`.  On a list with entries it stops at the last node without appending it:
with the one key `a` it returns no entry, with the keys `a`, `b`, `c` it returns those of
`a` and `b`. -/
theorem SkipList.All_empty_panics (maxLevel level : Nat) (p : Float64) (rand : List Float64)
    (h : 1 ≤ maxLevel) :
    (SkipList.empty maxLevel p rand level).All = some (Res.panic Panic.nilDereference) ∧
    (sample.one 1).All = some (Res.ok []) ∧
    (sample.abc 1).All =
      some (Res.ok [⟨"a".toList, [1], false⟩, ⟨"b".toList, [2], false⟩]) := by
  refine ⟨?_, by decide, by decide⟩
  obtain ⟨m, rfl⟩ : ∃ m, maxLevel = m + 1 := ⟨maxLevel - 1, by omega⟩
  simp [SkipList.All, SkipList.empty, SkipList.deref, SkipList.index, List.replicate_succ,
    SkipList.All.loop]

theorem SkipList.All_empty_panics_witness :
    (SkipList.empty 4 ⟨1, 2⟩ [] 0).All = some (Res.panic Panic.nilDereference) :=
  (SkipList.All_empty_panics 4 0 ⟨1, 2⟩ [] (by decide)).1


theorem SkipList.RandomLevel.loop_bounds (maxLevel : Nat) (p : Float64) :
    ∀ (rand : List Float64) (level : Nat), level ≤ maxLevel + 1 →
      level ≤ (SkipList.RandomLevel.loop maxLevel p rand level).1 ∧
        (SkipList.RandomLevel.loop maxLevel p rand level).1 ≤ maxLevel + 1 := by
  intro rand
  induction rand with
  | nil =>
    intro level h
    exact ⟨Nat.le_refl _, h⟩
  | cons r rest ih =>
    intro level h
    unfold SkipList.RandomLevel.loop
    split
    · rename_i hc
      simp only [Bool.and_eq_true, decide_eq_true_eq] at hc
      obtain ⟨h1, h2⟩ := ih (level + 1) (by omega)
      exact ⟨by omega, h2⟩
    · exact ⟨Nat.le_refl _, h⟩

theorem SkipList.RandomLevel.loop_low (maxLevel : Nat) (p : Float64) (r : Float64)
    (hr : r.lt p = true) :
    ∀ (n level : Nat), level + n = maxLevel + 1 →
      (SkipList.RandomLevel.loop maxLevel p (List.replicate (n + 1) r) level).1 =
        maxLevel + 1 := by
  intro n
  induction n with
  | zero =>
    intro level h
    have : ¬ level ≤ maxLevel := by omega
    simp [SkipList.RandomLevel.loop, this]
    omega
  | succ n ih =>
    intro level h
    have h1 : level ≤ maxLevel := by omega
    rw [List.replicate_succ]
    unfold SkipList.RandomLevel.loop
    simp only [hr, h1, decide_True, Bool.and_self, if_true]
    exact ih (level + 1) (by omega)

/-- C18 (the failing input). `RandomLevel` of the draft can return `maxLevel + 1`: its loop
goes on while `level <= maxLevel`, one round too many.  For every `maxLevel`, every `p` and
every value `r` below `p` (0 is one for each `p` in (0,1)), a source that returns `r` each
time makes `RandomLevel` return `maxLevel + 1`.  In general the level returned lies between
1 and `maxLevel + 1`. -/
theorem SkipList.RandomLevel_exceeds_maxLevel (s : SkipList) (r : Float64)
    (hr : r.lt s.p = true) :
    ({ s with rand := List.replicate (s.maxLevel + 1) r }).RandomLevel.1 = s.maxLevel + 1 ∧
      1 ≤ s.RandomLevel.1 ∧ s.RandomLevel.1 ≤ s.maxLevel + 1 := by
  refine ⟨?_, ?_⟩
  · exact SkipList.RandomLevel.loop_low s.maxLevel s.p r hr s.maxLevel 1 (by omega)
  · exact SkipList.RandomLevel.loop_bounds s.maxLevel s.p s.rand 1 (by omega)

theorem SkipList.RandomLevel_exceeds_maxLevel_witness :
    (SkipList.empty 4 ⟨1, 2⟩ (List.replicate 5 ⟨0, 1⟩) 0).RandomLevel.1 = 5 :=
  (SkipList.RandomLevel_exceeds_maxLevel (SkipList.empty 4 ⟨1, 2⟩ [] 0) ⟨0, 1⟩ (by decide)).1

/-! ## `Read` on a torn tail -/

namespace wal

/-- The loop of `Read` on a torn record alone: fewer than the eight length bytes, or a
length that `make` can allocate and fewer body bytes than it announces. -/
theorem WAL.Read.loop_tail (c : Codec) (memory : Nat) (tail : List Byte)
    (htail : (tail ≠ [] ∧ tail.length < 8) ∨ ∃ (n : Nat) (part : List Byte),
      tail = binary.putInt64 n ++ part ∧ part.length < n ∧
        n ≤ runtime.maxAlloc ∧ n ≤ memory)
    (entries : List types.Entry) (fuel : Nat) :
    tail ≠ [] ∧ ∃ e, WAL.Read.loop c memory (fuel + 1) tail entries = some (Res.err e) := by
  rcases htail with ⟨hne, h8⟩ | ⟨n, part, rfl, hpart, hmax, hmem⟩
  · refine ⟨hne, ?_⟩
    rw [WAL.Read.loop_cons c memory fuel tail entries hne]
    exact ⟨_, by rw [if_pos h8]⟩
  · have hne : binary.putInt64 (n : Int) ++ part ≠ [] := by
      intro h
      have := congrArg List.length h
      simp [binary.putInt64_length] at this
    refine ⟨hne, ?_⟩
    rw [WAL.Read.loop_cons c memory fuel _ entries hne]
    have hlen : ¬ (binary.putInt64 (n : Int) ++ part).length < 8 := by
      simp [binary.putInt64_length]
    have htake : (binary.putInt64 (n : Int) ++ part).take 8 = binary.putInt64 (n : Int) :=
      List.take_left' (binary.putInt64_length _)
    have hdrop : (binary.putInt64 (n : Int) ++ part).drop 8 = part :=
      List.drop_left' (binary.putInt64_length _)
    rw [if_neg hlen, htake, hdrop, binary.getInt64_putInt64 n (length_lt_of_le_maxAlloc hmax)]
    have h1 : ¬ ((n : Int) < 0 ∨ (runtime.maxAlloc : Int) < (n : Int)) := by omega
    have h2 : ¬ (memory < ((n : Int)).toNat) := by
      simp only [Int.toNat_ofNat]
      omega
    have h3 : part.length < ((n : Int)).toNat := by
      simp only [Int.toNat_ofNat]
      exact hpart
    rw [if_neg h1, if_neg h2, if_pos h3]
    exact ⟨_, rfl⟩

/-- The loop of `Read` on complete records followed by a torn one ends with an error. -/
theorem WAL.Read.loop_torn (c : Codec) (memory : Nat) (tail : List Byte)
    (htail : (tail ≠ [] ∧ tail.length < 8) ∨ ∃ (n : Nat) (part : List Byte),
      tail = binary.putInt64 n ++ part ∧ part.length < n ∧
        n ≤ runtime.maxAlloc ∧ n ≤ memory) :
    ∀ (bodies : List (List Byte)),
      (∀ b ∈ bodies, b.length ≤ runtime.maxAlloc ∧ b.length ≤ memory ∧
        ∀ q, c.TUnmarshal b ≠ Res.panic q) →
      ∀ (entries : List types.Entry) (fuel : Nat), (records bodies ++ tail).length ≤ fuel →
        ∃ e, WAL.Read.loop c memory fuel (records bodies ++ tail) entries =
          some (Res.err e) := by
  intro bodies
  induction bodies with
  | nil =>
    intro _ entries fuel hfuel
    obtain ⟨hne, -⟩ := WAL.Read.loop_tail c memory tail htail entries 0
    have hpos : 0 < tail.length := List.length_pos.mpr hne
    simp only [records, List.map_nil, List.flatten_nil, List.nil_append] at hfuel ⊢
    obtain ⟨fuel, rfl⟩ : ∃ k, fuel = k + 1 := ⟨fuel - 1, by omega⟩
    exact (WAL.Read.loop_tail c memory tail htail entries fuel).2
  | cons b bs ih =>
    intro hb entries fuel hfuel
    obtain ⟨hb1, hb2, hb3⟩ := hb b (List.mem_cons_self _ _)
    have hbs : ∀ x ∈ bs, x.length ≤ runtime.maxAlloc ∧ x.length ≤ memory ∧
        ∀ q, c.TUnmarshal x ≠ Res.panic q :=
      fun x hx => hb x (List.mem_cons_of_mem _ hx)
    rw [records_cons, List.append_assoc] at hfuel ⊢
    rw [List.length_append, record_length] at hfuel
    obtain ⟨fuel, rfl⟩ : ∃ k, fuel = k + 1 := ⟨fuel - 1, by omega⟩
    have hne1 : record b ++ (records bs ++ tail) ≠ [] := by
      intro h
      have := congrArg List.length h
      rw [List.length_append, record_length] at this
      simp at this
    rw [WAL.Read.loop_cons c memory fuel _ entries hne1]
    have hlen : ¬ (record b ++ (records bs ++ tail)).length < 8 := by
      rw [List.length_append, record_length]
      omega
    rw [if_neg hlen]
    have hform : record b ++ (records bs ++ tail) =
        binary.putInt64 (b.length : Int) ++ (b ++ (records bs ++ tail)) := by
      simp [record]
    have htake : (record b ++ (records bs ++ tail)).take 8 = binary.putInt64 b.length := by
      rw [hform]
      exact List.take_left' (binary.putInt64_length _)
    have hdrop : (record b ++ (records bs ++ tail)).drop 8 = b ++ (records bs ++ tail) := by
      rw [hform]
      exact List.drop_left' (binary.putInt64_length _)
    rw [htake, hdrop, binary.getInt64_putInt64 _ (length_lt_of_le_maxAlloc hb1)]
    have h1 : ¬ ((b.length : Int) < 0 ∨ (runtime.maxAlloc : Int) < (b.length : Int)) := by
      omega
    have h2 : ¬ (memory < ((b.length : Int)).toNat) := by
      simp only [Int.toNat_ofNat]
      omega
    have hshort : ¬ (b ++ (records bs ++ tail)).length < ((b.length : Int)).toNat := by
      simp only [List.length_append, Int.toNat_ofNat]
      omega
    rw [if_neg h1, if_neg h2, if_neg hshort]
    simp only [Int.toNat_ofNat, List.take_left', List.drop_left']
    rcases hu : c.TUnmarshal b with entry | e | q
    · simp only
      exact ih hbs _ fuel (by omega)
    · exact ⟨e, rfl⟩
    · exact absurd hu (hb3 q)

end wal

/-- C15 (as amended): torn tail records are rejected when `make` can allocate the length
they announce.  The file of the WAL `w` holds zero or more complete records (bodies within
the allocation limit of the run time and the memory of the machine, on which the codec does
not panic) and then `tail`, a non-empty proper initial part of one more record: fewer than
the 8 length bytes, or a length `n` and fewer than `n` body bytes, with `n` at most
`runtime.maxAlloc` and the memory of the machine.  Then `Read` returns an error and no
entries, whatever the environment does to its system calls, and leaves the files as they
are. -/
theorem wal.WAL.Read_torn_tail (c : Codec) (w : wal.WAL) (fd : Nat) (world : World)
    (bodies : List (List Byte)) (tail : List Byte)
    (hfd : w.fd = some fd) (hl : world.lookup w.path = some fd)
    (hbodies : ∀ b ∈ bodies, b.length ≤ runtime.maxAlloc ∧ b.length ≤ world.memory ∧
      ∀ q, c.TUnmarshal b ≠ Res.panic q)
    (htail : (tail ≠ [] ∧ tail.length < 8) ∨ ∃ (n : Nat) (part : List Byte),
      tail = binary.putInt64 n ++ part ∧ part.length < n ∧
        n ≤ runtime.maxAlloc ∧ n ≤ world.memory)
    (hdata : world.dataOf fd = wal.records bodies ++ tail) :
    (∃ e, (w.Read c world).1 = Res.err e) ∧ (w.Read c world).2.files = world.files := by
  obtain ⟨hne, -⟩ := wal.WAL.Read.loop_tail c world.memory tail htail [] 0
  have hpos : 0 < tail.length := List.length_pos.mpr hne
  unfold wal.WAL.Read
  rw [hfd]
  simp only
  rcases hs : os.Stat w.path world with ⟨rs, ws⟩
  obtain ⟨hsf, hsr⟩ := os.Stat_spec hs
  have hsm : ws.memory = world.memory := by
    have := os.Stat_memory w.path world
    rw [hs] at this
    exact this
  rcases hsr with ⟨j, hj, rfl⟩ | ⟨e, rfl⟩
  · rw [hl] at hj
    cases hj
    have hsize : ¬ (world.dataOf fd).length = 0 := by
      rw [hdata, List.length_append]
      omega
    simp only [hsize, if_false]
    rcases hk : os.Seek ws with ⟨rk, wk⟩
    obtain ⟨hkf, hkr⟩ := os.Seek_spec hk
    have hkm : wk.memory = ws.memory := by
      have := os.Seek_memory ws
      rw [hk] at this
      exact this
    rcases hkr with rfl | ⟨e, rfl⟩
    · simp only
      rcases hr : os.ReadAll fd wk with ⟨rr, wr⟩
      obtain ⟨hrf, hrr⟩ := os.ReadAll_spec hr
      have hrm : wr.memory = wk.memory := by
        have := os.ReadAll_memory fd wk
        rw [hr] at this
        exact this
      rcases hrr with rfl | ⟨e, rfl⟩
      · simp only
        have hbytes : wk.dataOf fd = wal.records bodies ++ tail := by
          rw [os.dataOf_files hkf, os.dataOf_files hsf, hdata]
        rw [hbytes, hrm, hkm, hsm]
        obtain ⟨e, he⟩ := wal.WAL.Read.loop_torn c world.memory tail htail bodies hbodies []
          (wal.records bodies ++ tail).length (Nat.le_refl _)
        rw [he]
        exact ⟨⟨e, rfl⟩, by rw [hrf, hkf, hsf]⟩
      · exact ⟨⟨e, rfl⟩, by rw [hrf, hkf, hsf]⟩
    · exact ⟨⟨e, rfl⟩, by rw [hkf, hsf]⟩
  · exact ⟨⟨e, rfl⟩, hsf⟩

theorem wal.WAL.Read_torn_tail_witness :
    ((∃ e, (sample.walA.Read sample.codec sample.worldTorn).1 = Res.err e) ∧
      (sample.walA.Read sample.codec sample.worldTorn).2.files = sample.worldTorn.files) ∧
    ((∃ e, (sample.walA.Read sample.codec sample.worldTornBody).1 = Res.err e) ∧
      (sample.walA.Read sample.codec sample.worldTornBody).2.files =
        sample.worldTornBody.files) :=
  have hu : sample.codec.TUnmarshal
      [0, 10, 0, 0, 0, 0, 0, 0, 0, 1, 0, 0, 0, 0, 0, 0, 0, 97, 1, 2] = Res.ok sample.e1 := by
    decide
  ⟨wal.WAL.Read_torn_tail sample.codec sample.walA 0 sample.worldTorn
      [[0, 10, 0, 0, 0, 0, 0, 0, 0, 1, 0, 0, 0, 0, 0, 0, 0, 97, 1, 2]] [20, 0, 0]
      rfl (by decide)
      (by
        intro b hb
        simp only [List.mem_singleton] at hb
        subst hb
        exact ⟨by decide, by decide, fun q h => Res.noConfusion (hu.symm.trans h)⟩)
      (Or.inl ⟨by decide, by decide⟩) (by decide),
    wal.WAL.Read_torn_tail sample.codec sample.walA 0 sample.worldTornBody
      [[0, 10, 0, 0, 0, 0, 0, 0, 0, 1, 0, 0, 0, 0, 0, 0, 0, 97, 1, 2]]
      [20, 0, 0, 0, 0, 0, 0, 0, 0, 10]
      rfl (by decide)
      (by
        intro b hb
        simp only [List.mem_singleton] at hb
        subst hb
        exact ⟨by decide, by decide, fun q h => Res.noConfusion (hu.symm.trans h)⟩)
      (Or.inr ⟨20, [0, 10], by decide, by decide, by decide, by decide⟩) (by decide)⟩

/-- C15 (counterexample to the claim as stated). The file holds no complete record and
then eleven bytes: the length `2^62` and three body bytes, a proper initial part of a
record.  `Read` does not return an error: `make([]byte, n)` panics, the length being above
the allocation limit of the run time.  With the length `2^40`, within that limit, on a
machine that gives a gigabyte to one allocation, the run time ends the program for lack of
memory. -/
theorem wal.WAL.Read_torn_tail_panics :
    sample.worldHuge.lookup sample.walA.path = sample.walA.fd ∧
      sample.worldHuge.dataOf 0 = binary.putInt64 (2 ^ 62) ++ [1, 2, 3] ∧
      (sample.walA.Read sample.codec sample.worldHuge).1 =
        Res.panic (Panic.makeSliceLen (2 ^ 62)) ∧
      sample.worldLarge.lookup sample.walA.path = sample.walA.fd ∧
      sample.worldLarge.dataOf 0 = binary.putInt64 (2 ^ 40) ++ [1, 2, 3] ∧
      sample.worldLarge.memory = 2 ^ 30 ∧
      (sample.walA.Read sample.codec sample.worldLarge).1 = Res.panic Panic.outOfMemory :=
  ⟨by decide, by decide, by decide, by decide, by decide, by decide, by decide⟩

/-! ## A closed WAL -/


namespace wal

theorem WAL.Close_ok {w w1 : WAL} {world world1 : World}
    (hc : w.Close world = (Res.ok (), w1, world1)) :
    w1 = { w with fd := none } ∧ world1.files = world.files := by
  unfold WAL.Close WAL.close at hc
  rcases hfd : w.fd with _ | fd
  · rw [hfd] at hc
    simp only [Prod.mk.injEq, true_and] at hc
    obtain ⟨rfl, rfl⟩ := hc
    refine ⟨?_, rfl⟩
    cases w
    simp only at hfd
    subst hfd
    rfl
  · rw [hfd] at hc
    simp only at hc
    rcases hk : os.Close world with ⟨rk, wk⟩
    obtain ⟨hkf, -⟩ := os.Close_spec hk
    rw [hk] at hc
    cases rk with
    | ok u =>
      simp only [Prod.mk.injEq, true_and] at hc
      obtain ⟨rfl, rfl⟩ := hc
      exact ⟨rfl, hkf⟩
    | err e => simp at hc
    | panic q => simp at hc

end wal

/-- C16: operations after close report the nil-handle error.  Once `Close` has returned nil
on a WAL, `Write` with any batch (the empty one too) and `Read` each return `errNilFD`; they
make no system call, so the files, and with them the content of the WAL's file, are as
before; and they assign no field of the WAL (the `Close` has set `fd` to nil and left `dir`,
`path` and `version`). -/
theorem wal.WAL.closed_reports_errNilFD (c : Codec) (w w1 : wal.WAL) (world world1 : World)
    (hc : w.Close world = (Res.ok (), w1, world1)) (entries : List types.Entry)
    (world2 : World) :
    w1.Write c entries world2 = (Res.err wal.errNilFD, world2) ∧
      w1.Read c world2 = (Res.err wal.errNilFD, world2) ∧
      w1 = ⟨none, w.dir, w.path, w.version⟩ := by
  obtain ⟨rfl, -⟩ := wal.WAL.Close_ok hc
  exact ⟨rfl, rfl, rfl⟩

theorem wal.WAL.closed_reports_errNilFD_witness :
    (sample.walA.Close sample.worldA).2.1.Write sample.codec [] sample.worldA =
        (Res.err wal.errNilFD, sample.worldA) ∧
      (sample.walA.Close sample.worldA).2.1.Read sample.codec sample.worldA =
        (Res.err wal.errNilFD, sample.worldA) ∧
      (sample.walA.Close sample.worldA).2.1 =
        ⟨none, sample.walA.dir, sample.walA.path, sample.walA.version⟩ :=
  wal.WAL.closed_reports_errNilFD sample.codec sample.walA
    (sample.walA.Close sample.worldA).2.1 sample.worldA (sample.walA.Close sample.worldA).2.2
    rfl [] sample.worldA

/-- C17: `Close` is idempotent.  Once `Close` has returned nil on a WAL, every further
`Close` returns nil, makes no system call (the files are as before) and leaves the WAL as the
first `Close` left it: `fd` nil, `dir`, `path` and `version` those of the WAL before.  So a
second `Close` right after the first changes nothing. -/
theorem wal.WAL.Close_idempotent (w w1 : wal.WAL) (world world1 : World)
    (hc : w.Close world = (Res.ok (), w1, world1)) (world2 : World) :
    w1.Close world2 = (Res.ok (), w1, world2) ∧
      w1.fd = none ∧ w1.dir = w.dir ∧ w1.path = w.path ∧ w1.version = w.version ∧
      w1.Close world1 = (Res.ok (), w1, world1) := by
  obtain ⟨rfl, -⟩ := wal.WAL.Close_ok hc
  exact ⟨rfl, rfl, rfl, rfl, rfl, rfl⟩

theorem wal.WAL.Close_idempotent_witness :
    (sample.walA.Close sample.worldA).2.1.Close (sample.walA.Close sample.worldA).2.2 =
      (Res.ok (), (sample.walA.Close sample.worldA).2.1,
        (sample.walA.Close sample.worldA).2.2) :=
  (wal.WAL.Close_idempotent sample.walA (sample.walA.Close sample.worldA).2.1 sample.worldA
    (sample.walA.Close sample.worldA).2.2 rfl sample.worldA).2.2.2.2.2

/-! ## `reset` -/

namespace wal

theorem Create_ok {dir : GoString} {t : time.Time} {world world1 : World} {w : WAL}
    (hc : Create dir t world = (Res.ok w, world1)) :
    ∃ h, w = ⟨some h, dir, path.Join dir (fileName (versionAt t)), versionAt t⟩ ∧
      world1.lookup w.path = some h ∧ ∃ f, world1.files[h]? = some f ∧ f.isDir = false := by
  unfold Create at hc
  simp only at hc
  rcases ho : os.OpenFile (path.Join dir (fileName (versionAt t))) true world with ⟨r, wa⟩
  rw [ho] at hc
  cases r with
  | ok file =>
    simp only [Prod.mk.injEq, Res.ok.injEq] at hc
    obtain ⟨rfl, rfl⟩ := hc
    exact ⟨file, rfl, os.OpenFile_create_ok ho⟩
  | err e => simp at hc
  | panic q => simp at hc

end wal

/-- C19 (as amended). `reset` leaves the `readOnly` flag of its receiver as it was, and
closes the receiver's WAL.  So for a memtable on which `freeze` was called before
(`readOnly` true), after `reset` returns the receiver is still frozen: a later `set` on it
is rejected by the read-only check, with the memtable (its skip list too) and the files
untouched.  Whether or not `freeze` was called, the successor that `reset` returns has
`readOnly` false, the same `dir`, and a new WAL in that directory (the directory of the
receiver's WAL, which is `dir` for every memtable made by `newMemtable` or `reset`): open,
named after the clock reading of the `reset`, its file in the directory. -/
theorem memtable.reset_keeps_readOnly (mt succ recv : memtable) (rand : List Float64)
    (t : time.Time) (world world1 : World) (hdir : mt.wal.dir = mt.dir)
    (hr : mt.reset rand t world = (Res.ok succ, recv, world1)) :
    recv.readOnly = mt.readOnly ∧ recv.wal = ⟨none, mt.wal.dir, mt.wal.path, mt.wal.version⟩ ∧
      (mt.readOnly = true → ∀ (c : Codec) (e : types.Entry) (world2 : World),
        recv.set c e world2 = (Res.panic (Panic.logged "write readonly memtable"), recv, world2)) ∧
      succ.readOnly = false ∧ succ.dir = mt.dir ∧ succ.wal.dir = mt.dir ∧
      succ.wal.version = wal.versionAt t ∧
      succ.wal.path = path.Join mt.dir (wal.fileName (wal.versionAt t)) ∧
      ∃ h, succ.wal.fd = some h ∧ world1.lookup succ.wal.path = some h := by
  unfold memtable.reset wal.WAL.Reset at hr
  rcases hcl : mt.wal.close world with ⟨rc, wc, worldc⟩
  rw [hcl] at hr
  cases rc with
  | ok u =>
    obtain ⟨rfl, -⟩ := @wal.WAL.Close_ok mt.wal wc world worldc hcl
    simp only at hr
    rcases hcr : wal.Create mt.wal.dir t worldc with ⟨rr, wr⟩
    rw [hcr] at hr
    cases rr with
    | ok l =>
      simp only [Prod.mk.injEq, Res.ok.injEq] at hr
      obtain ⟨rfl, rfl, rfl⟩ := hr
      obtain ⟨h, hw, hlook, -⟩ := wal.Create_ok hcr
      refine ⟨rfl, rfl, ?_, rfl, rfl, ?_, ?_, ?_, h, ?_, hlook⟩
      · intro hro c e world2
        simp [memtable.set, hro]
      · rw [hw]
        exact hdir
      · rw [hw]
      · rw [hw, hdir]
      · rw [hw]
    | err e => simp at hr
    | panic q => simp at hr
  | err e => simp at hr
  | panic q => simp at hr

theorem memtable.reset_keeps_readOnly_witness :
    (sample.mtFrozen.reset [] sample.t3 sample.worldFrozen).2.1.readOnly = true ∧
      (sample.mtFrozen.reset [] sample.t3 sample.worldFrozen).2.1.set sample.codec sample.e2
          (sample.mtFrozen.reset [] sample.t3 sample.worldFrozen).2.2 =
        (Res.panic (Panic.logged "write readonly memtable"),
          (sample.mtFrozen.reset [] sample.t3 sample.worldFrozen).2.1,
          (sample.mtFrozen.reset [] sample.t3 sample.worldFrozen).2.2) ∧
      ∃ succ, (sample.mtFrozen.reset [] sample.t3 sample.worldFrozen).1 = Res.ok succ ∧
        succ.readOnly = false ∧ succ.dir = "D".toList ∧
        succ.wal.path = "D/wal-20240101000001-10.log".toList :=
  have h := memtable.reset_keeps_readOnly sample.mtFrozen sample.mtB
    (sample.mtFrozen.reset [] sample.t3 sample.worldFrozen).2.1 [] sample.t3
    sample.worldFrozen (sample.mtFrozen.reset [] sample.t3 sample.worldFrozen).2.2 rfl rfl
  ⟨h.1, h.2.2.1 rfl sample.codec sample.e2 _, sample.mtB, rfl, h.2.2.2.1, h.2.2.2.2.1,
    by decide⟩

/-- C19 (counterexample to the claim as stated). `reset` on a memtable that was not frozen:
the receiver comes back with `readOnly` false.  A later `set` on it passes the read-only
check, updates the skip list (`get` then finds the entry) and panics only when the append to
the closed WAL fails. -/
theorem memtable.reset_receiver_not_frozen :
    sample.mtA.readOnly = false ∧
    ∃ succ recv world1 recv1 world2,
      sample.mtA.reset [] sample.t3 sample.worldA = (Res.ok succ, recv, world1) ∧
      recv.readOnly = false ∧
      recv.set sample.codec sample.e2 world1 =
        (Res.panic (Panic.logged "write wal failed: %v"), recv1, world2) ∧
      recv.get sample.e2.Key = (skiplist.noEntry, false) ∧
      recv1.get sample.e2.Key = (sample.e2, true) :=
  ⟨rfl, _, _, _, _, _, rfl, rfl, rfl, by decide, by decide⟩

/-! ## The current WAL is not recovered -/

namespace wal

theorem CompareVersion_versionAt (t : time.Time) :
    CompareVersion (versionAt t) (versionAt t) = Res.ok 0 := by
  obtain ⟨h1, h2, -⟩ := versionAt_pieces t
  unfold CompareVersion versionAt
  rw [strings.Split_append _ h1, strings.Split_of_not_mem h2]
  simp [strings.lt_self]

end wal

theorem recover.isOld_current {version name0 : GoString} (isDir : Bool)
    (hv : wal.ParseVersion name0 = Res.ok version) (r : Bool)
    (h : recover.isOld version ⟨name0, isDir⟩ = Res.ok r) : r = false := by
  cases r with
  | false => rfl
  | true =>
    obtain ⟨-, -, v, n, h3, h4, h5⟩ := recover.isOld_true h
    simp only at h3
    rw [hv] at h3
    cases h3
    have := wal.CompareVersion_self h4
    omega

theorem recover.select_spares {dir version name0 : GoString}
    (hv : wal.ParseVersion name0 = Res.ok version) (files : List os.DirEntry)
    (walFiles : List GoString) (hs : recover.select dir version files [] = Res.ok walFiles) :
    path.Join dir name0 ∉ walFiles := by
  rw [recover.select_ok _ _ _ hs]
  simp only [List.nil_append, List.mem_map, List.mem_filter, not_exists, not_and, and_imp]
  intro f _ hold heq
  have hname : f.Name = name0 := by
    unfold path.Join at heq
    simpa using heq
  have hf : f = ⟨name0, f.IsDir⟩ := by
    cases f
    simp only at hname
    subst hname
    rfl
  rw [hf] at hold
  have := recover.isOld_current f.IsDir hv true (of_decide_eq_true hold)
  cases this

/-- C20: `recover` never consumes the active WAL.  The WAL of the memtable was made by
`Create` in the memtable's directory, at any reading `t` of the clock.  Then the name of
its file parses to its version, `CompareVersion` of that version with itself is 0, and so,
whatever entries the directory lists, the selection of `recover` (sorted or not) does not
hold the path of the current WAL, and that path is no older WAL file.  And when `recover`
runs with the WAL open on the file its path names, in any environment and with any
outcome, that file is still in the directory afterwards, under the same handle, with its
old bytes first: it was not deleted, and not replayed into itself. -/
theorem memtable.recover_spares_current (c : Codec) (mt mt1 : memtable) (t : time.Time)
    (w0 w1 world world1 : World) (r : Res Int) (h : Nat)
    (hc : wal.Create mt.dir t w0 = (Res.ok mt.wal, w1))
    (hu : world.namesUnique) (hfd : mt.wal.fd = some h)
    (hl : world.lookup mt.wal.path = some h)
    (hrec : mt.recover c world = (r, mt1, world1)) :
    wal.ParseVersion (path.Base mt.wal.path) = Res.ok mt.wal.version ∧
      wal.CompareVersion mt.wal.version mt.wal.version = Res.ok 0 ∧
      (∀ (files : List os.DirEntry) (walFiles : List GoString),
        recover.select mt.dir mt.wal.Version files [] = Res.ok walFiles →
          mt.wal.path ∉ walFiles ∧ mt.wal.path ∉ recover.sort walFiles) ∧
      ¬ recover.older mt world mt.wal.path ∧
      world1.lookup mt.wal.path = some h ∧
      ∃ x, world1.dataOf h = world.dataOf h ++ x := by
  obtain ⟨hpath, hver, -, hpv, hbase⟩ := wal.ParseVersion_Base_Create hc
  have hpv1 : wal.ParseVersion (wal.fileName (wal.versionAt t)) = Res.ok mt.wal.version := by
    rw [hver]
    exact hpv
  have hnot : ¬ recover.older mt world mt.wal.path := recover.current_not_older hpath hpv1
  refine ⟨hbase, ?_, ?_, hnot, ?_⟩
  · rw [hver]
    exact wal.CompareVersion_versionAt t
  · intro files walFiles hs
    have h1 : mt.wal.path ∉ walFiles := by
      rw [hpath]
      exact recover.select_spares hpv1 files walFiles hs
    exact ⟨h1, fun hm => h1 ((recover.sort_perm walFiles).mem_iff.mp hm)⟩
  · have hopen : ∀ h1, mt.wal.fd = some h1 → h1 = h ∧ world.lookup mt.wal.path = some h ∧
        ∃ name0, mt.wal.path = path.Join mt.dir name0 ∧
          wal.ParseVersion name0 = Res.ok mt.wal.version := by
      intro h1 e
      rw [hfd] at e
      cases e
      exact ⟨rfl, hl, _, hpath, hpv1⟩
    have hclosed : mt.wal.fd = none → h = world.files.length := by
      intro e
      rw [hfd] at e
      cases e
    rcases memtable.recover_cases hu hopen hclosed hrec with
      ⟨-, hf, -⟩ | ⟨ps, wa, rm, st1, hmem, -, hf0, hM, -, rfl, -⟩
    · exact ⟨by rw [os.lookup_files hf]; exact hl, [], by rw [os.dataOf_files hf]; simp⟩
    · obtain ⟨done, rest, ess, bodiess, extra, hps, -, hstep, -⟩ := hM
      have hq : mt.wal.path ∉ done := by
        intro hm
        exact hnot ((hmem _).mp (by rw [hps]; exact List.mem_append_left _ hm))
      simp only at hstep
      refine ⟨?_, ?_⟩
      · rw [World.Step.lookup_eq hstep hq, os.lookup_files hf0]
        exact hl
      · obtain ⟨⟨x, hx⟩, -⟩ := World.Step.dataOf_cur hstep
        exact ⟨x, by rw [hx, os.dataOf_files hf0]⟩

theorem memtable.recover_spares_current_witness :
    (sample.mtB.recover sample.codec sample.worldB).2.2.lookup sample.mtB.wal.path = some 1 ∧
      ¬ recover.older sample.mtB sample.worldB sample.mtB.wal.path :=
  have h := memtable.recover_spares_current sample.codec sample.mtB
    (sample.mtB.recover sample.codec sample.worldB).2.1 sample.t3 sample.worldA sample.worldB
    sample.worldB (sample.mtB.recover sample.codec sample.worldB).2.2
    (sample.mtB.recover sample.codec sample.worldB).1 1 rfl
    (World.namesUnique_of_nodup _ (by decide)) rfl (by decide) rfl
  ⟨h.2.2.2.2.1, h.2.2.2.1⟩

/-! ## The skip list draft: the level-0 chain under `Set` -/

/-- `SkipList.Set.run` ends as `SkipList.Set` does, and with the list that `Set` returns
when it returns one. -/
theorem SkipList.Set_run (s : SkipList) (e : Entry) :
    s.Set e =
      match SkipList.Set.run s e with
      | (Res.ok _, s1) => Res.ok s1
      | (Res.err x, _) => Res.err x
      | (Res.panic q, _) => Res.panic q := by
  have create : ∀ (update1 : List (Option Nat)) (level : Nat) (rand1 : List Float64),
      s.RandomLevel = (level, rand1) →
      (match (if level > s.level then
            SkipList.Set.raise s.head (level - s.level) s.level update1
          else Res.ok update1 : Res (List (Option Nat))) with
        | Res.ok update2 =>
          match SkipList.Set.splice s.heap.length (s.maxLevel + 1) update2
              (s.heap ++ [⟨⟨e.key, e.value, e.tombstone⟩, List.replicate level none⟩]) with
          | Res.ok heap2 =>
            Res.ok { s with
              level := if level > s.level then level else s.level, rand := rand1,
              heap := heap2,
              size := s.size + (e.key.length + e.value.length + 1 + 8 + level * 8) }
          | Res.err x => Res.err x
          | Res.panic q => Res.panic q
        | Res.err x => Res.err x
        | Res.panic q => Res.panic q : Res SkipList) =
      match SkipList.Set.create s e update1 with
      | (Res.ok _, s1) => Res.ok s1
      | (Res.err x, _) => Res.err x
      | (Res.panic q, _) => Res.panic q := by
    intro update1 level rand1 hrl
    unfold SkipList.Set.create
    rw [hrl]
    simp only
    generalize (if level > s.level then
      SkipList.Set.raise s.head (level - s.level) s.level update1
      else Res.ok update1) = r
    cases r with
    | ok update2 =>
      simp only
      generalize SkipList.Set.splice s.heap.length (s.maxLevel + 1) update2 _ = r2
      cases r2 <;> rfl
    | err x => rfl
    | panic q => rfl
  unfold SkipList.Set SkipList.Set.run
  simp only
  rcases SkipList.Set.descend s.heap e.key (s.level + 1) s.head
      (List.replicate s.maxLevel none) with ⟨current, update1⟩ | x | q
  · simp only
    rcases SkipList.deref s.heap current with cur | x | q
    · simp only
      rcases SkipList.index cur.next 0 with nxt | x | q
      · simp only
        cases nxt with
        | none =>
          simp only
          rcases hrl : s.RandomLevel with ⟨level, rand1⟩
          exact create update1 level rand1 hrl
        | some a =>
          simp only
          rcases SkipList.deref s.heap (some a) with x | x | q
          · simp only
            by_cases hk : compareKey x.entry.key e.key = 0
            · simp only [hk, if_true]
            · simp only [hk, if_false]
              rcases hrl : s.RandomLevel with ⟨level, rand1⟩
              exact create update1 level rand1 hrl
          · rfl
          · rfl
      · rfl
      · rfl
    · rfl
    · rfl
  · rfl
  · rfl

theorem SkipList.keeps_refl (s : SkipList) : s.keeps s :=
  ⟨rfl, rfl, fun _ x hx => ⟨x, hx, rfl, rfl⟩⟩

theorem SkipList.keeps_trans {s t u : SkipList} (h1 : s.keeps t) (h2 : t.keeps u) :
    s.keeps u := by
  refine ⟨h2.1.trans h1.1, h2.2.1.trans h1.2.1, ?_⟩
  intro a x hx
  obtain ⟨y, hy, hyn, hyk⟩ := h1.2.2 a x hx
  obtain ⟨z, hz, hzn, hzk⟩ := h2.2.2 a y hy
  exact ⟨z, hz, hzn.trans hyn, hzk.trans hyk⟩

theorem SkipList.Set.spliced_top (node : Nat) (update : List (Option Nat))
    (heap : List Element) :
    SkipList.Set.spliced node (update.length + 1) update heap = heap := by
  simp [SkipList.Set.spliced, SkipList.index]

/-- The create case keeps the head and every pointer: it ends in the loop that raises the
level, or in the first round of the splice loop, before any assignment to an element. -/
theorem SkipList.Set.create_keeps (s : SkipList) (e : Entry) (update1 : List (Option Nat))
    (hlen : update1.length = s.maxLevel) (hlev : s.level < s.maxLevel) :
    s.keeps (SkipList.Set.create s e update1).2 := by
  unfold SkipList.Set.create
  rcases s.RandomLevel with ⟨level, rand1⟩
  simp only
  have happ : ∀ (a : Nat) (x : Element), s.heap[a]? = some x →
      (s.heap ++ [(⟨⟨e.key, e.value, e.tombstone⟩, List.replicate level none⟩ : Element)])[a]? =
        some x := by
    intro a x hx
    have hlt : a < s.heap.length := (List.getElem?_eq_some_iff.mp hx).1
    rw [List.getElem?_append_left hlt]
    exact hx
  have hsplice : ∀ (update2 : List (Option Nat)), update2.length = s.maxLevel →
      SkipList.Set.splice s.heap.length (s.maxLevel + 1) update2
          (s.heap ++ [⟨⟨e.key, e.value, e.tombstone⟩, List.replicate level none⟩]) =
        Res.panic (Panic.indexOutOfRange s.maxLevel s.maxLevel) ∧
      SkipList.Set.spliced s.heap.length (s.maxLevel + 1) update2
          (s.heap ++ [⟨⟨e.key, e.value, e.tombstone⟩, List.replicate level none⟩]) =
        s.heap ++ [⟨⟨e.key, e.value, e.tombstone⟩, List.replicate level none⟩] := by
    intro update2 hl2
    have h1 := SkipList.Set.splice_top s.heap.length update2
      (s.heap ++ [⟨⟨e.key, e.value, e.tombstone⟩, List.replicate level none⟩])
    have h2 := SkipList.Set.spliced_top s.heap.length update2
      (s.heap ++ [⟨⟨e.key, e.value, e.tombstone⟩, List.replicate level none⟩])
    rw [hl2] at h1 h2
    exact ⟨h1, h2⟩
  by_cases hgt : level > s.level
  · simp only [hgt, if_true]
    rcases SkipList.Set.raise_spec s.head (level - s.level) s.level update1 (by omega)
      with hp | ⟨u2, hu, hl2⟩
    · rw [hp]
      exact ⟨rfl, rfl, fun a x hx => ⟨x, hx, rfl, rfl⟩⟩
    · rw [hu]
      obtain ⟨h1, h2⟩ := hsplice u2 (hl2.trans hlen)
      simp only
      rw [h1, h2]
      exact ⟨rfl, rfl, fun a x hx => ⟨x, happ a x hx, rfl, rfl⟩⟩
  · simp only [hgt, if_false]
    obtain ⟨h1, h2⟩ := hsplice update1 hlen
    rw [h1, h2]
    exact ⟨rfl, rfl, fun a x hx => ⟨x, happ a x hx, rfl, rfl⟩⟩

/-- Whatever the list and the entry, and whether the call returns or panics, `Set` of the
draft leaves the head, and in every element the key and the forward pointers, as they
were. -/
theorem SkipList.Set.run_keeps (s : SkipList) (e : Entry) :
    s.keeps (SkipList.Set.run s e).2 := by
  unfold SkipList.Set.run
  simp only
  rcases hd : SkipList.Set.descend s.heap e.key (s.level + 1) s.head
      (List.replicate s.maxLevel none) with ⟨current, update1⟩ | x | q
  · obtain ⟨hlen, hlev⟩ := SkipList.Set.descend_ok _ _ _ _ _ _ hd
    simp only [List.length_replicate] at hlen hlev
    simp only
    rcases SkipList.deref s.heap current with cur | x | q
    · simp only
      rcases SkipList.index cur.next 0 with nxt | x | q
      · simp only
        cases nxt with
        | none =>
          simp only
          exact SkipList.Set.create_keeps s e update1 hlen (by omega)
        | some a =>
          simp only
          rcases SkipList.deref s.heap (some a) with x | x | q
          · simp only
            by_cases hk : compareKey x.entry.key e.key = 0
            · simp only [hk, if_true]
              refine ⟨rfl, rfl, ?_⟩
              intro b y hy
              by_cases hab : a = b
              · exact ⟨{ y with entry :=
                  { y.entry with value := e.value, tombstone := e.tombstone } },
                  by simp [List.getElem?_modify, hab, hy], rfl, rfl⟩
              · exact ⟨y, by simp [List.getElem?_modify, hab, hy], rfl, rfl⟩
            · simp only [hk, if_false]
              exact SkipList.Set.create_keeps s e update1 hlen (by omega)
          · exact SkipList.keeps_refl s
          · exact SkipList.keeps_refl s
      · exact SkipList.keeps_refl s
      · exact SkipList.keeps_refl s
    · exact SkipList.keeps_refl s
    · exact SkipList.keeps_refl s
  · exact SkipList.keeps_refl s
  · exact SkipList.keeps_refl s

theorem SkipList.setEach_keeps (entries : List Entry) :
    ∀ (s : SkipList), s.keeps (s.setEach entries) := by
  induction entries with
  | nil => exact fun s => SkipList.keeps_refl s
  | cons e es ih =>
    intro s
    exact SkipList.keeps_trans (SkipList.Set.run_keeps s e) (ih _)

/-- C12. The ordering invariant of the level-0 chain.  Start from an empty list of the
draft, with `maxLevel` at least 1, any `p`, any value of `level` and any values of the random
source, and make any finite sequence of `Set` calls, each of which returns or panics.  Then
the level-0 chain from the head is strictly ascending by key and holds no key twice.  It is
so because the chain is still empty: no call of `Set` assigns a pointer (the create case
always ends in an index out of range, see `SkipList.Set.run_keeps`). -/
theorem SkipList.chain_ascending (maxLevel level : Nat) (p : Float64) (rand : List Float64)
    (h : 1 ≤ maxLevel) (entries : List Entry) :
    ∃ chain, ((SkipList.empty maxLevel p rand level).setEach entries).chain = some chain ∧
      (chain.map (fun e => e.key)).Pairwise (fun a b => strings.lt a b = true) ∧
      (chain.map (fun e => e.key)).Nodup ∧ chain = [] := by
  obtain ⟨hh, -, hk⟩ := SkipList.setEach_keeps entries (SkipList.empty maxLevel p rand level)
  obtain ⟨y, hy, hyn, -⟩ := hk 0 ⟨⟨[], [], false⟩, List.replicate maxLevel none⟩ rfl
  have h0 : y.next[0]? = some none := by
    rw [hyn]
    simp only [List.getElem?_replicate]
    rw [if_pos (by omega)]
  have hhead : (SkipList.empty maxLevel p rand level).head = some 0 := rfl
  refine ⟨[], ?_, by simp, by simp, rfl⟩
  unfold SkipList.chain SkipList.deref
  rw [hh, hhead]
  simp only [hy, h0]
  generalize ((SkipList.empty maxLevel p rand level).setEach entries).heap.length = n
  cases n <;> rfl

theorem SkipList.chain_ascending_witness :
    ((SkipList.empty 4 ⟨1, 2⟩ [] 0).setEach
      [⟨"b".toList, [2], false⟩, ⟨"a".toList, [1], false⟩]).chain = some [] :=
  have h := SkipList.chain_ascending 4 0 ⟨1, 2⟩ [] (by decide)
    [⟨"b".toList, [2], false⟩, ⟨"a".toList, [1], false⟩]
  match h with
  | ⟨_, h1, _, _, h4⟩ => h4 ▸ h1

theorem SkipList.keeps_length {s t : SkipList} (hk : s.keeps t) :
    s.heap.length ≤ t.heap.length := by
  by_contra hc
  have hlt : t.heap.length < s.heap.length := by omega
  obtain ⟨y, hy, -, -⟩ := hk.2.2 t.heap.length _ (List.getElem?_eq_getElem hlt)
  have := (List.getElem?_eq_some_iff.mp hy).1
  omega

theorem SkipList.chain.loop_none (heap : List Element) (fuel : Nat) (chain : List Entry) :
    SkipList.chain.loop heap fuel none chain = some chain := by
  cases fuel <;> rfl

theorem SkipList.chain.loop_keeps {s t : SkipList} (hk : s.keeps t) :
    ∀ (fuel : Nat) (ptr : Option Nat) (acc acc1 ch : List Entry),
      acc1.map (fun e => e.key) = acc.map (fun e => e.key) →
      SkipList.chain.loop s.heap fuel ptr acc = some ch →
      ∀ k, ∃ ch1, SkipList.chain.loop t.heap (fuel + k) ptr acc1 = some ch1 ∧
        ch1.map (fun e => e.key) = ch.map (fun e => e.key) := by
  intro fuel
  induction fuel with
  | zero =>
    intro ptr acc acc1 ch hacc h k
    cases ptr with
    | none =>
      rw [SkipList.chain.loop_none] at h
      cases h
      exact ⟨acc1, SkipList.chain.loop_none _ _ _, hacc⟩
    | some a => simp [SkipList.chain.loop] at h
  | succ fuel ih =>
    intro ptr acc acc1 ch hacc h k
    cases ptr with
    | none =>
      rw [SkipList.chain.loop_none] at h
      cases h
      exact ⟨acc1, SkipList.chain.loop_none _ _ _, hacc⟩
    | some a =>
      simp only [SkipList.chain.loop] at h
      rcases hx : s.heap[a]? with _ | x
      · simp [hx] at h
      · rw [hx] at h
        simp only at h
        rcases hn : x.next[0]? with _ | nxt
        · simp [hn] at h
        · rw [hn] at h
          simp only at h
          obtain ⟨y, hy, hyn, hyk⟩ := hk.2.2 a x hx
          have hn1 : y.next[0]? = some nxt := by rw [hyn]; exact hn
          have hacc1 : (acc1 ++ [y.entry]).map (fun e => e.key) =
              (acc ++ [x.entry]).map (fun e => e.key) := by
            simp [hacc, hyk]
          obtain ⟨ch1, h1, h2⟩ := ih nxt _ _ ch hacc1 h k
          refine ⟨ch1, ?_, h2⟩
          rw [Nat.succ_add]
          simp only [SkipList.chain.loop, hy, hn1]
          exact h1

/-- The keys of the level-0 chain, in order, are what they were in a list that `keeps`. -/
theorem SkipList.chain_keeps {s t : SkipList} (hk : s.keeps t) {ch : List Entry}
    (h : s.chain = some ch) :
    ∃ ch1, t.chain = some ch1 ∧ ch1.map (fun e => e.key) = ch.map (fun e => e.key) := by
  unfold SkipList.chain at h ⊢
  rcases hd : SkipList.deref s.heap s.head with hd0 | x | q
  · rw [hd] at h
    simp only at h
    obtain ⟨a, ha, hx⟩ := SkipList.deref_ok hd
    obtain ⟨y, hy, hyn, -⟩ := hk.2.2 a hd0 hx
    rcases hn : hd0.next[0]? with _ | first
    · simp [hn] at h
    · rw [hn] at h
      simp only at h
      have hn1 : y.next[0]? = some first := by rw [hyn]; exact hn
      have hdt : SkipList.deref t.heap t.head = Res.ok y := by
        rw [hk.1, ha]
        simp [SkipList.deref, hy]
      rw [hdt]
      simp only [hn1]
      obtain ⟨k, hk1⟩ : ∃ k, t.heap.length = s.heap.length + k :=
        ⟨t.heap.length - s.heap.length, by have := SkipList.keeps_length hk; omega⟩
      rw [hk1]
      exact SkipList.chain.loop_keeps hk _ _ [] [] ch rfl h k
  · rw [hd] at h
    cases h
  · rw [hd] at h
    cases h

/-- No run of `Set` calls of the draft, returning or panicking, changes the keys of the
level-0 chain or their order, whatever the list it starts from: a chain that is ascending
stays ascending, and gains no key. -/
theorem SkipList.setEach_chain_keys (s : SkipList) (entries : List Entry) (ch : List Entry)
    (h : s.chain = some ch) :
    ∃ ch1, (s.setEach entries).chain = some ch1 ∧
      ch1.map (fun e => e.key) = ch.map (fun e => e.key) :=
  SkipList.chain_keeps (SkipList.setEach_keeps entries s) h

theorem SkipList.setEach_chain_keys_witness :
    ∃ ch1, ((sample.abc 1).setEach [⟨"c".toList, [9], true⟩, ⟨"d".toList, [4], false⟩]).chain =
        some ch1 ∧
      ch1.map (fun e => e.key) = ["a".toList, "b".toList, "c".toList] :=
  SkipList.setEach_chain_keys (sample.abc 1) [⟨"c".toList, [9], true⟩, ⟨"d".toList, [4], false⟩]
    [⟨"a".toList, [1], false⟩, ⟨"b".toList, [2], false⟩, ⟨"c".toList, [3], false⟩] (by decide)
